import Mathlib

/-!
# Yorkie `Text` element: a verification development

A shallow embedding of `pkg/document/json/text.go` and
`pkg/document/proxy/text_proxy.go`.

Conventions of the embedding.

* A Go `string` is its byte sequence, a `List Nat` (every byte is below 256).
* A Go `rune` produced by converting a string is a non-negative code point, a
  `Nat`.
* A Go `int` is an `Int`; lengths never come near the 64-bit limit.
* A call that panics yields `none`; the receiver after the call is returned
  next to it, because a panic leaves the assignments made before it in place.
-/

namespace Yorkie

/-! ## UTF-8 as the Go language and package `unicode/utf8` define it -/

/-- Constant `utf8.RuneError`, the replacement character U+FFFD. -/
def RuneError : Nat := 0xFFFD

/-- Constant `utf8.MaxRune`. -/
def MaxRune : Nat := 0x10FFFF

/-- Table `first` of package `utf8` joined with `acceptRanges`: for a leading
byte, the byte length of the sequence it starts and the accepted range of the
second byte; `none` is the table entry `xx` (invalid leading byte).  Bytes
below `0x80` (entry `as`) are handled before the table is consulted. -/
def first (b : Nat) : Option (Nat × Nat × Nat) :=
  if b < 0xC2 then none
  else if b < 0xE0 then some (2, 0x80, 0xBF)
  else if b = 0xE0 then some (3, 0xA0, 0xBF)
  else if b < 0xED then some (3, 0x80, 0xBF)
  else if b = 0xED then some (3, 0x80, 0x9F)
  else if b < 0xF0 then some (3, 0x80, 0xBF)
  else if b = 0xF0 then some (4, 0x90, 0xBF)
  else if b < 0xF4 then some (4, 0x80, 0xBF)
  else if b = 0xF4 then some (4, 0x80, 0x8F)
  else none

/-- Function `utf8.DecodeRuneInString`: the first rune of `s` and its width in
bytes.  An invalid or short encoding gives `(RuneError, 1)`, the empty string
`(RuneError, 0)`.  The masks and shifts of the Go code are written
arithmetically: `b & 0x3F = b % 64`, `x << 6 = x * 64`, and `|` of values with
disjoint bits is `+`. -/
def DecodeRuneInString : List Nat → Nat × Nat
  | [] => (RuneError, 0)
  | s0 :: rest =>
    if s0 < 0x80 then (s0, 1)
    else
      match first s0 with
      | none => (RuneError, 1)
      | some (sz, lo, hi) =>
        match rest with
        | [] => (RuneError, 1)
        | s1 :: rest1 =>
          if rest1.length + 2 < sz then (RuneError, 1)
          else if s1 < lo ∨ hi < s1 then (RuneError, 1)
          else if sz ≤ 2 then (s0 % 32 * 64 + s1 % 64, 2)
          else
            match rest1 with
            | [] => (RuneError, 1)
            | s2 :: rest2 =>
              if s2 < 0x80 ∨ 0xBF < s2 then (RuneError, 1)
              else if sz ≤ 3 then (s0 % 16 * 4096 + s1 % 64 * 64 + s2 % 64, 3)
              else
                match rest2 with
                | [] => (RuneError, 1)
                | s3 :: _ =>
                  if s3 < 0x80 ∨ 0xBF < s3 then (RuneError, 1)
                  else (s0 % 8 * 262144 + s1 % 64 * 4096 + s2 % 64 * 64 + s3 % 64, 4)

/-- Function `utf8.EncodeRune` (the runtime uses the same encoding for
`string([]rune)`): the UTF-8 bytes of a rune; a surrogate or a value above
`MaxRune` is encoded as `RuneError`. -/
def EncodeRune (r : Nat) : List Nat :=
  if r ≤ 0x7F then [r]
  else if r ≤ 0x7FF then [0xC0 + r / 64, 0x80 + r % 64]
  else if MaxRune < r ∨ (0xD800 ≤ r ∧ r ≤ 0xDFFF) then [0xEF, 0xBF, 0xBD]
  else if r ≤ 0xFFFF then [0xE0 + r / 4096, 0x80 + r / 64 % 64, 0x80 + r % 64]
  else [0xF0 + r / 262144, 0x80 + r / 4096 % 64, 0x80 + r / 64 % 64, 0x80 + r % 64]

/-- Loop of the conversion `[]rune(s)`, with the number of remaining bytes as
fuel: decode one rune, advance by its width. -/
def runesLoop : Nat → List Nat → List Nat
  | 0, _ => []
  | _, [] => []
  | fuel + 1, b :: bs =>
    (DecodeRuneInString (b :: bs)).1 ::
      runesLoop fuel ((b :: bs).drop (DecodeRuneInString (b :: bs)).2)

/-- Conversion `[]rune(s)` of a string to its runes. -/
def stringToRunes (s : List Nat) : List Nat := runesLoop s.length s

/-- Conversion `string(rs)` of a rune slice to a string. -/
def runesToString (rs : List Nat) : List Nat := rs.flatMap EncodeRune

/-- Loop of `utf8.RuneCountInString`: every decoding step, valid or not,
counts as one rune. -/
def runeCountLoop : Nat → List Nat → Nat
  | 0, _ => 0
  | _, [] => 0
  | fuel + 1, b :: bs =>
    runeCountLoop fuel ((b :: bs).drop (DecodeRuneInString (b :: bs)).2) + 1

/-- Function `utf8.RuneCountInString`. -/
def RuneCountInString (s : List Nat) : Nat := runeCountLoop s.length s

/-- Loop of `utf8.ValidString`: false as soon as a decoding step meets an
invalid or short encoding (a `RuneError` of width 1). -/
def validLoop : Nat → List Nat → Bool
  | 0, _ => true
  | _, [] => true
  | fuel + 1, b :: bs =>
    !((DecodeRuneInString (b :: bs)).1 == RuneError && (DecodeRuneInString (b :: bs)).2 == 1)
      && validLoop fuel ((b :: bs).drop (DecodeRuneInString (b :: bs)).2)

/-- Function `utf8.ValidString`. -/
def ValidString (s : List Nat) : Bool := validLoop s.length s

/-- Function `utf8.ValidRune`: a code point that can be encoded, that is, in
range and not a surrogate half. -/
def ValidRune (r : Nat) : Bool :=
  (r < 0xD800) || (0xDFFF < r && r ≤ MaxRune)

/-! ## `TextValue` -/

/-- Type `TextValue` of `text.go`: a wrapper around one Go string. -/
structure TextValue where
  value : List Nat
deriving DecidableEq, Repr

/-- Function `NewTextValue`. -/
def NewTextValue (value : List Nat) : TextValue := { value := value }

/-- Method `TextValue.Len`: `utf8.RuneCountInString(t.value)`. -/
def TextValue.Len (t : TextValue) : Int := (RuneCountInString t.value : Nat)

/-- Method `TextValue.String`. -/
def TextValue.String (t : TextValue) : List Nat := t.value

/-- Method `TextValue.Split`.

```go
value := t.value
r := []rune(value)
t.value = string(r[0:offset])
return NewTextValue(string(r[offset:]))
```

The result is the receiver after the call and the returned value, `none` when
the call panics.  `r[0:offset]` is a slice expression on a slice, so its upper
bound is checked against the capacity of `r`, which the runtime may choose
larger than the length: `slack` is that surplus, and the runes between length
and capacity are zero.  `r[offset:]` is checked against the length. -/
def TextValue.Split (slack : Nat) (t : TextValue) (offset : Int) :
    TextValue × Option TextValue :=
  let r := stringToRunes t.value
  if offset < 0 ∨ (r.length + slack : Nat) < offset then (t, none)
  else
    let t1 : TextValue :=
      { value := runesToString ((r ++ List.replicate slack 0).take offset.toNat) }
    if (r.length : Nat) < offset then (t1, none)
    else (t1, some (NewTextValue (runesToString (r.drop offset.toNat))))

/-! ## Tickets, positions and selections: the types `text.go` imports -/

/-- The two operations of `time.Ticket` that `text.go` calls.  Package `time`
is an external collaborator of the text element, so the ticket type is a
parameter `T` of the development and these operations are all that is assumed
of it: `After a b` is `a.After(b)`, and `ActorIDHex a` is `a.ActorIDHex()`, the
key under which an actor is stored in maps. -/
class TicketOps (T : Type) where
  After : T → T → Bool
  ActorIDHex : T → String

/-- Modelled from the spec: `LogicalTicket`, a counter together with an actor
identity; "two tickets are totally ordered by (counter, actor-identity)
lexicographically; `after(a,b)` is true iff a strictly follows b in this
order".  The concrete ticket type at which the theorems are instantiated. -/
structure Ticket where
  lamport : Nat
  actorID : String
deriving DecidableEq, Repr

instance : TicketOps Ticket where
  After a b := decide (b.lamport < a.lamport) ||
    (decide (a.lamport = b.lamport) && decide (b.actorID < a.actorID))
  ActorIDHex a := a.actorID

/-- Modelled from the spec: `SplitNodeID`, "`{createdAt: LogicalTicket, offset:
int}` ... Two IDs are equal iff both fields match". -/
structure RGATreeSplitNodeID (T : Type) where
  createdAt : T
  offset : Int
deriving DecidableEq, Repr

/-- Modelled from the spec: `SplitNodePosition`, "`{nodeID: SplitNodeID,
offsetInNode: int}`". -/
structure RGATreeSplitNodePos (T : Type) where
  id : RGATreeSplitNodeID T
  relativeOffset : Int
deriving DecidableEq, Repr

/-- Modelled from the spec: `Selection`, "`{from: SplitNodePosition, to:
SplitNodePosition, updatedAt: LogicalTicket}`". -/
structure Selection (T : Type) where
  fromPos : RGATreeSplitNodePos T
  toPos : RGATreeSplitNodePos T
  updatedAt : T
deriving DecidableEq, Repr

/-- Modelled from the spec: the constructor `newSelection` of a `Selection`
from its three fields. -/
def newSelection {T : Type} (fromPos toPos : RGATreeSplitNodePos T) (updatedAt : T) :
    Selection T :=
  { fromPos := fromPos, toPos := toPos, updatedAt := updatedAt }

/-! ## The split-node sequence `RGATreeSplit` -/

/-- Modelled from the spec: a reference to a `SplitNode` (the `WeakRef` of
`insertionPredecessor`, the anchor of `insertAfter`), that is, a pointer to a
node object: the address of the object, and the ID stored in it (a node never
changes its ID, so the ID read through the pointer is part of the pointer's
value). -/
structure NodeRef (T : Type) where
  addr : Nat
  id : RGATreeSplitNodeID T
deriving DecidableEq, Repr

/-- Modelled from the spec: `SplitNode`, "`{id: SplitNodeID, value:
SplitNodeValue, removedAt: Optional<LogicalTicket>, insertionPredecessor:
Optional<WeakRef<SplitNode>>, next: Owned<SplitNode> (sequence link)}`".  The
`next` link is the order of the owning sequence's chain; `addr` is the address
of the node object, by which pointers to it are told apart. -/
structure RGATreeSplitNode (T : Type) where
  addr : Nat
  id : RGATreeSplitNodeID T
  value : TextValue
  removedAt : Option T
  insPrev : Option (NodeRef T)
deriving DecidableEq, Repr

/-- Modelled from the spec: the reference to a given `SplitNode`, the pointer
to the node object. -/
def RGATreeSplitNode.ref {T : Type} (n : RGATreeSplitNode T) : NodeRef T :=
  { addr := n.addr, id := n.id }

/-- Modelled from the spec: the constructor `NewRGATreeSplitNode(id, value)`
of a node that is neither tombstoned nor linked, allocated at address `addr`. -/
def NewRGATreeSplitNode {T : Type} (addr : Nat) (id : RGATreeSplitNodeID T) (value : TextValue) :
    RGATreeSplitNode T :=
  { addr := addr, id := id, value := value, removedAt := none, insPrev := none }

/-- Function `InitialTextNode` of `text.go`, allocating at address `addr`; the
constant `initialNodeID` is declared outside `text.go` and is a parameter. -/
def InitialTextNode {T : Type} (initialNodeID : RGATreeSplitNodeID T) (addr : Nat) :
    RGATreeSplitNode T :=
  NewRGATreeSplitNode addr initialNodeID { value := [] }

/-- Method `TextValue.DeepCopy`. -/
def TextValue.DeepCopy (t : TextValue) : TextValue := { value := t.value }

/-- Modelled from the spec: `SplitNode.deepCopy()`, "produces a structurally
independent node with the same ID, same content, same tombstone state"; its
`insertionPredecessor` is "to be re-resolved (not copied as a raw reference)
against the target sequence", so the copy starts without one.  The copy is a
new object, at address `addr`. -/
def RGATreeSplitNode.DeepCopy {T : Type} (n : RGATreeSplitNode T) (addr : Nat) :
    RGATreeSplitNode T :=
  { addr := addr, id := n.id, value := n.value.DeepCopy, removedAt := n.removedAt,
    insPrev := none }

/-- Modelled from the spec: `InsPrevID()`, the ID of the node's
`insertionPredecessor`, nil when the node has none. -/
def RGATreeSplitNode.InsPrevID {T : Type} (n : RGATreeSplitNode T) :
    Option (RGATreeSplitNodeID T) :=
  n.insPrev.map (fun r => r.id)

/-- Modelled from the spec: `SplitSequence`, "an ordered, singly-linked chain
of SplitNodes rooted at a sentinel head, plus an index from SplitNodeID to
SplitNode".  `chain` lists the nodes that follow the head, in link order;
`treeByID` maps an ID to the address of the node registered under it. -/
structure RGATreeSplit (T : Type) where
  initialHead : RGATreeSplitNode T
  chain : List (RGATreeSplitNode T)
  treeByID : RGATreeSplitNodeID T → Option Nat

/-- Modelled from the spec: `NewRGATreeSplit(head)`, the sequence that holds
only the head sentinel, which the index knows. -/
def NewRGATreeSplit {T : Type} [DecidableEq T] (initialHead : RGATreeSplitNode T) :
    RGATreeSplit T :=
  { initialHead := initialHead, chain := [],
    treeByID := fun id => if id = initialHead.id then some initialHead.addr else none }

/-- Modelled from the spec: `InitialHead()`, the pointer to the head sentinel. -/
def RGATreeSplit.InitialHead {T : Type} (s : RGATreeSplit T) : NodeRef T := s.initialHead.ref

/-- Modelled from the spec: `nodes()`, the "ordered enumeration of nodes" in
chain order.  The head sentinel is not among them: `deepCopy` inserts "copies
of every node in chain order after a fresh initial sentinel", so the sentinel
itself is not one of the nodes copied. -/
def RGATreeSplit.nodes {T : Type} (s : RGATreeSplit T) : List (RGATreeSplitNode T) := s.chain

/-- Modelled from the spec: `findNode(id)`, "O(1) index lookup"; the pointer
to the node registered under `id`, nil when there is none. -/
def RGATreeSplit.FindNode {T : Type} (s : RGATreeSplit T) (id : RGATreeSplitNodeID T) :
    Option (NodeRef T) :=
  (s.treeByID id).map (fun a => { addr := a, id := id })

/-- Modelled from the spec: the splice of `insertAfter` in the chain after the
head, `newNode` right after the node at address `anchor`; `none` when no node
of the chain is at that address. -/
def spliceAfter {T : Type} (anchor : Nat) (newNode : RGATreeSplitNode T) :
    List (RGATreeSplitNode T) → Option (List (RGATreeSplitNode T))
  | [] => none
  | n :: rest =>
    if n.addr = anchor then some (n :: newNode :: rest)
    else (spliceAfter anchor newNode rest).map (fun l => n :: l)

/-- Modelled from the spec: `insertAfter(anchor, newNode)`, "splices `newNode`
into the chain immediately following `anchor`, registers it in `idIndex`,
returns it.  Fails ... if `anchor` is not part of this sequence" (`none`). -/
def RGATreeSplit.InsertAfter {T : Type} [DecidableEq T] (s : RGATreeSplit T) (anchor : NodeRef T)
    (newNode : RGATreeSplitNode T) : Option (RGATreeSplit T × NodeRef T) :=
  let index : RGATreeSplitNodeID T → Option Nat :=
    fun id => if id = newNode.id then some newNode.addr else s.treeByID id
  if anchor.addr = s.initialHead.addr then
    some ({ s with chain := newNode :: s.chain, treeByID := index }, newNode.ref)
  else
    (spliceAfter anchor.addr newNode s.chain).map
      (fun l => ({ s with chain := l, treeByID := index }, newNode.ref))

/-- Modelled from the spec: `SetInsPrev(node)` called through the pointer
`target`, storing `node` (possibly nil) as the `insertionPredecessor` of the
node object at that address. -/
def RGATreeSplit.SetInsPrev {T : Type} (s : RGATreeSplit T) (target : NodeRef T)
    (node : Option (NodeRef T)) : RGATreeSplit T :=
  let set : RGATreeSplitNode T → RGATreeSplitNode T :=
    fun n => if n.addr = target.addr then { n with insPrev := node } else n
  { s with initialHead := set s.initialHead, chain := s.chain.map set }

/-- Modelled from the spec: `contentString()`, "the ordered concatenation of
`value` for every non-tombstoned node, in chain order". -/
def RGATreeSplit.contentString {T : Type} (s : RGATreeSplit T) : List Nat :=
  (s.chain.filter (fun n => n.removedAt.isNone)).flatMap (fun n => n.value.String)

/-! ## The `Text` element -/

/-- Type `Text` of `text.go`.  The three tickets are pointers and may be nil;
`selectionMap` is keyed by `ActorIDHex`. -/
structure Text (T : Type) where
  rgaTreeSplit : RGATreeSplit T
  selectionMap : String → Option (Selection T)
  createdAt : Option T
  updatedAt : Option T
  removedAt : Option T

/-- Function `NewText`: an empty selection map, `updatedAt` and `removedAt`
left at their zero value nil. -/
def NewText {T : Type} (elements : RGATreeSplit T) (createdAt : Option T) : Text T :=
  { rgaTreeSplit := elements, selectionMap := fun _ => none, createdAt := createdAt,
    updatedAt := none, removedAt := none }

/-- Method `Text.Nodes`. -/
def Text.Nodes {T : Type} (t : Text T) : List (RGATreeSplitNode T) := t.rgaTreeSplit.nodes

/-- Method `Text.CreatedAt`. -/
def Text.CreatedAt {T : Type} (t : Text T) : Option T := t.createdAt

/-- Method `Text.RemovedAt`. -/
def Text.RemovedAt {T : Type} (t : Text T) : Option T := t.removedAt

/-- Method `Text.UpdatedAt`. -/
def Text.UpdatedAt {T : Type} (t : Text T) : Option T := t.updatedAt

/-- Method `Text.SetUpdatedAt`. -/
def Text.SetUpdatedAt {T : Type} (t : Text T) (updatedAt : Option T) : Text T :=
  { t with updatedAt := updatedAt }

/-- Method `Text.Remove`, called with a ticket; the receiver after the call
and the returned flag.

```go
if t.removedAt == nil || removedAt.After(t.removedAt) {
    t.removedAt = removedAt
    return true
}
return false
```
-/
def Text.Remove {T : Type} [TicketOps T] (t : Text T) (removedAt : T) : Text T × Bool :=
  match t.removedAt with
  | none => ({ t with removedAt := some removedAt }, true)
  | some prev =>
    if TicketOps.After removedAt prev = true then ({ t with removedAt := some removedAt }, true)
    else (t, false)

/-- Method `Text.Select`, called with a ticket; the receiver after the call.
The debug log line has no effect on the element.

```go
if _, ok := t.selectionMap[updatedAt.ActorIDHex()]; !ok {
    t.selectionMap[updatedAt.ActorIDHex()] = newSelection(from, to, updatedAt)
    return
}
prevSelection := t.selectionMap[updatedAt.ActorIDHex()]
if updatedAt.After(prevSelection.updatedAt) {
    t.selectionMap[updatedAt.ActorIDHex()] = newSelection(from, to, updatedAt)
}
```
-/
def Text.Select {T : Type} [TicketOps T] (t : Text T) (fromPos toPos : RGATreeSplitNodePos T)
    (updatedAt : T) : Text T :=
  let store : String → Option (Selection T) :=
    fun k => if k = TicketOps.ActorIDHex updatedAt then some (newSelection fromPos toPos updatedAt)
      else t.selectionMap k
  match t.selectionMap (TicketOps.ActorIDHex updatedAt) with
  | none => { t with selectionMap := store }
  | some prevSelection =>
    if TicketOps.After updatedAt prevSelection.updatedAt = true then
      { t with selectionMap := store }
    else t

/-- State of the loop of `Text.DeepCopy`: the sequence under construction, the
pointer `current`, and the number of warnings logged so far. -/
structure CopyState (T : Type) where
  rgaTreeSplit : RGATreeSplit T
  current : NodeRef T
  warnings : Nat

/-- Body of the loop of `Text.DeepCopy` for one source node, whose copy is
allocated at address `addr`.

```go
current = rgaTreeSplit.InsertAfter(current, node.DeepCopy())
insPrevID := node.InsPrevID()
if insPrevID != nil {
    insPrevNode := rgaTreeSplit.FindNode(insPrevID)
    if insPrevNode == nil {
        log.Logger.Warn("insPrevNode should be presence")
    }
    current.SetInsPrev(insPrevNode)
}
```
-/
def deepCopyStep {T : Type} [DecidableEq T] (st : CopyState T) (addr : Nat)
    (node : RGATreeSplitNode T) : Option (CopyState T) :=
  match st.rgaTreeSplit.InsertAfter st.current (node.DeepCopy addr) with
  | none => none
  | some (seq, current) =>
    match node.InsPrevID with
    | none => some { rgaTreeSplit := seq, current := current, warnings := st.warnings }
    | some insPrevID =>
      let insPrevNode := seq.FindNode insPrevID
      some { rgaTreeSplit := seq.SetInsPrev current insPrevNode, current := current,
             warnings := if insPrevNode.isNone then st.warnings + 1 else st.warnings }

/-- The loop `for _, node := range t.Nodes()` of `Text.DeepCopy`; the copies
are allocated at consecutive addresses from `addr` on. -/
def deepCopyLoop {T : Type} [DecidableEq T] :
    CopyState T → Nat → List (RGATreeSplitNode T) → Option (CopyState T)
  | st, _, [] => some st
  | st, addr, node :: rest =>
    match deepCopyStep st addr node with
    | none => none
    | some st1 => deepCopyLoop st1 (addr + 1) rest

/-- Method `Text.DeepCopy`.  `alloc` is the first free address: the new head
sentinel is allocated there and the node copies after it.  The result is the
copy together with the number of warnings logged, `none` if a call fails.

```go
rgaTreeSplit := NewRGATreeSplit(InitialTextNode())
current := rgaTreeSplit.InitialHead()
for _, node := range t.Nodes() { ... }
return NewText(rgaTreeSplit, t.createdAt)
```
-/
def Text.DeepCopy {T : Type} [DecidableEq T] (initialNodeID : RGATreeSplitNodeID T) (alloc : Nat)
    (t : Text T) : Option (Text T × Nat) :=
  let rgaTreeSplit := NewRGATreeSplit (InitialTextNode initialNodeID alloc)
  (deepCopyLoop { rgaTreeSplit := rgaTreeSplit, current := rgaTreeSplit.InitialHead,
                  warnings := 0 } (alloc + 1) t.Nodes).map
    (fun st => (NewText st.rgaTreeSplit t.createdAt, st.warnings))

/-! ## `Text.Edit`, `Text.CreateRange` and the editing facade `TextProxy` -/

/-- The type of `latestCreatedAtMapByActor`, a `map[string]*time.Ticket` that
may be nil (`none`). -/
abbrev LatestCreatedAtMap (T : Type) : Type := Option (String → Option T)

/-- Modelled from the spec: the operation-log record, "`{elementCreatedAt:
LogicalTicket, from: SplitNodePosition, to: SplitNodePosition,
updatedLatestCreatedAtByActor: Map<ActorIdentity,LogicalTicket>, content:
string, executedAt: LogicalTicket}`". -/
structure EditOperation (T : Type) where
  parentCreatedAt : Option T
  fromPos : RGATreeSplitNodePos T
  toPos : RGATreeSplitNodePos T
  maxCreatedAtMapByActor : LatestCreatedAtMap T
  content : List Nat
  executedAt : T

/-- Modelled from the spec: the constructor `operation.NewEdit` of the
operation-log record from its six fields, in the order of the call. -/
def NewEdit {T : Type} (parentCreatedAt : Option T) (fromPos toPos : RGATreeSplitNodePos T)
    (maxCreatedAtMapByActor : LatestCreatedAtMap T) (content : List Nat) (executedAt : T) :
    EditOperation T :=
  { parentCreatedAt := parentCreatedAt, fromPos := fromPos, toPos := toPos,
    maxCreatedAtMapByActor := maxCreatedAtMapByActor, content := content,
    executedAt := executedAt }

/-- The functions that `text.go` and `text_proxy.go` call and that are declared
elsewhere in the repository, taken as parameters.  Each returns the state it
leaves behind and its results, `none` when it panics.

* `createRange` is `RGATreeSplit.createRange(from, to)`;
* `edit` is `RGATreeSplit.edit(from, to, latestCreatedAtMapByActor, content,
  editedAt)`;
* `IssueTimeTicket` and `Push` are the methods of `change.Context`, whose state
  is of type `Ctx`. -/
structure Collaborators (T Ctx : Type) where
  createRange : RGATreeSplit T → Int → Int →
    RGATreeSplit T × Option (RGATreeSplitNodePos T × RGATreeSplitNodePos T)
  edit : RGATreeSplit T → RGATreeSplitNodePos T → RGATreeSplitNodePos T →
    LatestCreatedAtMap T → TextValue → T →
    RGATreeSplit T × Option (RGATreeSplitNodePos T × LatestCreatedAtMap T)
  IssueTimeTicket : Ctx → Ctx × T
  Push : Ctx → EditOperation T → Ctx

/-- Method `Text.CreateRange` (called `FindBoundary` in `text_proxy.go`): a
forward to `rgaTreeSplit.createRange`. -/
def Text.CreateRange {T Ctx : Type} (env : Collaborators T Ctx) (t : Text T) (fromIdx toIdx : Int) :
    Text T × Option (RGATreeSplitNodePos T × RGATreeSplitNodePos T) :=
  ({ t with rgaTreeSplit := (env.createRange t.rgaTreeSplit fromIdx toIdx).1 },
    (env.createRange t.rgaTreeSplit fromIdx toIdx).2)

/-- Method `Text.Edit`: a forward to `rgaTreeSplit.edit` with
`NewTextValue(content)`, followed by a debug log line. -/
def Text.Edit {T Ctx : Type} (env : Collaborators T Ctx) (t : Text T)
    (fromPos toPos : RGATreeSplitNodePos T) (latestCreatedAtMapByActor : LatestCreatedAtMap T)
    (content : List Nat) (editedAt : T) :
    Text T × Option (RGATreeSplitNodePos T × LatestCreatedAtMap T) :=
  ({ t with rgaTreeSplit :=
      (env.edit t.rgaTreeSplit fromPos toPos latestCreatedAtMapByActor (NewTextValue content)
        editedAt).1 },
    (env.edit t.rgaTreeSplit fromPos toPos latestCreatedAtMapByActor (NewTextValue content)
      editedAt).2)

/-- Type `TextProxy` of `text_proxy.go`: the embedded `Text` and the change
context. -/
structure TextProxy (T Ctx : Type) where
  Text : Text T
  context : Ctx

/-- Function `NewTextProxy`. -/
def NewTextProxy {T Ctx : Type} (ctx : Ctx) (rgaTreeSplit : RGATreeSplit T) (createdAt : Option T) :
    TextProxy T Ctx :=
  { Text := NewText rgaTreeSplit createdAt, context := ctx }

/-- Function `ProxyText` of `text_proxy.go`: the same loop as `Text.DeepCopy`
(there with `NewRGATreeSplit()`, `TextNodes()` and `FindTextNode`), whose result
is wrapped by `NewTextProxy`.

```go
rgaTreeSplit := datatype.NewRGATreeSplit()
current := rgaTreeSplit.InitialHead()
for _, textNode := range text.TextNodes() { ... }
return NewTextProxy(ctx, rgaTreeSplit, text.CreatedAt())
```
-/
def ProxyText {T Ctx : Type} [DecidableEq T] (initialNodeID : RGATreeSplitNodeID T) (alloc : Nat)
    (ctx : Ctx) (text : Text T) : Option (TextProxy T Ctx × Nat) :=
  let rgaTreeSplit := NewRGATreeSplit (InitialTextNode initialNodeID alloc)
  (deepCopyLoop { rgaTreeSplit := rgaTreeSplit, current := rgaTreeSplit.InitialHead,
                  warnings := 0 } (alloc + 1) text.Nodes).map
    (fun st => (NewTextProxy ctx st.rgaTreeSplit text.CreatedAt, st.warnings))

/-- How a call ended: it returned, or it panicked with a message. -/
inductive Outcome where
  | returned
  | panicked (message : String)
deriving DecidableEq, Repr

/-- Method `TextProxy.Edit`; the proxy after the call and how the call ended.

```go
if from > to {
    panic("from should be less than or equal to to")
}
fromPos, toPos := p.Text.FindBoundary(from, to)
ticket := p.context.IssueTimeTicket()
_, maxCreationMapByActor := p.Text.Edit(fromPos, toPos, nil, content, ticket)
p.context.Push(operation.NewEdit(
    p.CreatedAt(), fromPos, toPos, maxCreationMapByActor, content, ticket))
return p
```
-/
def TextProxy.Edit {T Ctx : Type} (env : Collaborators T Ctx) (p : TextProxy T Ctx)
    (fromIdx toIdx : Int) (content : List Nat) : TextProxy T Ctx × Outcome :=
  if fromIdx > toIdx then (p, Outcome.panicked "from should be less than or equal to to")
  else
    match p.Text.CreateRange env fromIdx toIdx with
    | (text1, none) => ({ p with Text := text1 }, Outcome.panicked "createRange")
    | (text1, some (fromPos, toPos)) =>
      match text1.Edit env fromPos toPos none content (env.IssueTimeTicket p.context).2 with
      | (text2, none) =>
        ({ Text := text2, context := (env.IssueTimeTicket p.context).1 }, Outcome.panicked "edit")
      | (text2, some (_, maxCreationMapByActor)) =>
        ({ Text := text2,
           context := env.Push (env.IssueTimeTicket p.context).1
             (NewEdit text2.CreatedAt fromPos toPos maxCreationMapByActor content
               (env.IssueTimeTicket p.context).2) },
          Outcome.returned)

/-! ## Range resolution and the edit algorithm of the sequence -/

/-- Modelled from the spec: the length of a node's content, "rune count, not
byte count". -/
def RGATreeSplitNode.contentLen {T : Type} (n : RGATreeSplitNode T) : Nat :=
  RuneCountInString n.value.value

/-- Modelled from the spec: `SplitNode.split(at)`, "splits `value` at `at`,
constructs a new node whose ID is `{createdAt: this.id.createdAt, offset:
this.id.offset + at}` ... and returns it for the caller to splice into the
chain immediately after `this`".  The result is the node after the split and
the new node, allocated at address `addr`; the new node takes over the
tombstone state and records the node it is split from as the node it is
inserted after.  `none` when `TextValue.Split` panics.  (The offset passed is
always within the length, where the capacity surplus of the rune slice plays
no part, so it is taken as 0.) -/
def RGATreeSplitNode.split {T : Type} (n : RGATreeSplitNode T) (addr : Nat) (offset : Nat) :
    Option (RGATreeSplitNode T × RGATreeSplitNode T) :=
  match n.value.Split 0 offset with
  | (v, some r) =>
    some ({ n with value := v },
      { addr := addr, id := { createdAt := n.id.createdAt, offset := n.id.offset + offset },
        value := r, removedAt := n.removedAt, insPrev := some n.ref })
  | (_, none) => none

/-- Modelled from the spec: `visibleLength()`, "derived by traversing
non-tombstoned nodes". -/
def RGATreeSplit.visibleLength {T : Type} (s : RGATreeSplit T) : Nat :=
  ((s.chain.filter (fun n => n.removedAt.isNone)).map (fun n => n.contentLen)).sum

/-- Modelled from the spec: the walk of `resolveRange` up to one boundary,
"walks the visible (non-tombstoned) content accumulating length; whenever a
requested boundary falls strictly inside a node's visible span, the node is
split in place".  `prev` is the last node passed (the head at the start), `k`
the number of runes still to pass.  The result is the part of the chain
passed, the node at whose end the boundary falls, and the rest of the chain;
`none` when the chain ends before the boundary. -/
def resolveOffset {T : Type} (addr : Nat) :
    RGATreeSplitNode T → Nat → List (RGATreeSplitNode T) →
      Option (List (RGATreeSplitNode T) × RGATreeSplitNode T × List (RGATreeSplitNode T))
  | prev, k, [] => if k = 0 then some ([], prev, []) else none
  | prev, k, n :: rest =>
    if k = 0 then some ([], prev, n :: rest)
    else if n.removedAt.isSome then
      (resolveOffset addr prev k rest).map (fun r => (n :: r.1, r.2.1, r.2.2))
    else if k < n.contentLen then
      (n.split addr k).map (fun lr => ([lr.1], lr.1, lr.2 :: rest))
    else
      (resolveOffset addr n (k - n.contentLen) rest).map (fun r => (n :: r.1, r.2.1, r.2.2))

/-- Modelled from the spec: the `SplitNodePosition` that names the end of a
node, "`{nodeID, offsetInNode}`" with the length of the node as offset. -/
def RGATreeSplitNode.endPos {T : Type} (n : RGATreeSplitNode T) : RGATreeSplitNodePos T :=
  { id := n.id, relativeOffset := (n.contentLen : Nat) }

/-- Modelled from the spec: `resolveRange(fromOffset, toOffset)` (in `text.go`
`createRange`), one walk that resolves first `fromOffset` and then `toOffset`,
splitting a node where a boundary falls strictly inside it, and registers the
nodes that the splits created (allocated at `alloc` and `alloc + 1`).
"Requires `fromOffset <= toOffset`; both must lie within `[0,
visibleLength]`": otherwise it fails (`none`) without touching the sequence.
Each returned position names the end of an existing node. -/
def RGATreeSplit.createRange {T : Type} [DecidableEq T] (alloc : Nat) (s : RGATreeSplit T)
    (fromIdx toIdx : Int) :
    RGATreeSplit T × Option (RGATreeSplitNodePos T × RGATreeSplitNodePos T) :=
  if fromIdx < 0 ∨ toIdx < fromIdx ∨ (s.visibleLength : Int) < toIdx then (s, none)
  else
    match resolveOffset alloc s.initialHead fromIdx.toNat s.chain with
    | none => (s, none)
    | some (a1, l, b1) =>
      match resolveOffset (alloc + 1) l (toIdx.toNat - fromIdx.toNat) b1 with
      | none => (s, none)
      | some (a2, m, b2) =>
        ({ s with
            chain := a1 ++ a2 ++ b2,
            treeByID := fun id =>
              match (a1 ++ a2 ++ b2).find? (fun n => decide (alloc ≤ n.addr) && decide (n.id = id)) with
              | some n => some n.addr
              | none => s.treeByID id },
          some (l.endPos, m.endPos))

/-- Modelled from the spec: the gate of the tombstone phase, "whose creator is
causally known to the editor — i.e. the node's `createdAt` ticket is not
strictly after the editor's recorded `latestCreatedAtByActor[creator]`
(absence means "unknown", which blocks removal)".  A call that comes with no
recorded map at all is the edit of the local editor, which the spec's
scenarios have tombstone the range it names and whose returned map must let a
replica "replay this exact edit with identical outcomes": to the local editor
every node of its own sequence is known. -/
def causallyKnown {T : Type} [TicketOps T] (latestCreatedAtMapByActor : LatestCreatedAtMap T)
    (n : RGATreeSplitNode T) : Bool :=
  match latestCreatedAtMapByActor with
  | none => true
  | some m =>
    match m (TicketOps.ActorIDHex n.id.createdAt) with
    | none => false
    | some latestCreatedAt => !TicketOps.After n.id.createdAt latestCreatedAt

/-- Modelled from the spec: the tombstone phase at one visited node, "for each
visited non-tombstoned node whose creator is causally known to the editor ...
mark it removed with `editTicket`". -/
def tombstone {T : Type} [TicketOps T] (latestCreatedAtMapByActor : LatestCreatedAtMap T)
    (editedAt : T) (n : RGATreeSplitNode T) : RGATreeSplitNode T :=
  if n.removedAt.isNone && causallyKnown latestCreatedAtMapByActor n then
    { n with removedAt := some editedAt }
  else n

/-- Modelled from the spec: step 2 of `applyEdit` at one visited node,
"`updatedLatest[node.creator] = max(existing, node.createdAt)`". -/
def recordCreation {T : Type} [TicketOps T] (m : String → Option T) (n : RGATreeSplitNode T) :
    String → Option T :=
  fun actor =>
    if actor = TicketOps.ActorIDHex n.id.createdAt then
      match m actor with
      | none => some n.id.createdAt
      | some existing =>
        if TicketOps.After n.id.createdAt existing = true then some n.id.createdAt
        else some existing
    else m actor

/-- Modelled from the spec: how `applyEdit` finds the node a position names,
by its ID; the nodes before the node that carries `id`, that node, and the
nodes after it; `none` when no node carries `id`. -/
def splitAtID {T : Type} [DecidableEq T] (id : RGATreeSplitNodeID T) :
    List (RGATreeSplitNode T) →
      Option (List (RGATreeSplitNode T) × RGATreeSplitNode T × List (RGATreeSplitNode T))
  | [] => none
  | n :: rest =>
    if n.id = id then some ([], n, rest)
    else (splitAtID id rest).map (fun r => (n :: r.1, r.2.1, r.2.2))

/-- Modelled from the spec: `applyEdit(from, to, latestCreatedAtByActor,
newContent, editTicket)` (in `text.go` `rgaTreeSplit.edit`).  The nodes
"strictly between `from` and `to` in chain order" are those after the node at
whose end `from` lies, up to the node at whose end `to` lies; each goes
through the tombstone phase and is recorded in the returned map; then, "if
`newContent` is non-empty", a new node carrying it, with the edit ticket as
creation ticket and the node of `from` as insertion predecessor, is spliced in
"immediately after `from`'s node via `insertAfter`", at address `addr`.  A
position whose node is not in the sequence, or a `to` that lies before
`from`, is a hard failure (`none`). -/
def RGATreeSplit.edit {T : Type} [DecidableEq T] [TicketOps T] (addr : Nat) (s : RGATreeSplit T)
    (fromPos toPos : RGATreeSplitNodePos T) (latestCreatedAtMapByActor : LatestCreatedAtMap T)
    (content : TextValue) (editedAt : T) :
    RGATreeSplit T × Option (RGATreeSplitNodePos T × LatestCreatedAtMap T) :=
  match splitAtID fromPos.id (s.initialHead :: s.chain) with
  | none => (s, none)
  | some (pre, l, after) =>
    match (if toPos.id = fromPos.id then some ([], l, after) else splitAtID toPos.id after) with
    | none => (s, none)
    | some (mid, m, rest) =>
      let visited := if toPos.id = fromPos.id then [] else mid ++ [m]
      let s1 : RGATreeSplit T :=
        { s with chain := (pre ++ l :: (visited.map (tombstone latestCreatedAtMapByActor editedAt)
            ++ rest)).tail }
      let updated : LatestCreatedAtMap T :=
        some (visited.foldl recordCreation (latestCreatedAtMapByActor.getD (fun _ => none)))
      if content.Len > 0 then
        match s1.InsertAfter l.ref
            { addr := addr, id := { createdAt := editedAt, offset := 0 }, value := content,
              removedAt := none, insPrev := some l.ref } with
        | none => (s1, none)
        | some (s2, _) =>
          (s2, some ({ id := { createdAt := editedAt, offset := 0 },
                       relativeOffset := content.Len }, updated))
      else (s1, some (toPos, updated))

/-- The collaborators of `text.go` and `text_proxy.go` with the sequence
functions as modelled from the spec; the nodes that `createRange` splits off
are allocated at `alloc` and `alloc + 1`, the node that `edit` inserts at
`alloc + 2`.  The change context stays a parameter. -/
def specCollaborators {T Ctx : Type} [DecidableEq T] [TicketOps T] (alloc : Nat)
    (issue : Ctx → Ctx × T) (push : Ctx → EditOperation T → Ctx) : Collaborators T Ctx :=
  { createRange := RGATreeSplit.createRange alloc,
    edit := RGATreeSplit.edit (alloc + 2),
    IssueTimeTicket := issue,
    Push := push }

/-- The runes of the visible content of a list of nodes: those of the values
of its non-tombstoned nodes, in order. -/
def visibleRunes {T : Type} (l : List (RGATreeSplitNode T)) : List Nat :=
  (l.filter (fun n => n.removedAt.isNone)).flatMap (fun n => stringToRunes n.value.value)

/-- The visible content of a list of nodes, as `contentString` concatenates
it. -/
def visibleString {T : Type} (l : List (RGATreeSplitNode T)) : List Nat :=
  (l.filter (fun n => n.removedAt.isNone)).flatMap (fun n => n.value.String)

/-- One step of range resolution relates the chain before to the chain after:
either nothing changed, or one visible node `n` was split strictly inside, at
the address `addr`. -/
def SplitStep {T : Type} (addr : Nat) (before after : List (RGATreeSplitNode T)) : Prop :=
  after = before ∨
    ∃ X n Y j left right, before = X ++ n :: Y ∧ after = X ++ left :: right :: Y ∧
      n.removedAt = none ∧ 0 < j ∧ j < n.contentLen ∧ n.split addr j = some (left, right)

/-- The invariants of a sequence, given as the list of all its nodes (the head
first): the node objects lie at distinct addresses, "node IDs are unique
within a document's SplitSequence", and they stay unique when a visible node
is split, because no node carries an ID that lies strictly inside the span of
another one. -/
def WellFormed {T : Type} (ns : List (RGATreeSplitNode T)) : Prop :=
  (ns.map (fun n => n.addr)).Nodup ∧
  (ns.map (fun n => n.id)).Nodup ∧
  ∀ n ∈ ns, n.removedAt = none → ∀ j : Nat, 0 < j → j < n.contentLen →
    ({ createdAt := n.id.createdAt, offset := n.id.offset + j } : RGATreeSplitNodeID T) ∉
      ns.map (fun n => n.id)

/-! ## A closed form of the copy loop, used in the proofs -/

/-- The index after the nodes of a list have been registered one after the
other at consecutive addresses from `a` on. -/
def registerAll {T : Type} [DecidableEq T] (index : RGATreeSplitNodeID T → Option Nat) (a : Nat) :
    List (RGATreeSplitNode T) → (RGATreeSplitNodeID T → Option Nat)
  | [] => index
  | n :: rest => registerAll (fun id => if id = n.id then some a else index id) (a + 1) rest

/-- The copies that the loop of `Text.DeepCopy` appends for a list of source
nodes, starting from the index `index` and the address `a`: each copy is
resolved against the index as it stands once the copy itself is registered. -/
def copyNodes {T : Type} [DecidableEq T] (index : RGATreeSplitNodeID T → Option Nat) (a : Nat) :
    List (RGATreeSplitNode T) → List (RGATreeSplitNode T)
  | [] => []
  | n :: rest =>
    { addr := a, id := n.id, value := n.value.DeepCopy, removedAt := n.removedAt,
      insPrev := n.InsPrevID.bind
        (fun p => ((if p = n.id then some a else index p).map (fun x => { addr := x, id := p }))) } ::
      copyNodes (fun id => if id = n.id then some a else index id) (a + 1) rest

/-- The number of warnings the loop logs for a list of source nodes. -/
def copyWarnings {T : Type} [DecidableEq T] (index : RGATreeSplitNodeID T → Option Nat) (a : Nat) :
    List (RGATreeSplitNode T) → Nat
  | [] => 0
  | n :: rest =>
    (match n.InsPrevID with
      | none => 0
      | some p => if (if p = n.id then some a else index p).isNone then 1 else 0) +
      copyWarnings (fun id => if id = n.id then some a else index id) (a + 1) rest

/-- The loop invariant: every node of the sequence under construction lies
below the next free address `a`, and `current` points to the last node of the
chain, whose address no other node shares (to the head when the chain is
empty). -/
def CopyInv {T : Type} (s : RGATreeSplit T) (current : Nat) (a : Nat) : Prop :=
  s.initialHead.addr < a ∧
  (∀ n ∈ s.chain, n.addr < a) ∧
  ((s.chain = [] ∧ current = s.initialHead.addr) ∨
    ∃ pre l, s.chain = pre ++ [l] ∧ current = l.addr ∧
      l.addr ≠ s.initialHead.addr ∧ ∀ x ∈ pre, x.addr ≠ l.addr)

/-! ## Concrete texts at which claims are evaluated -/

/-- The ID of the head sentinel in the examples. -/
def exInitialID : RGATreeSplitNodeID Ticket :=
  { createdAt := { lamport := 0, actorID := "" }, offset := 0 }

/-- The ID of a node created by actor "a" at counter `n`. -/
def exID (n : Nat) : RGATreeSplitNodeID Ticket :=
  { createdAt := { lamport := n, actorID := "a" }, offset := 0 }

/-- Node `A` of `exForwardText`: its insertion predecessor is node `B`. -/
def exForwardA : RGATreeSplitNode Ticket :=
  { addr := 1, id := exID 1, value := { value := [0x41] }, removedAt := none,
    insPrev := some { addr := 2, id := exID 2 } }

/-- Node `B` of `exForwardText`: its insertion predecessor is the head. -/
def exForwardB : RGATreeSplitNode Ticket :=
  { addr := 2, id := exID 2, value := { value := [0x42] }, removedAt := none,
    insPrev := some { addr := 0, id := exInitialID } }

/-- A text whose chain is `A, B`, where the insertion predecessor of `A` is
`B`, a node of the same sequence that comes later in the chain, and the
insertion predecessor of `B` is the head sentinel. -/
def exForwardText : Text Ticket :=
  { rgaTreeSplit :=
      { initialHead := InitialTextNode exInitialID 0,
        chain := [exForwardA, exForwardB],
        treeByID := fun id =>
          if id = exID 2 then some 2 else if id = exID 1 then some 1
          else if id = exInitialID then some 0 else none },
    selectionMap := fun _ => none,
    createdAt := some { lamport := 1, actorID := "a" },
    updatedAt := none,
    removedAt := none }

/-- A text whose only node `A` has an insertion predecessor whose ID, `exID 7`,
belongs to no node of the sequence. -/
def exDanglingText : Text Ticket :=
  { rgaTreeSplit :=
      { initialHead := InitialTextNode exInitialID 0,
        chain :=
          [{ addr := 1, id := exID 1, value := { value := [0x41] }, removedAt := none,
             insPrev := some { addr := 9, id := exID 7 } }],
        treeByID := fun id =>
          if id = exID 1 then some 1 else if id = exInitialID then some 0 else none },
    selectionMap := fun _ => none,
    createdAt := some { lamport := 1, actorID := "a" },
    updatedAt := none,
    removedAt := none }

/-- Node `A` of `exOrderedText`: its insertion predecessor is the head. -/
def exOrderedA : RGATreeSplitNode Ticket :=
  { addr := 1, id := exID 1, value := { value := [0x41] }, removedAt := none,
    insPrev := some { addr := 0, id := exInitialID } }

/-- Node `B` of `exOrderedText`: tombstoned, its insertion predecessor is `A`. -/
def exOrderedB : RGATreeSplitNode Ticket :=
  { addr := 2, id := exID 2, value := { value := [0x42] },
    removedAt := some { lamport := 3, actorID := "a" },
    insPrev := some { addr := 1, id := exID 1 } }

/-- A text whose chain is `A, B`, where the insertion predecessor of `A` is the
head sentinel and that of `B` is `A`; `B` is tombstoned. -/
def exOrderedText : Text Ticket :=
  { rgaTreeSplit :=
      { initialHead := InitialTextNode exInitialID 0,
        chain := [exOrderedA, exOrderedB],
        treeByID := fun id =>
          if id = exID 2 then some 2 else if id = exID 1 then some 1
          else if id = exInitialID then some 0 else none },
    selectionMap := fun _ => none,
    createdAt := some { lamport := 1, actorID := "a" },
    updatedAt := none,
    removedAt := none }

/-- Collaborators for the examples: a change context that counts the tickets
it has issued for actor "a" and records the operations pushed, and a sequence
whose `createRange` and `edit` return positions at the head without changing
anything. -/
def exCollaborators : Collaborators Ticket (Nat × List (EditOperation Ticket)) :=
  { createRange := fun s _ _ =>
      (s, some ({ id := s.initialHead.id, relativeOffset := 0 },
                { id := s.initialHead.id, relativeOffset := 0 })),
    edit := fun s fromPos _ latest _ _ => (s, some (fromPos, latest)),
    IssueTimeTicket := fun ctx => ((ctx.1 + 1, ctx.2), { lamport := ctx.1 + 1, actorID := "a" }),
    Push := fun ctx op => (ctx.1, ctx.2 ++ [op]) }

/-- A proxy of `exOrderedText` whose context has issued four tickets and holds
no operation. -/
def exProxy : TextProxy Ticket (Nat × List (EditOperation Ticket)) :=
  { Text := exOrderedText, context := (4, []) }

/-- A change context for the examples: it counts the tickets it has issued for
actor "a" and records the operations pushed. -/
def exIssue (ctx : Nat × List (EditOperation Ticket)) : (Nat × List (EditOperation Ticket)) × Ticket :=
  ((ctx.1 + 1, ctx.2), { lamport := ctx.1 + 1, actorID := "a" })

/-- Pushing an operation to the example change context. -/
def exPush (ctx : Nat × List (EditOperation Ticket)) (op : EditOperation Ticket) :
    Nat × List (EditOperation Ticket) :=
  (ctx.1, ctx.2 ++ [op])

/-- A proxy of a text that holds the single node "Hello World", inserted by
actor "a" with ticket 1. -/
def exHelloWorld : TextProxy Ticket (Nat × List (EditOperation Ticket)) :=
  { Text :=
      { rgaTreeSplit :=
          { initialHead := InitialTextNode exInitialID 0,
            chain :=
              [{ addr := 1, id := exID 1,
                 value := { value := [0x48, 0x65, 0x6C, 0x6C, 0x6F, 0x20, 0x57, 0x6F, 0x72, 0x6C,
                   0x64] },
                 removedAt := none, insPrev := some { addr := 0, id := exInitialID } }],
            treeByID := fun id =>
              if id = exID 1 then some 1 else if id = exInitialID then some 0 else none },
        selectionMap := fun _ => none,
        createdAt := some { lamport := 0, actorID := "a" },
        updatedAt := none,
        removedAt := none },
    context := (1, []) }

/-- A proxy of a text with two visible nodes whose values are not valid UTF-8
on their own: the first holds the byte `0xE4`, the second the bytes `0xB8
0x96`; together they read as the single character U+4E16. -/
def exBrokenRunes : TextProxy Ticket (Nat × List (EditOperation Ticket)) :=
  { Text :=
      { rgaTreeSplit :=
          { initialHead := InitialTextNode exInitialID 0,
            chain :=
              [{ addr := 1, id := exID 1, value := { value := [0xE4] }, removedAt := none,
                 insPrev := some { addr := 0, id := exInitialID } },
               { addr := 2, id := exID 2, value := { value := [0xB8, 0x96] }, removedAt := none,
                 insPrev := some { addr := 1, id := exID 1 } }],
            treeByID := fun id =>
              if id = exID 2 then some 2 else if id = exID 1 then some 1
              else if id = exInitialID then some 0 else none },
        selectionMap := fun _ => none,
        createdAt := some { lamport := 0, actorID := "a" },
        updatedAt := none,
        removedAt := none },
    context := (2, []) }

/-- A proxy of a text that holds the single node "Hello", inserted by actor "a"
with ticket 1. -/
def exHello : TextProxy Ticket (Nat × List (EditOperation Ticket)) :=
  { Text :=
      { rgaTreeSplit :=
          { initialHead := InitialTextNode exInitialID 0,
            chain :=
              [{ addr := 1, id := exID 1, value := { value := [0x48, 0x65, 0x6C, 0x6C, 0x6F] },
                 removedAt := none, insPrev := some { addr := 0, id := exInitialID } }],
            treeByID := fun id =>
              if id = exID 1 then some 1 else if id = exInitialID then some 0 else none },
        selectionMap := fun _ => none,
        createdAt := some { lamport := 0, actorID := "a" },
        updatedAt := none,
        removedAt := none },
    context := (1, []) }

/-! ## Marshalling and sequences of calls on a `Text` -/

/-- Method `Text.Marshal`: `fmt.Sprintf("\"%s\"", t.rgaTreeSplit.marshal())`,
the marshalled sequence between two double quotes.  `marshal` is the method of
`RGATreeSplit`, declared outside `text.go` and taken as a parameter. -/
def Text.Marshal {T : Type} (marshal : RGATreeSplit T → List Nat) (t : Text T) : List Nat :=
  [0x22] ++ marshal t.rgaTreeSplit ++ [0x22]

/-- A call of one of the mutating methods of `Text`, with its arguments. -/
inductive TextCall (T : Type) where
  | Remove (removedAt : T)
  | Select (fromPos toPos : RGATreeSplitNodePos T) (updatedAt : T)
  | SetUpdatedAt (updatedAt : Option T)
  | Edit (fromPos toPos : RGATreeSplitNodePos T)
      (latestCreatedAtMapByActor : LatestCreatedAtMap T) (content : List Nat) (editedAt : T)

/-- The receiver after one call (whatever the call returned, and also when
`Edit` panicked in the sequence). -/
def Text.call {T Ctx : Type} [TicketOps T] (env : Collaborators T Ctx) (t : Text T) :
    TextCall T → Text T
  | TextCall.Remove removedAt => (t.Remove removedAt).1
  | TextCall.Select fromPos toPos updatedAt => t.Select fromPos toPos updatedAt
  | TextCall.SetUpdatedAt updatedAt => t.SetUpdatedAt updatedAt
  | TextCall.Edit fromPos toPos latest content editedAt =>
    (t.Edit env fromPos toPos latest content editedAt).1

/-- The receiver after a finite sequence of calls. -/
def Text.calls {T Ctx : Type} [TicketOps T] (env : Collaborators T Ctx) (t : Text T)
    (cs : List (TextCall T)) : Text T :=
  cs.foldl (Text.call env) t

/-- A fresh Text on which actor "a" has selected with ticket 5 and which was
then removed with ticket 2 of actor "a". -/
def exSelectedText : Text Ticket :=
  (((NewText (NewRGATreeSplit (InitialTextNode exInitialID 0)) (some ⟨1, "a"⟩)).Select
    ⟨exID 1, 0⟩ ⟨exID 1, 1⟩ ⟨5, "a"⟩).Remove ⟨2, "a"⟩).1

/-- The selection map that `Text.Select` leaves, as a function of the map it
finds (see `select_eq_selectMap`). -/
def selectMap {T : Type} [TicketOps T] (m : String → Option (Selection T))
    (fromPos toPos : RGATreeSplitNodePos T) (updatedAt : T) : String → Option (Selection T) :=
  fun k =>
    match m (TicketOps.ActorIDHex updatedAt) with
    | none =>
      if k = TicketOps.ActorIDHex updatedAt then some (newSelection fromPos toPos updatedAt)
      else m k
    | some prevSelection =>
      if TicketOps.After updatedAt prevSelection.updatedAt = true then
        if k = TicketOps.ActorIDHex updatedAt then some (newSelection fromPos toPos updatedAt)
        else m k
      else m k

/-! ## The two-pass copy -/

/-- Modelled from the spec: the first pass of the deep copy, "builds a fresh
SplitSequence by inserting copies of every node in chain order after a fresh
initial sentinel"; no insertion predecessor is resolved in this pass.  The
copies are allocated at consecutive addresses from `addr` on; the result is the
sequence and the pointers to the copies, in chain order, `none` if an insertion
fails. -/
def copyAllNodes {T : Type} [DecidableEq T] :
    RGATreeSplit T → NodeRef T → Nat → List (RGATreeSplitNode T) →
      Option (RGATreeSplit T × List (NodeRef T))
  | s, _, _, [] => some (s, [])
  | s, current, addr, node :: rest =>
    match s.InsertAfter current (node.DeepCopy addr) with
    | none => none
    | some (seq, copy) =>
      (copyAllNodes seq copy (addr + 1) rest).map (fun r => (r.1, copy :: r.2))

/-- Modelled from the spec: the second pass of the deep copy, "in a second
pass resolves each copy's `insertionPredecessor` by looking up the original
predecessor's ID in the new sequence's index", the index being complete by
then.  "A predecessor ID that fails to resolve ... must be treated as an
error": the result is `none`.  The list pairs each source node with the
pointer to its copy. -/
def resolveInsPrevs {T : Type} :
    RGATreeSplit T → List (RGATreeSplitNode T × NodeRef T) → Option (RGATreeSplit T)
  | s, [] => some s
  | s, (node, copy) :: rest =>
    match node.InsPrevID with
    | none => resolveInsPrevs s rest
    | some insPrevID =>
      match s.FindNode insPrevID with
      | none => none
      | some insPrevNode => resolveInsPrevs (s.SetInsPrev copy (some insPrevNode)) rest

/-- Modelled from the spec: the deep copy in two passes, "(1) structural copy
pass producing all nodes with their own IDs and content, (2)
relation-resolution pass fixing up back-references", wrapped by `NewText` as in
`Text.DeepCopy`. -/
def Text.twoPassCopy {T : Type} [DecidableEq T] (initialNodeID : RGATreeSplitNodeID T)
    (alloc : Nat) (t : Text T) : Option (Text T) :=
  let rgaTreeSplit := NewRGATreeSplit (InitialTextNode initialNodeID alloc)
  match copyAllNodes rgaTreeSplit rgaTreeSplit.InitialHead (alloc + 1) t.Nodes with
  | none => none
  | some (seq, copies) =>
    (resolveInsPrevs seq (t.Nodes.zip copies)).map (fun s => NewText s t.createdAt)

/-- The copies that the first pass appends for a list of source nodes, from the
address `a` on. -/
def plainCopies {T : Type} (a : Nat) : List (RGATreeSplitNode T) → List (RGATreeSplitNode T)
  | [] => []
  | n :: rest => n.DeepCopy a :: plainCopies (a + 1) rest

/-- The pointers to the copies of the first pass. -/
def copyRefs {T : Type} (a : Nat) : List (RGATreeSplitNode T) → List (NodeRef T)
  | [] => []
  | n :: rest => (n.DeepCopy a).ref :: copyRefs (a + 1) rest

/-- The copies once the second pass has resolved each insertion predecessor
against the index `index`. -/
def resolvedCopies {T : Type} (index : RGATreeSplitNodeID T → Option Nat) (a : Nat) :
    List (RGATreeSplitNode T) → List (RGATreeSplitNode T)
  | [] => []
  | n :: rest =>
    { addr := a, id := n.id, value := n.value.DeepCopy, removedAt := n.removedAt,
      insPrev := n.InsPrevID.bind (fun p => (index p).map (fun x => { addr := x, id := p })) } ::
      resolvedCopies index (a + 1) rest

/-! ## Facts about the UTF-8 functions -/

theorem first_of_two (b : Nat) (h1 : 0xC2 ≤ b) (h2 : b < 0xE0) :
    first b = some (2, 0x80, 0xBF) := by
  unfold first; split_ifs <;> first | rfl | omega

theorem first_of_three (b : Nat) (h1 : 0xE0 ≤ b) (h2 : b < 0xF0) :
    first b = some (3, if b = 0xE0 then 0xA0 else 0x80, if b = 0xED then 0x9F else 0xBF) := by
  unfold first; split_ifs <;> first | rfl | omega

theorem first_of_four (b : Nat) (h1 : 0xF0 ≤ b) (h2 : b < 0xF5) :
    first b = some (4, if b = 0xF0 then 0x90 else 0x80, if b = 0xF4 then 0x8F else 0xBF) := by
  unfold first; split_ifs <;> first | rfl | omega

theorem decode_encode (r : Nat) (tl : List Nat) (h : ValidRune r = true) :
    DecodeRuneInString (EncodeRune r ++ tl) = (r, (EncodeRune r).length) := by
  simp only [ValidRune, MaxRune, Bool.or_eq_true, Bool.and_eq_true, decide_eq_true_eq] at h
  unfold EncodeRune
  split_ifs with h1 h2 h3 h4
  · simp only [List.cons_append, List.nil_append, DecodeRuneInString, List.length_singleton]
    rw [if_pos (by omega)]
  · simp only [List.cons_append, List.nil_append, DecodeRuneInString]
    rw [first_of_two _ (by omega) (by omega)]
    simp only []
    rw [if_neg (by omega), if_neg (by omega), if_neg (by omega), if_pos (by omega)]
    simp only [List.length_cons, List.length_nil, Prod.mk.injEq, and_true]
    omega
  · simp only [MaxRune] at h3; omega
  · simp only [MaxRune, not_or, not_lt] at h3
    simp only [List.cons_append, List.nil_append, DecodeRuneInString]
    rw [first_of_three _ (by omega) (by omega)]
    simp only [List.length_cons]
    rw [if_neg (by omega), if_neg (by omega), if_neg (by split_ifs <;> omega), if_neg (by omega),
      if_neg (by omega), if_pos (by omega)]
    simp only [List.length_cons, List.length_nil, Prod.mk.injEq, and_true]
    omega
  · simp only [MaxRune, not_or, not_lt] at h3
    simp only [List.cons_append, List.nil_append, DecodeRuneInString]
    rw [first_of_four _ (by omega) (by omega)]
    simp only [List.length_cons]
    rw [if_neg (by omega), if_neg (by omega), if_neg (by split_ifs <;> omega), if_neg (by omega),
      if_neg (by omega), if_neg (by omega), if_neg (by omega)]
    simp only [List.length_cons, List.length_nil, Prod.mk.injEq, and_true]
    omega

theorem first_of_invalid (b : Nat) (h : b < 0xC2 ∨ 0xF5 ≤ b) : first b = none := by
  unfold first; split_ifs <;> first | rfl | omega

/-- The five outcomes of one decoding step. -/
theorem decode_cases (s0 : Nat) (rest : List Nat) :
    DecodeRuneInString (s0 :: rest) = (RuneError, 1) ∨
    (s0 < 0x80 ∧ DecodeRuneInString (s0 :: rest) = (s0, 1)) ∨
    (∃ s1 r1, rest = s1 :: r1 ∧ 0xC2 ≤ s0 ∧ s0 < 0xE0 ∧ 0x80 ≤ s1 ∧ s1 ≤ 0xBF ∧
      DecodeRuneInString (s0 :: rest) = (s0 % 32 * 64 + s1 % 64, 2)) ∨
    (∃ s1 s2 r2, rest = s1 :: s2 :: r2 ∧ 0xE0 ≤ s0 ∧ s0 < 0xF0 ∧
      (0x80 ≤ s1 ∧ (s0 = 0xE0 → 0xA0 ≤ s1)) ∧ (s1 ≤ 0xBF ∧ (s0 = 0xED → s1 ≤ 0x9F)) ∧
      0x80 ≤ s2 ∧ s2 ≤ 0xBF ∧
      DecodeRuneInString (s0 :: rest) = (s0 % 16 * 4096 + s1 % 64 * 64 + s2 % 64, 3)) ∨
    (∃ s1 s2 s3 r3, rest = s1 :: s2 :: s3 :: r3 ∧ 0xF0 ≤ s0 ∧ s0 < 0xF5 ∧
      (0x80 ≤ s1 ∧ (s0 = 0xF0 → 0x90 ≤ s1)) ∧ (s1 ≤ 0xBF ∧ (s0 = 0xF4 → s1 ≤ 0x8F)) ∧
      0x80 ≤ s2 ∧ s2 ≤ 0xBF ∧ 0x80 ≤ s3 ∧ s3 ≤ 0xBF ∧
      DecodeRuneInString (s0 :: rest) =
        (s0 % 8 * 262144 + s1 % 64 * 4096 + s2 % 64 * 64 + s3 % 64, 4)) := by
  by_cases h0 : s0 < 0x80
  · right; left; exact ⟨h0, by simp only [DecodeRuneInString, if_pos h0]⟩
  by_cases hinv : s0 < 0xC2 ∨ 0xF5 ≤ s0
  · left; simp only [DecodeRuneInString, if_neg h0, first_of_invalid s0 hinv]
  simp only [not_or, not_lt, not_le] at hinv
  cases rest with
  | nil => left; simp only [DecodeRuneInString, if_neg h0]; cases first s0 <;> rfl
  | cons s1 r1 =>
    by_cases h2 : s0 < 0xE0
    · simp only [DecodeRuneInString, if_neg h0, first_of_two s0 hinv.1 h2]
      rw [if_neg (by omega)]
      by_cases hb : s1 < 0x80 ∨ 0xBF < s1
      · left; rw [if_pos hb]
      · right; right; left
        refine ⟨s1, r1, rfl, hinv.1, h2, by omega, by omega, ?_⟩
        rw [if_neg hb, if_pos (le_refl 2)]
    by_cases h3 : s0 < 0xF0
    · simp only [DecodeRuneInString, if_neg h0, first_of_three s0 (by omega) h3]
      by_cases hl : r1.length + 2 < 3
      · left; rw [if_pos hl]
      rw [if_neg hl]
      by_cases hb : s1 < (if s0 = 0xE0 then 0xA0 else 0x80) ∨
          (if s0 = 0xED then 0x9F else 0xBF) < s1
      · left; rw [if_pos hb]
      rw [if_neg hb, if_neg (by omega)]
      cases r1 with
      | nil => simp at hl
      | cons s2 r2 =>
        simp only []
        by_cases hc : s2 < 0x80 ∨ 0xBF < s2
        · left; rw [if_pos hc]
        · right; right; right; left
          refine ⟨s1, s2, r2, rfl, by omega, h3, by split_ifs at hb <;> omega,
            by split_ifs at hb <;> omega, by omega, by omega, ?_⟩
          rw [if_neg hc, if_pos (le_refl 3)]
    · simp only [DecodeRuneInString, if_neg h0, first_of_four s0 (by omega) hinv.2]
      by_cases hl : r1.length + 2 < 4
      · left; rw [if_pos hl]
      rw [if_neg hl]
      by_cases hb : s1 < (if s0 = 0xF0 then 0x90 else 0x80) ∨
          (if s0 = 0xF4 then 0x8F else 0xBF) < s1
      · left; rw [if_pos hb]
      rw [if_neg hb, if_neg (by omega)]
      cases r1 with
      | nil => simp at hl
      | cons s2 r2 =>
        simp only []
        by_cases hc : s2 < 0x80 ∨ 0xBF < s2
        · left; rw [if_pos hc]
        rw [if_neg hc, if_neg (by omega)]
        cases r2 with
        | nil => simp at hl
        | cons s3 r3 =>
          simp only []
          by_cases hd : s3 < 0x80 ∨ 0xBF < s3
          · left; rw [if_pos hd]
          · right; right; right; right
            refine ⟨s1, s2, s3, r3, rfl, by omega, hinv.2, by split_ifs at hb <;> omega,
              by split_ifs at hb <;> omega, by omega, by omega, by omega, by omega, ?_⟩
            rw [if_neg hd]

theorem decode_size (s0 : Nat) (rest : List Nat) :
    1 ≤ (DecodeRuneInString (s0 :: rest)).2 ∧
      (DecodeRuneInString (s0 :: rest)).2 ≤ (s0 :: rest).length := by
  rcases decode_cases s0 rest with h | ⟨_, h⟩ | ⟨s1, r1, hr, _, _, _, _, h⟩ |
    ⟨s1, s2, r2, hr, _, _, _, _, _, _, h⟩ | ⟨s1, s2, s3, r3, hr, _, _, _, _, _, _, _, _, h⟩ <;>
    rw [h] <;> simp_all

theorem decode_valid (s0 : Nat) (rest : List Nat) :
    ValidRune (DecodeRuneInString (s0 :: rest)).1 = true := by
  simp only [ValidRune, MaxRune, Bool.or_eq_true, Bool.and_eq_true, decide_eq_true_eq]
  rcases decode_cases s0 rest with h | ⟨_, h⟩ | ⟨s1, r1, hr, _, _, _, _, h⟩ |
    ⟨s1, s2, r2, hr, _, _, h1, h2, _, _, h⟩ |
    ⟨s1, s2, s3, r3, hr, _, _, h1, h2, _, _, _, _, h⟩ <;> rw [h] <;> simp only [RuneError] <;>
    omega

theorem decode_take (s0 : Nat) (rest : List Nat)
    (hv : ¬((DecodeRuneInString (s0 :: rest)).1 = RuneError ∧
      (DecodeRuneInString (s0 :: rest)).2 = 1)) :
    EncodeRune (DecodeRuneInString (s0 :: rest)).1 =
      (s0 :: rest).take (DecodeRuneInString (s0 :: rest)).2 := by
  rcases decode_cases s0 rest with h | ⟨h0, h⟩ | ⟨s1, r1, hr, _, _, _, _, h⟩ |
    ⟨s1, s2, r2, hr, _, _, h1, h2, _, _, h⟩ |
    ⟨s1, s2, s3, r3, hr, _, _, h1, h2, _, _, _, _, h⟩
  · rw [h] at hv; simp at hv
  · rw [h]; simp only [EncodeRune, List.take_succ_cons, List.take_zero]
    rw [if_pos (by omega)]
  · rw [h]; subst hr; clear hv h
    simp only [EncodeRune, MaxRune, List.take_succ_cons, List.take_zero]
    rw [if_neg (by omega), if_pos (by omega)]
    congr 1
    · omega
    · congr 1; omega
  · rw [h]; subst hr; clear hv h
    simp only [EncodeRune, MaxRune, List.take_succ_cons, List.take_zero]
    rw [if_neg (by omega), if_neg (by omega), if_neg (by omega), if_pos (by omega)]
    congr 1
    · omega
    · congr 1
      · omega
      · congr 1; omega
  · rw [h]; subst hr; clear hv h
    simp only [EncodeRune, MaxRune, List.take_succ_cons, List.take_zero]
    rw [if_neg (by omega), if_neg (by omega), if_neg (by omega), if_neg (by omega)]
    congr 1
    · omega
    · congr 1
      · omega
      · congr 1
        · omega
        · congr 1; omega

theorem length_runesLoop (fuel : Nat) (s : List Nat) :
    (runesLoop fuel s).length = runeCountLoop fuel s := by
  induction fuel generalizing s with
  | zero => simp [runesLoop, runeCountLoop]
  | succ n ih =>
    cases s with
    | nil => simp [runesLoop, runeCountLoop]
    | cons b bs => simp only [runesLoop, runeCountLoop, List.length_cons, ih]

theorem length_stringToRunes (s : List Nat) :
    (stringToRunes s).length = RuneCountInString s :=
  length_runesLoop s.length s

theorem runesLoop_valid (fuel : Nat) (s : List Nat) :
    ∀ r ∈ runesLoop fuel s, ValidRune r = true := by
  induction fuel generalizing s with
  | zero => simp [runesLoop]
  | succ n ih =>
    cases s with
    | nil => simp [runesLoop]
    | cons b bs =>
      intro r hr
      simp only [runesLoop, List.mem_cons] at hr
      rcases hr with rfl | hr
      · exact decode_valid b bs
      · exact ih _ r hr

theorem stringToRunes_valid (s : List Nat) : ∀ r ∈ stringToRunes s, ValidRune r = true :=
  runesLoop_valid s.length s

theorem encodeRune_ne_nil (r : Nat) : ∃ b bs, EncodeRune r = b :: bs := by
  unfold EncodeRune
  split_ifs <;> exact ⟨_, _, rfl⟩

theorem runesToString_cons (r : Nat) (rs : List Nat) :
    runesToString (r :: rs) = EncodeRune r ++ runesToString rs := by
  simp [runesToString]

theorem runesToString_append (xs ys : List Nat) :
    runesToString (xs ++ ys) = runesToString xs ++ runesToString ys := by
  simp [runesToString]

theorem runesLoop_encode (rs : List Nat) (hv : ∀ r ∈ rs, ValidRune r = true) (fuel : Nat)
    (hf : (runesToString rs).length ≤ fuel) : runesLoop fuel (runesToString rs) = rs := by
  induction rs generalizing fuel with
  | nil => cases fuel <;> simp [runesToString, runesLoop]
  | cons r rs ih =>
    have hr : ValidRune r = true := hv r (List.mem_cons_self r rs)
    have hd := decode_encode r (runesToString rs) hr
    obtain ⟨b, bs, hb⟩ := encodeRune_ne_nil r
    rw [runesToString_cons] at hf ⊢
    rw [hb] at hd hf ⊢
    cases fuel with
    | zero => simp at hf
    | succ n =>
      simp only [List.cons_append] at hd hf ⊢
      simp only [runesLoop, hd, List.length_cons, List.drop_succ_cons]
      rw [List.drop_left, ih (fun x hx => hv x (List.mem_cons_of_mem r hx)) n]
      simp only [List.length_cons, List.length_append] at hf
      omega

theorem stringToRunes_runesToString (rs : List Nat) (hv : ∀ r ∈ rs, ValidRune r = true) :
    stringToRunes (runesToString rs) = rs :=
  runesLoop_encode rs hv _ (le_refl _)

theorem encode_runesLoop (fuel : Nat) (s : List Nat) (hf : s.length ≤ fuel)
    (hv : validLoop fuel s = true) : runesToString (runesLoop fuel s) = s := by
  induction fuel generalizing s with
  | zero =>
    have : s = [] := List.length_eq_zero.mp (Nat.le_zero.mp hf)
    subst this; simp [runesLoop, runesToString]
  | succ n ih =>
    cases s with
    | nil => simp [runesLoop, runesToString]
    | cons b bs =>
      simp only [validLoop, Bool.and_eq_true, Bool.not_eq_true', Bool.and_eq_false_iff,
        beq_eq_false_iff_ne, ne_eq] at hv
      have hsz := decode_size b bs
      have ht := decode_take b bs (by
        rintro ⟨h1, h2⟩
        rcases hv.1 with h | h
        · exact h h1
        · exact h h2)
      rw [runesLoop, runesToString_cons, ht, ih _ _ hv.2, List.take_append_drop]
      simp only [List.length_drop, List.length_cons] at hsz hf ⊢
      omega

theorem runesToString_stringToRunes (s : List Nat) (hv : ValidString s = true) :
    runesToString (stringToRunes s) = s :=
  encode_runesLoop s.length s (le_refl _) hv

theorem validLoop_encode (rs : List Nat) (hv : ∀ r ∈ rs, ValidRune r = true) (fuel : Nat) :
    validLoop fuel (runesToString rs) = true := by
  induction rs generalizing fuel with
  | nil => cases fuel <;> simp [runesToString, validLoop]
  | cons r rs ih =>
    have hr : ValidRune r = true := hv r (List.mem_cons_self r rs)
    have hd := decode_encode r (runesToString rs) hr
    have hlen : (EncodeRune r).length = 1 → r ≠ RuneError := by
      unfold EncodeRune RuneError
      split_ifs <;> (simp; try omega)
    obtain ⟨b, bs, hb⟩ := encodeRune_ne_nil r
    rw [runesToString_cons]
    rw [hb] at hd hlen ⊢
    cases fuel with
    | zero => rfl
    | succ n =>
      simp only [List.cons_append] at hd ⊢
      simp only [validLoop, hd, List.length_cons, List.drop_succ_cons, List.drop_left,
        ih (fun x hx => hv x (List.mem_cons_of_mem r hx)) n, Bool.and_true,
        Bool.not_eq_true', Bool.and_eq_false_iff, beq_eq_false_iff_ne, ne_eq]
      by_cases h1 : bs.length + 1 = 1
      · left; exact hlen (by simpa using h1)
      · right; exact h1

/-- A string survives the conversion to runes and back exactly when it is valid
UTF-8. -/
theorem runes_round_trip_iff (s : List Nat) :
    runesToString (stringToRunes s) = s ↔ ValidString s = true := by
  constructor
  · intro h
    have := validLoop_encode (stringToRunes s) (stringToRunes_valid s) s.length
    rw [h] at this
    exact this
  · exact runesToString_stringToRunes s

theorem runeCount_runesToString (rs : List Nat) (hv : ∀ r ∈ rs, ValidRune r = true) :
    RuneCountInString (runesToString rs) = rs.length := by
  rw [← length_stringToRunes, stringToRunes_runesToString rs hv]

/-- What `Split` does at an offset within the rune length. -/
theorem split_in_range (slack : Nat) (v : TextValue) (offset : Int) (h0 : 0 ≤ offset)
    (h1 : offset ≤ v.Len) :
    v.Split slack offset =
      ({ value := runesToString ((stringToRunes v.value).take offset.toNat) },
        some (NewTextValue (runesToString ((stringToRunes v.value).drop offset.toNat)))) := by
  have hl : ((stringToRunes v.value).length : Int) = v.Len := by
    simp [TextValue.Len, length_stringToRunes]
  have hn : offset.toNat ≤ (stringToRunes v.value).length := by omega
  simp only [TextValue.Split]
  rw [if_neg (by push_cast; omega), if_neg (by omega), List.take_append_of_le_length hn]

/-! ## Claims about `TextValue` -/

/-- C1 (as stated, refuted): the value holding the single byte `0xFF`, which is
not valid UTF-8, split at offset 0 (within `[0, Len()]`, here `[0, 1]`): the
call returns, the receiver becomes empty and the returned value holds the three
bytes of U+FFFD, so the concatenation of the two parts is not the string held
before the call. -/
theorem split_round_trip_counterexample :
    (0 : Int) ≤ 0 ∧ (0 : Int) ≤ (TextValue.mk [0xFF]).Len ∧
    (TextValue.mk [0xFF]).Split 0 0 = (TextValue.mk [], some (TextValue.mk [0xEF, 0xBF, 0xBD])) ∧
    ¬ (∃ r, ((TextValue.mk [0xFF]).Split 0 0).2 = some r ∧
      ((TextValue.mk [0xFF]).Split 0 0).1.String ++ r.String = (TextValue.mk [0xFF]).String) := by
  decide

/-- C1 (amended): for every TextValue `v` and every offset with
`0 ≤ offset ≤ v.Len()`, `v.Split(offset)` returns a value `r`, the rune counts
of the two parts add up to the `Len()` that `v` had before the call, and the
concatenation `v.String() + r.String()` equals the string held before the call
exactly when that string is valid UTF-8. -/
theorem split_round_trip (slack : Nat) (v : TextValue) (offset : Int) (h0 : 0 ≤ offset)
    (h1 : offset ≤ v.Len) :
    ∃ r, (v.Split slack offset).2 = some r ∧
      (v.Split slack offset).1.Len + r.Len = v.Len ∧
      ((v.Split slack offset).1.String ++ r.String = v.String ↔ ValidString v.value = true) := by
  have hl : ((stringToRunes v.value).length : Int) = v.Len := by
    simp [TextValue.Len, length_stringToRunes]
  have hn : offset.toNat ≤ (stringToRunes v.value).length := by omega
  have hvalid := stringToRunes_valid v.value
  refine ⟨_, by rw [split_in_range slack v offset h0 h1], ?_, ?_⟩
  · rw [split_in_range slack v offset h0 h1]
    simp only [TextValue.Len, NewTextValue]
    rw [runeCount_runesToString _ (fun r hr => hvalid r (List.mem_of_mem_take hr)),
      runeCount_runesToString _ (fun r hr => hvalid r (List.mem_of_mem_drop hr)),
      ← length_stringToRunes]
    simp only [List.length_take, List.length_drop]
    omega
  · rw [split_in_range slack v offset h0 h1]
    simp only [TextValue.String, NewTextValue]
    rw [← runesToString_append, List.take_append_drop]
    exact runes_round_trip_iff v.value

/-- Witness for `split_round_trip`: the valid string "aé" split after its first
rune. -/
theorem split_round_trip_witness :
    ∃ r, ((TextValue.mk [0x61, 0xC3, 0xA9]).Split 0 1).2 = some r ∧
      ((TextValue.mk [0x61, 0xC3, 0xA9]).Split 0 1).1.Len + r.Len =
        (TextValue.mk [0x61, 0xC3, 0xA9]).Len ∧
      (((TextValue.mk [0x61, 0xC3, 0xA9]).Split 0 1).1.String ++ r.String =
        (TextValue.mk [0x61, 0xC3, 0xA9]).String ↔
          ValidString (TextValue.mk [0x61, 0xC3, 0xA9]).value = true) :=
  split_round_trip 0 (TextValue.mk [0x61, 0xC3, 0xA9]) 1 (by decide) (by decide)

/-- C2: for every TextValue `v` and every offset with `0 ≤ offset ≤ v.Len()`,
`v.Split(offset)` returns a value; afterwards `v` holds exactly the runes
`[0, offset)` of its previous content and has `Len() = offset`, the returned
value holds exactly the runes `[offset, end)` and has the previous `Len()`
minus `offset`; `Split(0)` leaves `v` empty and `Split(v.Len())` returns an
empty value. -/
theorem split_postcondition (slack : Nat) (v : TextValue) (offset : Int) (h0 : 0 ≤ offset)
    (h1 : offset ≤ v.Len) :
    ∃ r, (v.Split slack offset).2 = some r ∧
      stringToRunes (v.Split slack offset).1.value =
        (stringToRunes v.value).take offset.toNat ∧
      stringToRunes r.value = (stringToRunes v.value).drop offset.toNat ∧
      (v.Split slack offset).1.Len = offset ∧
      r.Len = v.Len - offset ∧
      (offset = 0 → (v.Split slack offset).1.value = []) ∧
      (offset = v.Len → r.value = []) := by
  have hl : ((stringToRunes v.value).length : Int) = v.Len := by
    simp [TextValue.Len, length_stringToRunes]
  have hn : offset.toNat ≤ (stringToRunes v.value).length := by omega
  have hvalid := stringToRunes_valid v.value
  have ht : ∀ r ∈ (stringToRunes v.value).take offset.toNat, ValidRune r = true :=
    fun r hr => hvalid r (List.mem_of_mem_take hr)
  have hd : ∀ r ∈ (stringToRunes v.value).drop offset.toNat, ValidRune r = true :=
    fun r hr => hvalid r (List.mem_of_mem_drop hr)
  rw [split_in_range slack v offset h0 h1]
  refine ⟨_, rfl, stringToRunes_runesToString _ ht, stringToRunes_runesToString _ hd,
    ?_, ?_, ?_, ?_⟩
  · simp only [TextValue.Len]
    rw [runeCount_runesToString _ ht, List.length_take]
    omega
  · simp only [TextValue.Len, NewTextValue]
    rw [runeCount_runesToString _ hd, List.length_drop, ← length_stringToRunes]
    omega
  · intro h
    subst h
    simp [runesToString]
  · intro h
    have : offset.toNat = (stringToRunes v.value).length := by omega
    simp [NewTextValue, runesToString, this]

/-- Witness for `split_postcondition`: "héllo" split at rune offset 2. -/
theorem split_postcondition_witness :
    ∃ r, ((TextValue.mk [0x68, 0xC3, 0xA9, 0x6C, 0x6C, 0x6F]).Split 3 2).2 = some r ∧
      stringToRunes ((TextValue.mk [0x68, 0xC3, 0xA9, 0x6C, 0x6C, 0x6F]).Split 3 2).1.value =
        (stringToRunes (TextValue.mk [0x68, 0xC3, 0xA9, 0x6C, 0x6C, 0x6F]).value).take
          (2 : Int).toNat ∧
      stringToRunes r.value =
        (stringToRunes (TextValue.mk [0x68, 0xC3, 0xA9, 0x6C, 0x6C, 0x6F]).value).drop
          (2 : Int).toNat ∧
      ((TextValue.mk [0x68, 0xC3, 0xA9, 0x6C, 0x6C, 0x6F]).Split 3 2).1.Len = 2 ∧
      r.Len = (TextValue.mk [0x68, 0xC3, 0xA9, 0x6C, 0x6C, 0x6F]).Len - 2 ∧
      ((2 : Int) = 0 →
        ((TextValue.mk [0x68, 0xC3, 0xA9, 0x6C, 0x6C, 0x6F]).Split 3 2).1.value = []) ∧
      ((2 : Int) = (TextValue.mk [0x68, 0xC3, 0xA9, 0x6C, 0x6C, 0x6F]).Len → r.value = []) :=
  split_postcondition 3 (TextValue.mk [0x68, 0xC3, 0xA9, 0x6C, 0x6C, 0x6F]) 2 (by decide)
    (by decide)

/-- C10: for every TextValue holding a valid UTF-8 string, the string is the
UTF-8 encoding of its sequence of code points, `Len()` is the number of those
code points, and whatever sequence of code points encodes to the string has
`Len()` elements; so a multi-byte character counts as one unit. -/
theorem len_counts_runes (v : TextValue) (hv : ValidString v.value = true) :
    runesToString (stringToRunes v.value) = v.value ∧
    (∀ c ∈ stringToRunes v.value, ValidRune c = true) ∧
    v.Len = ((stringToRunes v.value).length : Nat) ∧
    ∀ cps : List Nat, (∀ c ∈ cps, ValidRune c = true) → runesToString cps = v.value →
      v.Len = (cps.length : Nat) := by
  refine ⟨runesToString_stringToRunes v.value hv, stringToRunes_valid v.value, ?_, ?_⟩
  · simp [TextValue.Len, length_stringToRunes]
  · intro cps hc he
    simp only [TextValue.Len]
    rw [← he, runeCount_runesToString cps hc]

/-- Witness for `len_counts_runes`: the two 3-byte characters U+4E16 U+754C
have `Len() = 2`, not 6. -/
theorem len_counts_runes_witness :
    (TextValue.mk [0xE4, 0xB8, 0x96, 0xE7, 0x95, 0x8C]).Len = 2 ∧
    (TextValue.mk [0xE4, 0xB8, 0x96, 0xE7, 0x95, 0x8C]).value.length = 6 ∧
    (TextValue.mk []).Len = 0 :=
  ⟨((len_counts_runes (TextValue.mk [0xE4, 0xB8, 0x96, 0xE7, 0x95, 0x8C]) (by decide)).2.2.2
      [0x4E16, 0x754C] (by decide) (by decide)),
    by decide,
    (len_counts_runes (TextValue.mk []) (by decide)).2.2.1⟩

/-! ## Claims about `Text.Select` and `Text.Remove` -/

/-- The receiver after a sequence of `Select` calls, each given as
`(from, to, ticket)`. -/
theorem select_stores {T : Type} [TicketOps T] (t : Text T) (f g : RGATreeSplitNodePos T) (k : T)
    (h : ∀ sel, t.selectionMap (TicketOps.ActorIDHex k) = some sel →
      TicketOps.After k sel.updatedAt = true) :
    (t.Select f g k).selectionMap (TicketOps.ActorIDHex k) = some (newSelection f g k) := by
  unfold Text.Select
  cases hm : t.selectionMap (TicketOps.ActorIDHex k) with
  | none => simp
  | some prev => simp [h prev hm]

/-- C3: for every Text, every actor and every non-empty sequence of `Select`
calls whose tickets all belong to that actor and each of which is `After` the
previous one, if the selection stored for the actor before the sequence (when
there is one) has a ticket that the first call's ticket is `After`, then after
the whole sequence the selection stored for the actor is exactly the
`(from, to, ticket)` of the last call. -/
theorem select_last_write_wins {T : Type} [TicketOps T] (t : Text T) (actor : String)
    (c : RGATreeSplitNodePos T × RGATreeSplitNodePos T × T)
    (cs : List (RGATreeSplitNodePos T × RGATreeSplitNodePos T × T))
    (hactor : ∀ x ∈ c :: cs, TicketOps.ActorIDHex x.2.2 = actor)
    (hinc : List.Chain (fun x y => TicketOps.After y.2.2 x.2.2 = true) c cs)
    (hinit : ∀ sel, t.selectionMap actor = some sel →
      TicketOps.After c.2.2 sel.updatedAt = true) :
    ((c :: cs).foldl (fun u x => u.Select x.1 x.2.1 x.2.2) t).selectionMap actor =
      some (newSelection ((c :: cs).getLast (List.cons_ne_nil c cs)).1
        ((c :: cs).getLast (List.cons_ne_nil c cs)).2.1
        ((c :: cs).getLast (List.cons_ne_nil c cs)).2.2) := by
  induction cs generalizing t c with
  | nil =>
    have ha := hactor c (List.mem_cons_self c [])
    subst ha
    simpa using select_stores t c.1 c.2.1 c.2.2 hinit
  | cons d ds ih =>
    have ha := hactor c (List.mem_cons_self c (d :: ds))
    have hstep := select_stores t c.1 c.2.1 c.2.2 (by rw [ha]; exact hinit)
    rw [ha] at hstep
    rw [List.chain_cons] at hinc
    have := ih (t.Select c.1 c.2.1 c.2.2) d
      (fun x hx => hactor x (List.mem_cons_of_mem c hx)) hinc.2
      (by
        intro sel hsel
        rw [hstep] at hsel
        cases hsel
        exact hinc.1)
    simpa [List.getLast_cons] using this

/-- Witness for `select_last_write_wins`: on a fresh Text, actor "a" selects
with tickets 1, 2 and 3; the third selection is the one stored. -/
theorem select_last_write_wins_witness :
    (([(⟨⟨⟨0, "a"⟩, 0⟩, 0⟩, ⟨⟨⟨0, "a"⟩, 0⟩, 1⟩, (⟨1, "a"⟩ : Ticket)),
       (⟨⟨⟨0, "a"⟩, 0⟩, 1⟩, ⟨⟨⟨0, "a"⟩, 0⟩, 2⟩, ⟨2, "a"⟩),
       (⟨⟨⟨0, "a"⟩, 0⟩, 2⟩, ⟨⟨⟨0, "a"⟩, 0⟩, 3⟩, ⟨3, "a"⟩)].foldl
        (fun u x => u.Select x.1 x.2.1 x.2.2)
        (NewText (NewRGATreeSplit (InitialTextNode ⟨⟨0, ""⟩, 0⟩ 0)) none)).selectionMap "a") =
      some (newSelection ⟨⟨⟨0, "a"⟩, 0⟩, 2⟩ ⟨⟨⟨0, "a"⟩, 0⟩, 3⟩ ⟨3, "a"⟩) :=
  select_last_write_wins (NewText (NewRGATreeSplit (InitialTextNode ⟨⟨0, ""⟩, 0⟩ 0)) none) "a"
    (⟨⟨⟨0, "a"⟩, 0⟩, 0⟩, ⟨⟨⟨0, "a"⟩, 0⟩, 1⟩, (⟨1, "a"⟩ : Ticket))
    [(⟨⟨⟨0, "a"⟩, 0⟩, 1⟩, ⟨⟨⟨0, "a"⟩, 0⟩, 2⟩, ⟨2, "a"⟩),
     (⟨⟨⟨0, "a"⟩, 0⟩, 2⟩, ⟨⟨⟨0, "a"⟩, 0⟩, 3⟩, ⟨3, "a"⟩)]
    (by decide) (List.Chain.cons (by decide) (List.Chain.cons (by decide) List.Chain.nil))
    (by intro sel h; simp [NewText] at h)

/-- C4: for every Text `t` and every ticket `k`: when `removedAt` is unset or
`k` is `After` the previous `removedAt`, `t.Remove(k)` returns true and changes
`t` only by setting `removedAt` to `k`; in every other case it returns false
and leaves `t` unchanged; so it returns true exactly in the first case. -/
theorem remove_contract {T : Type} [TicketOps T] (t : Text T) (k : T) :
    ((t.removedAt = none ∨ ∃ prev, t.removedAt = some prev ∧ TicketOps.After k prev = true) →
      t.Remove k = ({ t with removedAt := some k }, true)) ∧
    (¬(t.removedAt = none ∨ ∃ prev, t.removedAt = some prev ∧ TicketOps.After k prev = true) →
      t.Remove k = (t, false)) ∧
    ((t.Remove k).2 = true ↔
      (t.removedAt = none ∨ ∃ prev, t.removedAt = some prev ∧ TicketOps.After k prev = true)) ∧
    ((t.Remove k).2 = true → (t.Remove k).1.removedAt = some k) := by
  unfold Text.Remove
  cases hr : t.removedAt with
  | none => simp
  | some prev =>
    by_cases ha : TicketOps.After k prev = true
    · simp [ha]
    · simp [ha]

/-! ## The copy loop in closed form -/

theorem spliceAfter_last {T : Type} (pre : List (RGATreeSplitNode T)) (l new : RGATreeSplitNode T)
    (h : ∀ x ∈ pre, x.addr ≠ l.addr) :
    spliceAfter l.addr new (pre ++ [l]) = some (pre ++ [l, new]) := by
  induction pre with
  | nil => simp [spliceAfter]
  | cons x xs ih =>
    have hx : x.addr ≠ l.addr := h x (List.mem_cons_self x xs)
    simp [spliceAfter, hx, ih (fun y hy => h y (List.mem_cons_of_mem x hy))]

theorem map_setInsPrev_of_lt {T : Type} (l : List (RGATreeSplitNode T)) (a : Nat)
    (v : Option (NodeRef T)) (h : ∀ n ∈ l, n.addr < a) :
    l.map (fun n => if n.addr = a then { n with insPrev := v } else n) = l := by
  induction l with
  | nil => rfl
  | cons x xs ih =>
    have hx : x.addr ≠ a := Nat.ne_of_lt (h x (List.mem_cons_self x xs))
    simp [hx, ih (fun y hy => h y (List.mem_cons_of_mem x hy))]

/-- One round of the loop appends one copy, registers it, and keeps the
invariant. -/
theorem deepCopyStep_spec {T : Type} [DecidableEq T] (st : CopyState T) (a : Nat)
    (node : RGATreeSplitNode T) (hinv : CopyInv st.rgaTreeSplit st.current.addr a) :
    ∃ st1, deepCopyStep st a node = some st1 ∧
      st1.rgaTreeSplit.initialHead = st.rgaTreeSplit.initialHead ∧
      st1.rgaTreeSplit.chain =
        st.rgaTreeSplit.chain ++ copyNodes st.rgaTreeSplit.treeByID a [node] ∧
      st1.rgaTreeSplit.treeByID = registerAll st.rgaTreeSplit.treeByID a [node] ∧
      st1.warnings = st.warnings + copyWarnings st.rgaTreeSplit.treeByID a [node] ∧
      CopyInv st1.rgaTreeSplit st1.current.addr (a + 1) := by
  obtain ⟨hh, hc, hlast⟩ := hinv
  have hins : st.rgaTreeSplit.InsertAfter st.current (node.DeepCopy a) =
      some ({ st.rgaTreeSplit with
                chain := st.rgaTreeSplit.chain ++ [node.DeepCopy a],
                treeByID := fun id => if id = node.id then some a else st.rgaTreeSplit.treeByID id },
            (node.DeepCopy a).ref) := by
    rcases hlast with ⟨hnil, hcur⟩ | ⟨pre, l, hch, hcur, hne, hpre⟩
    · simp [RGATreeSplit.InsertAfter, hcur, hnil, RGATreeSplitNode.DeepCopy]
    · simp [RGATreeSplit.InsertAfter, hcur, hne, hch, spliceAfter_last pre l _ hpre,
        RGATreeSplitNode.DeepCopy]
  have hha : st.rgaTreeSplit.initialHead.addr ≠ a := Nat.ne_of_lt hh
  have hinv1 : ∀ (c : RGATreeSplitNode T) (idx : RGATreeSplitNodeID T → Option Nat), c.addr = a →
      CopyInv (RGATreeSplit.mk st.rgaTreeSplit.initialHead (st.rgaTreeSplit.chain ++ [c]) idx)
        a (a + 1) := by
    intro c idx hca
    refine ⟨Nat.lt_succ_of_lt hh, ?_, Or.inr ⟨st.rgaTreeSplit.chain, c, rfl, hca.symm, ?_, ?_⟩⟩
    · intro n hn
      simp only [List.mem_append, List.mem_singleton] at hn
      rcases hn with hn | rfl
      · exact Nat.lt_succ_of_lt (hc n hn)
      · omega
    · simpa [hca] using hha.symm
    · intro x hx
      simpa [hca] using Nat.ne_of_lt (hc x hx)
  unfold deepCopyStep
  rw [hins]
  cases hp : node.insPrev with
  | none =>
    simp only [RGATreeSplitNode.InsPrevID, hp, Option.map_none']
    refine ⟨_, rfl, rfl, ?_, ?_, ?_, ?_⟩
    · simp [copyNodes, RGATreeSplitNode.InsPrevID, hp, RGATreeSplitNode.DeepCopy]
    · simp [registerAll]
    · simp [copyWarnings, RGATreeSplitNode.InsPrevID, hp]
    · exact hinv1 _ _ (by simp [RGATreeSplitNode.DeepCopy])
  | some r =>
    simp only [RGATreeSplitNode.InsPrevID, hp, Option.map_some']
    refine ⟨_, rfl, ?_, ?_, ?_, ?_, ?_⟩
    · simp [RGATreeSplit.SetInsPrev, RGATreeSplitNode.ref, RGATreeSplitNode.DeepCopy, hha]
    · simp [RGATreeSplit.SetInsPrev, RGATreeSplitNode.ref, RGATreeSplitNode.DeepCopy, copyNodes,
        RGATreeSplitNode.InsPrevID, hp, RGATreeSplit.FindNode,
        map_setInsPrev_of_lt st.rgaTreeSplit.chain a _ hc]
    · simp [RGATreeSplit.SetInsPrev, registerAll]
    · simp only [copyWarnings, RGATreeSplitNode.InsPrevID, hp, RGATreeSplit.FindNode,
        Option.map_some', Option.isNone_map', Nat.add_zero]
      split_ifs <;> rfl
    · have := hinv1 { node.DeepCopy a with
          insPrev := (if r.id = node.id then some a else st.rgaTreeSplit.treeByID r.id).map
            (fun x => { addr := x, id := r.id }) }
        (fun id => if id = node.id then some a else st.rgaTreeSplit.treeByID id)
        (by simp [RGATreeSplitNode.DeepCopy])
      simpa [RGATreeSplit.SetInsPrev, RGATreeSplitNode.ref, RGATreeSplitNode.DeepCopy,
        RGATreeSplit.FindNode, hha, map_setInsPrev_of_lt st.rgaTreeSplit.chain a _ hc] using this

theorem registerAll_append {T : Type} [DecidableEq T] (index : RGATreeSplitNodeID T → Option Nat)
    (a : Nat) (xs ys : List (RGATreeSplitNode T)) :
    registerAll index a (xs ++ ys) = registerAll (registerAll index a xs) (a + xs.length) ys := by
  induction xs generalizing index a with
  | nil => rfl
  | cons x xs ih =>
    have h : a + 1 + xs.length = a + (xs.length + 1) := by omega
    show registerAll _ (a + 1) (xs ++ ys) =
      registerAll (registerAll _ (a + 1) xs) (a + (xs.length + 1)) ys
    rw [ih, h]

theorem copyNodes_append {T : Type} [DecidableEq T] (index : RGATreeSplitNodeID T → Option Nat)
    (a : Nat) (xs ys : List (RGATreeSplitNode T)) :
    copyNodes index a (xs ++ ys) =
      copyNodes index a xs ++ copyNodes (registerAll index a xs) (a + xs.length) ys := by
  induction xs generalizing index a with
  | nil => rfl
  | cons x xs ih =>
    have h : a + 1 + xs.length = a + (xs.length + 1) := by omega
    show _ :: copyNodes _ (a + 1) (xs ++ ys) =
      (_ :: copyNodes _ (a + 1) xs) ++
        copyNodes (registerAll _ (a + 1) xs) (a + (xs.length + 1)) ys
    rw [ih, h]; rfl

theorem copyWarnings_append {T : Type} [DecidableEq T]
    (index : RGATreeSplitNodeID T → Option Nat) (a : Nat) (xs ys : List (RGATreeSplitNode T)) :
    copyWarnings index a (xs ++ ys) =
      copyWarnings index a xs + copyWarnings (registerAll index a xs) (a + xs.length) ys := by
  induction xs generalizing index a with
  | nil => simp [copyWarnings, registerAll]
  | cons x xs ih =>
    have h : a + 1 + xs.length = a + (xs.length + 1) := by omega
    show _ + copyWarnings _ (a + 1) (xs ++ ys) =
      (_ + copyWarnings _ (a + 1) xs) +
        copyWarnings (registerAll _ (a + 1) xs) (a + (xs.length + 1)) ys
    rw [ih, h, Nat.add_assoc]

/-- The loop appends the copies of all the nodes, whatever they are. -/
theorem deepCopyLoop_spec {T : Type} [DecidableEq T] (nodes : List (RGATreeSplitNode T))
    (st : CopyState T) (a : Nat) (hinv : CopyInv st.rgaTreeSplit st.current.addr a) :
    ∃ st1, deepCopyLoop st a nodes = some st1 ∧
      st1.rgaTreeSplit.initialHead = st.rgaTreeSplit.initialHead ∧
      st1.rgaTreeSplit.chain =
        st.rgaTreeSplit.chain ++ copyNodes st.rgaTreeSplit.treeByID a nodes ∧
      st1.rgaTreeSplit.treeByID = registerAll st.rgaTreeSplit.treeByID a nodes ∧
      st1.warnings = st.warnings + copyWarnings st.rgaTreeSplit.treeByID a nodes := by
  induction nodes generalizing st a with
  | nil => exact ⟨st, rfl, rfl, by simp [copyNodes], rfl, by simp [copyWarnings]⟩
  | cons n rest ih =>
    obtain ⟨st1, h1, hh1, hc1, hi1, hw1, hinv1⟩ := deepCopyStep_spec st a n hinv
    obtain ⟨st2, h2, hh2, hc2, hi2, hw2⟩ := ih st1 (a + 1) hinv1
    refine ⟨st2, by simp only [deepCopyLoop, h1, h2], hh2.trans hh1, ?_, ?_, ?_⟩
    · rw [hc2, hc1, hi1, List.append_assoc]; rfl
    · rw [hi2, hi1]; rfl
    · rw [hw2, hw1, hi1, Nat.add_assoc]; rfl

/-- `Text.DeepCopy` never fails, and its result in closed form. -/
theorem deepCopy_closed {T : Type} [DecidableEq T] (initialNodeID : RGATreeSplitNodeID T)
    (alloc : Nat) (t : Text T) :
    ∃ c, t.DeepCopy initialNodeID alloc =
        some (c, copyWarnings (fun id => if id = initialNodeID then some alloc else none)
          (alloc + 1) t.Nodes) ∧
      c.rgaTreeSplit.initialHead = InitialTextNode initialNodeID alloc ∧
      c.rgaTreeSplit.chain =
        copyNodes (fun id => if id = initialNodeID then some alloc else none) (alloc + 1) t.Nodes ∧
      c.rgaTreeSplit.treeByID =
        registerAll (fun id => if id = initialNodeID then some alloc else none) (alloc + 1)
          t.Nodes ∧
      c.selectionMap = (fun _ => none) ∧ c.createdAt = t.createdAt ∧ c.updatedAt = none ∧
      c.removedAt = none := by
  obtain ⟨st1, h1, hh, hc, hi, hw⟩ := deepCopyLoop_spec t.Nodes
    { rgaTreeSplit := NewRGATreeSplit (InitialTextNode initialNodeID alloc),
      current := (NewRGATreeSplit (InitialTextNode initialNodeID alloc)).InitialHead,
      warnings := 0 } (alloc + 1)
    ⟨by simp [NewRGATreeSplit, InitialTextNode, NewRGATreeSplitNode],
     by simp [NewRGATreeSplit],
     Or.inl ⟨rfl, rfl⟩⟩
  refine ⟨NewText st1.rgaTreeSplit t.createdAt, ?_, ?_, ?_, ?_, rfl, rfl, rfl, rfl⟩
  · simp only [Text.DeepCopy, h1, Option.map_some', hw, Nat.zero_add]
    rfl
  · simpa [NewText, NewRGATreeSplit] using hh
  · simpa [NewText, NewRGATreeSplit, InitialTextNode, NewRGATreeSplitNode] using hc
  · simpa [NewText, NewRGATreeSplit, InitialTextNode, NewRGATreeSplitNode] using hi

/-- The text inside the proxy that `ProxyText` builds is the deep copy of the
text. -/
theorem proxyText_eq_deepCopy {T Ctx : Type} [DecidableEq T]
    (initialNodeID : RGATreeSplitNodeID T) (alloc : Nat) (ctx : Ctx) (text : Text T) :
    ProxyText initialNodeID alloc ctx text =
      (text.DeepCopy initialNodeID alloc).map
        (fun r => ({ Text := r.1, context := ctx }, r.2)) := by
  simp only [ProxyText, Text.DeepCopy, Option.map_map]
  rfl

theorem copyNodes_forall₂ {T : Type} [DecidableEq T] (index : RGATreeSplitNodeID T → Option Nat)
    (a : Nat) (ns : List (RGATreeSplitNode T)) :
    List.Forall₂ (fun n m => m.id = n.id ∧ m.value = n.value ∧ m.removedAt = n.removedAt)
      ns (copyNodes index a ns) := by
  induction ns generalizing index a with
  | nil => exact List.Forall₂.nil
  | cons n rest ih => exact List.Forall₂.cons ⟨rfl, rfl, rfl⟩ (ih _ _)

theorem copyNodes_addr {T : Type} [DecidableEq T] (index : RGATreeSplitNodeID T → Option Nat)
    (a : Nat) (ns : List (RGATreeSplitNode T)) :
    (copyNodes index a ns).map (fun m => m.addr) = List.range' a ns.length := by
  induction ns generalizing index a with
  | nil => rfl
  | cons n rest ih => simp [copyNodes, ih, List.range'_succ]

theorem copyNodes_content {T : Type} [DecidableEq T] (index : RGATreeSplitNodeID T → Option Nat)
    (a : Nat) (ns : List (RGATreeSplitNode T)) :
    ((copyNodes index a ns).filter (fun n => n.removedAt.isNone)).flatMap
        (fun n => n.value.String) =
      (ns.filter (fun n => n.removedAt.isNone)).flatMap (fun n => n.value.String) := by
  induction ns generalizing index a with
  | nil => rfl
  | cons n rest ih =>
    have ih1 := ih (fun id => if id = n.id then some a else index id) (a + 1)
    simp only [TextValue.String] at ih1
    cases hr : n.removedAt <;>
      simp [copyNodes, List.filter_cons, hr, ih1, TextValue.DeepCopy, TextValue.String]

theorem copyNodes_length {T : Type} [DecidableEq T] (index : RGATreeSplitNodeID T → Option Nat)
    (a : Nat) (ns : List (RGATreeSplitNode T)) : (copyNodes index a ns).length = ns.length := by
  induction ns generalizing index a with
  | nil => rfl
  | cons n rest ih => simp [copyNodes, ih]

theorem registerAll_not_mem {T : Type} [DecidableEq T] (index : RGATreeSplitNodeID T → Option Nat)
    (a : Nat) (xs : List (RGATreeSplitNode T)) (p : RGATreeSplitNodeID T)
    (h : p ∉ xs.map (fun n => n.id)) : registerAll index a xs p = index p := by
  induction xs generalizing index a with
  | nil => rfl
  | cons x xs ih =>
    simp only [List.map_cons, List.mem_cons, not_or] at h
    rw [registerAll, ih _ _ h.2, if_neg h.1]

theorem registerAll_mem {T : Type} [DecidableEq T] (index : RGATreeSplitNodeID T → Option Nat)
    (a : Nat) (xs : List (RGATreeSplitNode T)) (p : RGATreeSplitNodeID T)
    (h : p ∈ xs.map (fun n => n.id)) :
    ∃ j, j < xs.length ∧ (xs[j]?).map (fun n => n.id) = some p ∧
      registerAll index a xs p = some (a + j) := by
  induction xs generalizing index a with
  | nil => simp at h
  | cons x xs ih =>
    by_cases hx : p ∈ xs.map (fun n => n.id)
    · obtain ⟨j, hj, hid, hr⟩ := ih (fun id => if id = x.id then some a else index id) (a + 1) hx
      refine ⟨j + 1, by simp only [List.length_cons]; omega, by simpa using hid, ?_⟩
      rw [registerAll, hr]
      congr 1
      omega
    · have hp : p = x.id := by
        simp only [List.map_cons, List.mem_cons] at h
        rcases h with h | h
        · exact h
        · exact absurd h hx
      refine ⟨0, by simp, by simp [hp], ?_⟩
      rw [registerAll, registerAll_not_mem _ _ _ _ hx, if_pos hp]
      rfl

theorem registerAll_snoc {T : Type} [DecidableEq T] (index : RGATreeSplitNodeID T → Option Nat)
    (a : Nat) (pre : List (RGATreeSplitNode T)) (n : RGATreeSplitNode T)
    (p : RGATreeSplitNodeID T) :
    registerAll index a (pre ++ [n]) p =
      if p = n.id then some (a + pre.length) else registerAll index a pre p := by
  rw [registerAll_append]
  rfl

theorem copyNodes_ref_mem {T : Type} [DecidableEq T] (index : RGATreeSplitNodeID T → Option Nat)
    (a : Nat) (xs : List (RGATreeSplitNode T)) (j : Nat) (p : RGATreeSplitNodeID T)
    (h : (xs[j]?).map (fun n => n.id) = some p) :
    ({ addr := a + j, id := p } : NodeRef T) ∈ (copyNodes index a xs).map RGATreeSplitNode.ref := by
  induction xs generalizing index a j with
  | nil => simp at h
  | cons x xs ih =>
    cases j with
    | zero =>
      simp only [List.getElem?_cons_zero, Option.map_some', Option.some.injEq] at h
      simp [copyNodes, RGATreeSplitNode.ref, h]
    | succ k =>
      simp only [List.getElem?_cons_succ] at h
      have := ih (fun id => if id = x.id then some a else index id) (a + 1) k h
      have e : a + 1 + k = a + (k + 1) := by omega
      rw [e] at this
      simp only [copyNodes, List.map_cons, List.mem_cons]
      exact Or.inr this

/-- The copy at a given position of the chain. -/
theorem copyNodes_getElem {T : Type} [DecidableEq T] (index : RGATreeSplitNodeID T → Option Nat)
    (a : Nat) (pre post : List (RGATreeSplitNode T)) (n : RGATreeSplitNode T) :
    (copyNodes index a (pre ++ n :: post))[pre.length]? =
      some { addr := a + pre.length, id := n.id, value := n.value.DeepCopy,
             removedAt := n.removedAt,
             insPrev := n.InsPrevID.bind (fun p =>
               (registerAll index a (pre ++ [n]) p).map (fun x => { addr := x, id := p })) } := by
  rw [copyNodes_append, List.getElem?_append_right (by rw [copyNodes_length]), copyNodes_length,
    Nat.sub_self]
  simp only [copyNodes, List.getElem?_cons_zero, registerAll_snoc]

/-! ## Claims about `Text.DeepCopy` -/

/-- C5: for every Text `t`, `t.DeepCopy()` returns a Text built on a fresh
sequence (a new head sentinel and new node objects, at the addresses from the
first free one on) whose node enumeration has the same length as `t.Nodes()`
and, position by position in chain order, the same node ID, the same content
and the same tombstone state, so that its visible content equals that of `t`;
its `createdAt` is that of `t`. -/
theorem deepCopy_preserves_sequence {T : Type} [DecidableEq T]
    (initialNodeID : RGATreeSplitNodeID T) (alloc : Nat) (t : Text T) :
    ∃ c w, t.DeepCopy initialNodeID alloc = some (c, w) ∧
      c.Nodes.length = t.Nodes.length ∧
      List.Forall₂ (fun n m => m.id = n.id ∧ m.value = n.value ∧ m.removedAt = n.removedAt)
        t.Nodes c.Nodes ∧
      c.rgaTreeSplit.contentString = t.rgaTreeSplit.contentString ∧
      c.CreatedAt = t.CreatedAt ∧
      c.rgaTreeSplit.initialHead.addr = alloc ∧
      c.Nodes.map (fun m => m.addr) = List.range' (alloc + 1) t.Nodes.length := by
  obtain ⟨c, hc, hh, hch, _, _, hcr, _, _⟩ := deepCopy_closed initialNodeID alloc t
  refine ⟨c, _, hc, ?_, ?_, ?_, hcr, ?_, ?_⟩
  · simp only [Text.Nodes, RGATreeSplit.nodes, hch, copyNodes_length]
  · simp only [Text.Nodes, RGATreeSplit.nodes, hch]
    exact copyNodes_forall₂ _ _ _
  · simp only [RGATreeSplit.contentString, hch]
    exact copyNodes_content _ _ _
  · rw [hh]; rfl
  · simp only [Text.Nodes, RGATreeSplit.nodes, hch]
    exact copyNodes_addr _ _ _

/-- C6 (as stated, refuted): in `exForwardText` every insertion predecessor
names a node present in the sequence (the IDs of head, `A`, `B` are listed next
to the predecessor IDs of `A`, `B`), yet in the copy the node copied from `A`,
whose predecessor `B` comes later in the chain, is left without insertion
predecessor, and one warning is logged. -/
theorem deepCopy_resolves_counterexample :
    (exForwardText.rgaTreeSplit.initialHead :: exForwardText.Nodes).map (fun n => n.id) =
      [exInitialID, exID 1, exID 2] ∧
    exForwardText.Nodes.map (fun n => n.InsPrevID) = [some (exID 2), some exInitialID] ∧
    (exForwardText.DeepCopy exInitialID 3).map
        (fun r => (r.1.Nodes.map (fun n => n.insPrev), r.2)) =
      some ([none, some { addr := 3, id := exInitialID }], 1) := by
  decide

/-- C6 (amended): for every Text `t` and every node `n` of `t` whose
insertion predecessor has the ID of the head sentinel or of a node at or before
`n` in chain order, the copy of `n` in `t.DeepCopy()` has as its insertion
predecessor a pointer `r` to a node of the new sequence (the new head or one of
the copies) that carries that ID; it is not unset, it lies at a freshly
allocated address and so is no node that existed before the call, and when no
node after `n` carries the same ID (IDs are unique in a sequence) it is the
node the new sequence's index returns for the ID. -/
theorem deepCopy_resolves_predecessor {T : Type} [DecidableEq T]
    (initialNodeID : RGATreeSplitNodeID T) (alloc : Nat) (t : Text T)
    (pre post : List (RGATreeSplitNode T)) (n : RGATreeSplitNode T) (p : RGATreeSplitNodeID T)
    (hn : t.Nodes = pre ++ n :: post) (hp : n.InsPrevID = some p)
    (hknown : p = initialNodeID ∨ p ∈ (pre ++ [n]).map (fun x => x.id)) :
    ∃ c w m r, t.DeepCopy initialNodeID alloc = some (c, w) ∧
      c.Nodes[pre.length]? = some m ∧ m.id = n.id ∧
      m.insPrev = some r ∧ r.id = p ∧
      r ∈ (c.rgaTreeSplit.initialHead :: c.Nodes).map RGATreeSplitNode.ref ∧
      alloc ≤ r.addr ∧
      (∀ x : RGATreeSplitNode T, x.addr < alloc → r ≠ x.ref) ∧
      (p ∉ post.map (fun x => x.id) → c.rgaTreeSplit.FindNode p = some r) := by
  obtain ⟨c, hc, hh, hch, hidx, _, _, _, _⟩ := deepCopy_closed initialNodeID alloc t
  have hm := copyNodes_getElem (fun id => if id = initialNodeID then some alloc else none)
    (alloc + 1) pre post n
  rw [← hn, ← hch] at hm
  -- the address the index holds for `p` when the copy of `n` is resolved
  have hlook : ∃ x, registerAll (fun id => if id = initialNodeID then some alloc else none)
      (alloc + 1) (pre ++ [n]) p = some x ∧ alloc ≤ x ∧
      ({ addr := x, id := p } : NodeRef T) ∈
        (c.rgaTreeSplit.initialHead :: c.Nodes).map RGATreeSplitNode.ref := by
    by_cases hmem : p ∈ (pre ++ [n]).map (fun x => x.id)
    · obtain ⟨j, hj, hid, hr⟩ := registerAll_mem
        (fun id => if id = initialNodeID then some alloc else none) (alloc + 1) _ p hmem
      refine ⟨alloc + 1 + j, hr, by omega, ?_⟩
      have hid2 : ((pre ++ n :: post)[j]?).map (fun x => x.id) = some p := by
        have e : pre ++ n :: post = (pre ++ [n]) ++ post := by simp
        rw [e, List.getElem?_append_left hj]
        exact hid
      have := copyNodes_ref_mem (fun id => if id = initialNodeID then some alloc else none)
        (alloc + 1) (pre ++ n :: post) j p hid2
      rw [← hn, ← hch] at this
      simp only [List.map_cons, List.mem_cons, Text.Nodes, RGATreeSplit.nodes]
      exact Or.inr this
    · have hi : p = initialNodeID := by
        rcases hknown with h | h
        · exact h
        · exact absurd h hmem
      refine ⟨alloc, ?_, le_refl _, ?_⟩
      · rw [registerAll_not_mem _ _ _ _ hmem, if_pos hi]
      · simp only [List.map_cons, List.mem_cons]
        left
        rw [hh, hi]
        rfl
  obtain ⟨x, hx, hxa, hxm⟩ := hlook
  refine ⟨c, _, _, { addr := x, id := p }, hc, hm, rfl, ?_, rfl, hxm, hxa, ?_, ?_⟩
  · simp only [hp, Option.some_bind, hx, Option.map_some']
  · intro y hy he
    have : x = y.addr := by
      have := congrArg NodeRef.addr he
      simpa [RGATreeSplitNode.ref] using this
    omega
  · intro hpost
    have e : t.Nodes = (pre ++ [n]) ++ post := by rw [hn]; simp
    simp only [RGATreeSplit.FindNode, hidx, e]
    rw [registerAll_append, registerAll_not_mem _ _ _ _ hpost, hx]
    rfl

/-- Witness for `deepCopy_resolves_predecessor`: the second node of
`exOrderedText`, whose insertion predecessor is the first node. -/
theorem deepCopy_resolves_predecessor_witness :
    ∃ c w m r, exOrderedText.DeepCopy exInitialID 3 = some (c, w) ∧
      c.Nodes[[exOrderedA].length]? = some m ∧
      m.id = exOrderedB.id ∧
      m.insPrev = some r ∧ r.id = exID 1 ∧
      r ∈ (c.rgaTreeSplit.initialHead :: c.Nodes).map RGATreeSplitNode.ref ∧
      3 ≤ r.addr ∧
      (∀ x : RGATreeSplitNode Ticket, x.addr < 3 → r ≠ x.ref) ∧
      (exID 1 ∉ ([] : List (RGATreeSplitNode Ticket)).map (fun x => x.id) →
        c.rgaTreeSplit.FindNode (exID 1) = some r) :=
  deepCopy_resolves_predecessor exInitialID 3 exOrderedText [exOrderedA] []
    exOrderedB (exID 1) (by decide) (by decide) (by decide)

/-- C7 (as stated, refuted): the only node of `exDanglingText` has an insertion
predecessor whose ID the index of the new sequence does not know, neither when
it is looked up nor afterwards; `DeepCopy` does not fail: it returns a copy
with that node, its insertion predecessor unset, and has logged one warning. -/
theorem deepCopy_hard_error_counterexample :
    exDanglingText.Nodes.map (fun n => n.InsPrevID) = [some (exID 7)] ∧
    (exDanglingText.DeepCopy exInitialID 2).isSome = true ∧
    (exDanglingText.DeepCopy exInitialID 2).map (fun r => r.1.Nodes.map (fun n => n.id)) =
      some [exID 1] ∧
    (exDanglingText.DeepCopy exInitialID 2).map (fun r => r.1.Nodes.map (fun n => n.insPrev)) =
      some [none] ∧
    (exDanglingText.DeepCopy exInitialID 2).map (fun r => r.1.rgaTreeSplit.FindNode (exID 7)) =
      some none ∧
    (exDanglingText.DeepCopy exInitialID 2).map (fun r => r.2) = some 1 := by
  decide

/-- C7 (amended): `Text.DeepCopy` returns a copy for every Text; for every node
`n` whose insertion predecessor's ID is not found in the index of the new
sequence when it is looked up (it is neither the head sentinel's ID nor the ID
of a node at or before `n` in chain order, so the sequence built by the loop up
to and including `n` does not know it), a warning is logged, the copy of `n` is
left without insertion predecessor, and the copy still has all the nodes. -/
theorem deepCopy_unresolved_warns {T : Type} [DecidableEq T]
    (initialNodeID : RGATreeSplitNodeID T) (alloc : Nat) (t : Text T)
    (pre post : List (RGATreeSplitNode T)) (n : RGATreeSplitNode T) (p : RGATreeSplitNodeID T)
    (hn : t.Nodes = pre ++ n :: post) (hp : n.InsPrevID = some p)
    (hne : p ≠ initialNodeID) (hnot : p ∉ (pre ++ [n]).map (fun x => x.id)) :
    (∃ st, deepCopyLoop
        { rgaTreeSplit := NewRGATreeSplit (InitialTextNode initialNodeID alloc),
          current := (NewRGATreeSplit (InitialTextNode initialNodeID alloc)).InitialHead,
          warnings := 0 } (alloc + 1) (pre ++ [n]) = some st ∧
      st.rgaTreeSplit.FindNode p = none) ∧
    ∃ c w m, t.DeepCopy initialNodeID alloc = some (c, w) ∧ 0 < w ∧
      c.Nodes.length = t.Nodes.length ∧
      c.Nodes[pre.length]? = some m ∧ m.id = n.id ∧ m.insPrev = none := by
  have hx : registerAll (fun id => if id = initialNodeID then some alloc else none)
      (alloc + 1) (pre ++ [n]) p = none := by
    rw [registerAll_not_mem _ _ _ _ hnot, if_neg hne]
  constructor
  · obtain ⟨st1, h1, _, _, hi, _⟩ := deepCopyLoop_spec (pre ++ [n])
      { rgaTreeSplit := NewRGATreeSplit (InitialTextNode initialNodeID alloc),
        current := (NewRGATreeSplit (InitialTextNode initialNodeID alloc)).InitialHead,
        warnings := 0 } (alloc + 1)
      ⟨by simp [NewRGATreeSplit, InitialTextNode, NewRGATreeSplitNode],
       by simp [NewRGATreeSplit],
       Or.inl ⟨rfl, rfl⟩⟩
    refine ⟨st1, h1, ?_⟩
    simp only [RGATreeSplit.FindNode, hi]
    have : (NewRGATreeSplit (InitialTextNode initialNodeID alloc)).treeByID =
        fun id => if id = initialNodeID then some alloc else none := rfl
    rw [this, hx]
    rfl
  · obtain ⟨c, hc, _, hch, _, _, _, _, _⟩ := deepCopy_closed initialNodeID alloc t
    have hm := copyNodes_getElem (fun id => if id = initialNodeID then some alloc else none)
      (alloc + 1) pre post n
    rw [← hn, ← hch] at hm
    refine ⟨c, _, _, hc, ?_, ?_, hm, rfl, ?_⟩
    · have e : t.Nodes = pre ++ ([n] ++ post) := by rw [hn]; simp
      rw [e, copyWarnings_append, copyWarnings_append]
      have : copyWarnings (registerAll (fun id => if id = initialNodeID then some alloc else none)
          (alloc + 1) pre) (alloc + 1 + pre.length) [n] = 1 := by
        have hx2 := hx
        rw [registerAll_snoc] at hx2
        simp only [copyWarnings, hp, hx2, Option.isNone_none, if_true]
      omega
    · simp only [Text.Nodes, RGATreeSplit.nodes, hch, copyNodes_length]
    · simp only [hp, Option.some_bind, hx, Option.map_none']

/-- Witness for `deepCopy_unresolved_warns`: the first node of `exForwardText`,
whose insertion predecessor comes later in the chain. -/
theorem deepCopy_unresolved_warns_witness :
    (∃ st, deepCopyLoop
        { rgaTreeSplit := NewRGATreeSplit (InitialTextNode exInitialID 3),
          current := (NewRGATreeSplit (InitialTextNode exInitialID 3)).InitialHead,
          warnings := 0 } (3 + 1) ([] ++ [exForwardA]) = some st ∧
      st.rgaTreeSplit.FindNode (exID 2) = none) ∧
    ∃ c w m, exForwardText.DeepCopy exInitialID 3 = some (c, w) ∧ 0 < w ∧
      c.Nodes.length = exForwardText.Nodes.length ∧
      c.Nodes[([] : List (RGATreeSplitNode Ticket)).length]? = some m ∧
      m.id = exForwardA.id ∧ m.insPrev = none :=
  deepCopy_unresolved_warns exInitialID 3 exForwardText [] [exForwardB]
    exForwardA (exID 2) (by decide) (by decide) (by decide) (by decide)

/-! ## Claims about `TextProxy.Edit` -/

/-- C8: for every TextProxy, whatever the sequence and the change context do,
and all integers `from > to`, `TextProxy.Edit(from, to, content)` panics with
"from should be less than or equal to to" and leaves the proxy as it was: the
text (so no range was resolved, no node split and nothing edited) and the
change context (so no ticket was issued and no operation pushed) are those of
before the call. -/
theorem edit_invalid_range_panics {T Ctx : Type} (env : Collaborators T Ctx)
    (p : TextProxy T Ctx) (fromIdx toIdx : Int) (content : List Nat) (h : toIdx < fromIdx) :
    p.Edit env fromIdx toIdx content =
        (p, Outcome.panicked "from should be less than or equal to to") ∧
      (p.Edit env fromIdx toIdx content).1.Text = p.Text ∧
      (p.Edit env fromIdx toIdx content).1.context = p.context ∧
      (p.Edit env fromIdx toIdx content).2 ≠ Outcome.returned := by
  have e : p.Edit env fromIdx toIdx content =
      (p, Outcome.panicked "from should be less than or equal to to") := by
    unfold TextProxy.Edit
    rw [if_pos h]
  rw [e]
  exact ⟨rfl, rfl, rfl, by simp⟩

/-- Witness for `edit_invalid_range_panics`: `Edit(5, 2, "H")` on `exProxy`. -/
theorem edit_invalid_range_panics_witness :
    exProxy.Edit exCollaborators 5 2 [0x48] =
        (exProxy, Outcome.panicked "from should be less than or equal to to") ∧
      (exProxy.Edit exCollaborators 5 2 [0x48]).1.Text = exProxy.Text ∧
      (exProxy.Edit exCollaborators 5 2 [0x48]).1.context = exProxy.context ∧
      (exProxy.Edit exCollaborators 5 2 [0x48]).2 ≠ Outcome.returned :=
  edit_invalid_range_panics exCollaborators exProxy 5 2 [0x48] (by decide)


/-! ## Range resolution and edit: facts -/

theorem visibleRunes_nil {T : Type} : visibleRunes ([] : List (RGATreeSplitNode T)) = [] := rfl

theorem visibleRunes_cons_visible {T : Type} (n : RGATreeSplitNode T)
    (l : List (RGATreeSplitNode T)) (h : n.removedAt.isSome = false) :
    visibleRunes (n :: l) = stringToRunes n.value.value ++ visibleRunes l := by
  have : n.removedAt.isNone = true := by cases hr : n.removedAt <;> simp_all
  simp [visibleRunes, List.filter_cons, this]

theorem visibleRunes_cons_removed {T : Type} (n : RGATreeSplitNode T)
    (l : List (RGATreeSplitNode T)) (h : n.removedAt.isSome = true) :
    visibleRunes (n :: l) = visibleRunes l := by
  have : n.removedAt.isNone = false := by cases hr : n.removedAt <;> simp_all
  simp [visibleRunes, List.filter_cons, this]

theorem visibleRunes_append {T : Type} (a b : List (RGATreeSplitNode T)) :
    visibleRunes (a ++ b) = visibleRunes a ++ visibleRunes b := by
  simp [visibleRunes]

theorem contentLen_eq {T : Type} (n : RGATreeSplitNode T) :
    n.contentLen = (stringToRunes n.value.value).length := by
  rw [length_stringToRunes]; rfl

/-- Splitting a node strictly inside: the two nodes and their runes. -/
theorem node_split_spec {T : Type} (n : RGATreeSplitNode T) (addr j : Nat)
    (hj : j ≤ n.contentLen) :
    ∃ left right, n.split addr j = some (left, right) ∧
      left = { n with value := { value := runesToString ((stringToRunes n.value.value).take j) } } ∧
      right = { addr := addr, id := { createdAt := n.id.createdAt, offset := n.id.offset + j },
                value := { value := runesToString ((stringToRunes n.value.value).drop j) },
                removedAt := n.removedAt, insPrev := some n.ref } ∧
      stringToRunes left.value.value = (stringToRunes n.value.value).take j ∧
      stringToRunes right.value.value = (stringToRunes n.value.value).drop j := by
  have hs := split_in_range 0 n.value (j : Int) (by omega)
    (by simp only [TextValue.Len]; exact_mod_cast hj)
  have hvalid := stringToRunes_valid n.value.value
  refine ⟨_, _, ?_, rfl, rfl, ?_, ?_⟩
  · simp only [RGATreeSplitNode.split, hs, Int.toNat_ofNat, NewTextValue]
  · exact stringToRunes_runesToString _ (fun r hr => hvalid r (List.mem_of_mem_take hr))
  · exact stringToRunes_runesToString _ (fun r hr => hvalid r (List.mem_of_mem_drop hr))

theorem SplitStep_cons {T : Type} (addr : Nat) (n : RGATreeSplitNode T)
    (before after : List (RGATreeSplitNode T)) (h : SplitStep addr before after) :
    SplitStep addr (n :: before) (n :: after) := by
  rcases h with h | ⟨X, m, Y, j, left, right, hb, ha, hm, hj0, hj1, hs⟩
  · exact Or.inl (by rw [h])
  · exact Or.inr ⟨n :: X, m, Y, j, left, right, by rw [hb]; rfl, by rw [ha]; rfl, hm, hj0, hj1, hs⟩

/-- The walk to a boundary within the visible length succeeds; the part passed
holds the runes before the boundary, the rest those after it, the node
returned is the last node passed, and at most one node was split. -/
theorem resolveOffset_spec {T : Type} (addr : Nat) (chain : List (RGATreeSplitNode T))
    (prev : RGATreeSplitNode T) (k : Nat) (hk : k ≤ (visibleRunes chain).length) :
    ∃ A L B, resolveOffset addr prev k chain = some (A, L, B) ∧
      visibleRunes A = (visibleRunes chain).take k ∧
      visibleRunes B = (visibleRunes chain).drop k ∧
      ((A = [] ∧ L = prev) ∨ ∃ A1, A = A1 ++ [L]) ∧
      SplitStep addr chain (A ++ B) := by
  induction chain generalizing prev k with
  | nil =>
    have : k = 0 := by simpa [visibleRunes] using hk
    subst this
    exact ⟨[], prev, [], by simp [resolveOffset], rfl, rfl, Or.inl ⟨rfl, rfl⟩, Or.inl rfl⟩
  | cons n rest ih =>
    by_cases h0 : k = 0
    · subst h0
      exact ⟨[], prev, n :: rest, by simp [resolveOffset], by simp [visibleRunes_nil], by simp,
        Or.inl ⟨rfl, rfl⟩, Or.inl rfl⟩
    by_cases hrem : n.removedAt.isSome = true
    · rw [visibleRunes_cons_removed n rest hrem] at hk
      obtain ⟨A, L, B, hres, hA, hB, hL, hstep⟩ := ih prev k hk
      have hne : A ≠ [] := by
        intro hA0
        subst hA0
        have : ([] : List Nat) = (visibleRunes rest).take k := by simpa [visibleRunes_nil] using hA
        have hlen := congrArg List.length this
        simp only [List.length_nil, List.length_take] at hlen
        omega
      refine ⟨n :: A, L, B, ?_, ?_, ?_, ?_, SplitStep_cons addr n _ _ hstep⟩
      · simp [resolveOffset, h0, hrem, hres]
      · rw [visibleRunes_cons_removed n A hrem, visibleRunes_cons_removed n rest hrem, hA]
      · rw [visibleRunes_cons_removed n rest hrem, hB]
      · rcases hL with ⟨hA0, _⟩ | ⟨A1, hA1⟩
        · exact absurd hA0 hne
        · exact Or.inr ⟨n :: A1, by rw [hA1]; rfl⟩
    have hvis : n.removedAt.isSome = false := by simpa using hrem
    have hnone : n.removedAt = none := by
      cases hr : n.removedAt with
      | none => rfl
      | some x => simp [hr] at hvis
    rw [visibleRunes_cons_visible n rest hvis] at hk ⊢
    by_cases hlt : k < n.contentLen
    · obtain ⟨left, right, hs, hl, hr, hlr, hrr⟩ := node_split_spec n addr k (Nat.le_of_lt hlt)
      have hk2 : k ≤ (stringToRunes n.value.value).length := by
        rw [← contentLen_eq]; exact Nat.le_of_lt hlt
      have hlv : left.removedAt.isSome = false := by rw [hl]; exact hvis
      have hrv : right.removedAt.isSome = false := by rw [hr]; exact hvis
      refine ⟨[left], left, right :: rest, ?_, ?_, ?_, Or.inr ⟨[], rfl⟩,
        Or.inr ⟨[], n, rest, k, left, right, rfl, rfl, hnone, Nat.pos_of_ne_zero h0, hlt, hs⟩⟩
      · simp [resolveOffset, h0, hvis, hlt, hs]
      · rw [visibleRunes_cons_visible left [] hlv, visibleRunes_nil, List.append_nil, hlr,
          List.take_append_of_le_length hk2]
      · rw [visibleRunes_cons_visible right rest hrv, hrr, List.drop_append_of_le_length hk2]
    · have hge : (stringToRunes n.value.value).length ≤ k := by
        rw [← contentLen_eq]; omega
      have hk1 : k - n.contentLen ≤ (visibleRunes rest).length := by
        rw [contentLen_eq]
        simp only [List.length_append] at hk
        omega
      obtain ⟨A, L, B, hres, hA, hB, hL, hstep⟩ := ih n (k - n.contentLen) hk1
      refine ⟨n :: A, L, B, ?_, ?_, ?_, ?_, SplitStep_cons addr n _ _ hstep⟩
      · simp [resolveOffset, h0, hvis, hlt, hres]
      · rw [visibleRunes_cons_visible n A hvis, hA, List.take_append_eq_append_take,
          List.take_of_length_le hge, contentLen_eq]
      · rw [hB, List.drop_append_eq_append_drop, List.drop_of_length_le hge, contentLen_eq,
          List.nil_append]
      · rcases hL with ⟨hA0, hLn⟩ | ⟨A1, hA1⟩
        · exact Or.inr ⟨[], by rw [hA0, hLn]; rfl⟩
        · exact Or.inr ⟨n :: A1, by rw [hA1]; rfl⟩

theorem SplitStep_append_left {T : Type} (addr : Nat) (H before after : List (RGATreeSplitNode T))
    (h : SplitStep addr before after) : SplitStep addr (H ++ before) (H ++ after) := by
  induction H with
  | nil => exact h
  | cons x xs ih => exact SplitStep_cons addr x _ _ ih

theorem SplitStep_append_right {T : Type} (addr : Nat) (before after Z : List (RGATreeSplitNode T))
    (h : SplitStep addr before after) : SplitStep addr (before ++ Z) (after ++ Z) := by
  rcases h with h | ⟨X, m, Y, j, left, right, hb, ha, hm, hj0, hj1, hs⟩
  · exact Or.inl (by rw [h])
  · exact Or.inr ⟨X, m, Y ++ Z, j, left, right, by rw [hb]; simp, by rw [ha]; simp, hm, hj0, hj1,
      hs⟩

theorem map_split_perm {T α : Type} (f : RGATreeSplitNode T → α)
    (X Y : List (RGATreeSplitNode T)) (n left right : RGATreeSplitNode T) (h : f left = f n) :
    ((X ++ left :: right :: Y).map f).Perm (f right :: (X ++ n :: Y).map f) := by
  simp only [List.map_append, List.map_cons, h]
  have := @List.perm_middle _ (f right) (X.map f ++ [f n]) (Y.map f)
  simpa using this

/-- The invariants of a sequence survive a step of range resolution that
allocates at an unused address. -/
theorem wellFormed_splitStep {T : Type} (addr : Nat) (ns after : List (RGATreeSplitNode T))
    (hwf : WellFormed ns) (hstep : SplitStep addr ns after)
    (haddr : addr ∉ ns.map (fun n => n.addr)) : WellFormed after := by
  rcases hstep with h | ⟨X, n, Y, j, left, right, hb, ha, hn, hj0, hj1, hs⟩
  · rw [h]; exact hwf
  obtain ⟨l1, r1, hs1, hl, hr, hlr, hrr⟩ := node_split_spec n addr j (Nat.le_of_lt hj1)
  rw [hs] at hs1
  have hl1 : left = l1 := by injection hs1 with h; exact (Prod.mk.inj h).1
  have hr1 : right = r1 := by injection hs1 with h; exact (Prod.mk.inj h).2
  subst hl1 hr1
  obtain ⟨hA, hI, hF⟩ := hwf
  have hnmem : n ∈ ns := by rw [hb]; simp
  have hlid : left.id = n.id := by rw [hl]
  have hladdr : left.addr = n.addr := by rw [hl]
  have hrid : right.id = { createdAt := n.id.createdAt, offset := n.id.offset + j } := by rw [hr]
  have hraddr : right.addr = addr := by rw [hr]
  have hlen : left.contentLen = j := by
    rw [contentLen_eq, hlr, List.length_take, ← contentLen_eq]; omega
  have hrlen : right.contentLen = n.contentLen - j := by
    rw [contentLen_eq, hrr, List.length_drop, ← contentLen_eq]
  have hpa := map_split_perm (fun n => n.addr) X Y n left right hladdr
  have hpi := map_split_perm (fun n => n.id) X Y n left right hlid
  rw [← ha, ← hb] at hpa hpi
  beta_reduce at hpa hpi
  have hnew : right.id ∉ ns.map (fun n => n.id) := by
    rw [hrid]; exact hF n hnmem hn j hj0 hj1
  have hmemid : ∀ x, x ∈ after.map (fun n => n.id) ↔ x = right.id ∨ x ∈ ns.map (fun n => n.id) := by
    intro x
    rw [hpi.mem_iff, List.mem_cons]
  refine ⟨?_, ?_, ?_⟩
  · rw [hpa.nodup_iff, List.nodup_cons]
    exact ⟨by rw [hraddr]; exact haddr, hA⟩
  · rw [hpi.nodup_iff, List.nodup_cons]
    exact ⟨hnew, hI⟩
  · intro m hm hmv i hi0 hi1
    rw [hmemid]
    have hm2 : m = left ∨ m = right ∨ (m ∈ ns ∧ (m ∈ X ∨ m ∈ Y)) := by
      rw [ha] at hm
      simp only [List.mem_append, List.mem_cons] at hm
      rcases hm with h | h | h | h
      · exact Or.inr (Or.inr ⟨by rw [hb]; simp [h], Or.inl h⟩)
      · exact Or.inl h
      · exact Or.inr (Or.inl h)
      · exact Or.inr (Or.inr ⟨by rw [hb]; simp [h], Or.inr h⟩)
    rcases hm2 with rfl | rfl | ⟨hmns, hmXY⟩
    · -- the left part
      rw [hlen] at hi1
      rintro (h | h)
      · rw [hrid, hlid] at h
        simp only [RGATreeSplitNodeID.mk.injEq, true_and] at h
        omega
      · rw [hlid] at h
        exact hF n hnmem hn i hi0 (by omega) h
    · -- the right part
      rw [hrlen] at hi1
      rintro (h | h)
      · have := congrArg RGATreeSplitNodeID.offset h
        simp only [hrid] at this
        omega
      · rw [hrid] at h
        have e : n.id.offset + (j : Int) + (i : Int) = n.id.offset + ((j + i : Nat) : Int) := by
          push_cast; ring
        simp only [e] at h
        exact hF n hnmem hn (j + i) (by omega) (by omega) h
    · -- an untouched node
      rintro (h | h)
      · rw [hrid] at h
        simp only [RGATreeSplitNodeID.mk.injEq] at h
        obtain ⟨hc, ho⟩ := h
        rcases lt_trichotomy m.id.offset n.id.offset with hlt | heq | hgt
        · refine hF m hmns hmv (n.id.offset - m.id.offset).toNat (by omega) (by omega) ?_
          have e : m.id.offset + ((n.id.offset - m.id.offset).toNat : Int) = n.id.offset := by
            omega
          rw [e, hc]
          exact List.mem_map_of_mem (fun n => n.id) hnmem
        · have hid : m.id = n.id := by
            cases hmid : m.id; cases hnid : n.id
            simp_all
          have hnd : (n.id :: (X ++ Y).map (fun n => n.id)).Nodup := by
            have := hI
            rw [hb] at this
            simp only [List.map_append, List.map_cons] at this ⊢
            exact List.nodup_middle.mp this
          have hx : m.id ∈ (X ++ Y).map (fun n => n.id) :=
            List.mem_map_of_mem (fun n => n.id) (List.mem_append.mpr hmXY)
          rw [hid] at hx
          exact (List.nodup_cons.mp hnd).1 hx
        · refine hF n hnmem hn (m.id.offset - n.id.offset).toNat (by omega) (by omega) ?_
          have e : n.id.offset + ((m.id.offset - n.id.offset).toNat : Int) = m.id.offset := by
            omega
          rw [e, ← hc]
          exact List.mem_map_of_mem (fun n => n.id) hmns
      · exact hF m hmns hmv i hi0 hi1 h

theorem validString_runesToString (rs : List Nat) (hv : ∀ r ∈ rs, ValidRune r = true) :
    ValidString (runesToString rs) = true :=
  validLoop_encode rs hv _

/-- Splitting keeps the visible values valid UTF-8. -/
theorem valid_splitStep {T : Type} (addr : Nat) (ns after : List (RGATreeSplitNode T))
    (hv : ∀ m ∈ ns, m.removedAt = none → ValidString m.value.value = true)
    (hstep : SplitStep addr ns after) :
    ∀ m ∈ after, m.removedAt = none → ValidString m.value.value = true := by
  rcases hstep with h | ⟨X, n, Y, j, left, right, hb, ha, hn, hj0, hj1, hs⟩
  · rw [h]; exact hv
  obtain ⟨l1, r1, hs1, hl, hr, _, _⟩ := node_split_spec n addr j (Nat.le_of_lt hj1)
  rw [hs] at hs1
  have hl1 : left = l1 := by injection hs1 with h; exact (Prod.mk.inj h).1
  have hr1 : right = r1 := by injection hs1 with h; exact (Prod.mk.inj h).2
  subst hl1 hr1
  have hvalid := stringToRunes_valid n.value.value
  intro m hm hmv
  rw [ha] at hm
  simp only [List.mem_append, List.mem_cons] at hm
  rcases hm with h | h | h | h
  · exact hv m (by rw [hb]; simp [h]) hmv
  · rw [h, hl]
    exact validString_runesToString _ (fun r hr => hvalid r (List.mem_of_mem_take hr))
  · rw [h, hr]
    exact validString_runesToString _ (fun r hr => hvalid r (List.mem_of_mem_drop hr))
  · exact hv m (by rw [hb]; simp [h]) hmv

/-- Splitting allocates at `addr` only. -/
theorem addr_splitStep {T : Type} (addr : Nat) (ns after : List (RGATreeSplitNode T))
    (hstep : SplitStep addr ns after) :
    ∀ m ∈ after, m.addr = addr ∨ m.addr ∈ ns.map (fun n => n.addr) := by
  rcases hstep with h | ⟨X, n, Y, j, left, right, hb, ha, hn, hj0, hj1, hs⟩
  · rw [h]; intro m hm; exact Or.inr (List.mem_map_of_mem (fun n => n.addr) hm)
  obtain ⟨l1, r1, hs1, hl, hr, _, _⟩ := node_split_spec n addr j (Nat.le_of_lt hj1)
  rw [hs] at hs1
  have hl1 : left = l1 := by injection hs1 with h; exact (Prod.mk.inj h).1
  have hr1 : right = r1 := by injection hs1 with h; exact (Prod.mk.inj h).2
  subst hl1 hr1
  intro m hm
  rw [ha] at hm
  simp only [List.mem_append, List.mem_cons] at hm
  rcases hm with h | h | h | h
  · exact Or.inr (List.mem_map_of_mem (fun n : RGATreeSplitNode T => n.addr)
      (show m ∈ ns by rw [hb]; simp [h]))
  · right
    rw [h, hl, hb]
    simp
  · left; rw [h, hr]
  · exact Or.inr (List.mem_map_of_mem (fun n : RGATreeSplitNode T => n.addr)
      (show m ∈ ns by rw [hb]; simp [h]))

theorem visibleLength_eq {T : Type} (s : RGATreeSplit T) :
    s.visibleLength = (visibleRunes s.chain).length := by
  simp only [RGATreeSplit.visibleLength, visibleRunes]
  induction s.chain.filter (fun n => n.removedAt.isNone) with
  | nil => rfl
  | cons n rest ih =>
    rw [List.map_cons, List.sum_cons, List.flatMap_cons, List.length_append, ih, contentLen_eq]

/-- Range resolution within the visible length: it returns, the chain falls
into the part before `from`, the part between the boundaries and the part
after `to`, the positions name the ends of the last nodes of the first two
parts, and the invariants of the sequence are kept. -/
theorem createRange_spec {T : Type} [DecidableEq T] (alloc : Nat) (s : RGATreeSplit T)
    (fromIdx toIdx : Int) (hwf : WellFormed (s.initialHead :: s.chain))
    (hbound : ∀ n ∈ s.initialHead :: s.chain, n.addr < alloc)
    (hvalid : ∀ n ∈ s.chain, n.removedAt = none → ValidString n.value.value = true)
    (h0 : 0 ≤ fromIdx) (h1 : fromIdx ≤ toIdx) (h2 : toIdx ≤ ((visibleRunes s.chain).length : Nat)) :
    ∃ A1 A2 B2 L M, ∃ idx,
      s.createRange alloc fromIdx toIdx =
        ({ s with chain := A1 ++ A2 ++ B2, treeByID := idx }, some (L.endPos, M.endPos)) ∧
      visibleRunes A1 = (visibleRunes s.chain).take fromIdx.toNat ∧
      visibleRunes B2 = (visibleRunes s.chain).drop toIdx.toNat ∧
      ((A1 = [] ∧ L = s.initialHead) ∨ ∃ A, A1 = A ++ [L]) ∧
      ((A2 = [] ∧ M = L) ∨ ∃ A, A2 = A ++ [M]) ∧
      WellFormed (s.initialHead :: (A1 ++ A2 ++ B2)) ∧
      (∀ n ∈ A1 ++ A2 ++ B2, n.removedAt = none → ValidString n.value.value = true) := by
  have hk1 : fromIdx.toNat ≤ (visibleRunes s.chain).length := by omega
  obtain ⟨A1, L, B1, hres1, hA1, hB1, hL, hstep1⟩ :=
    resolveOffset_spec alloc s.chain s.initialHead fromIdx.toNat hk1
  have hk2 : toIdx.toNat - fromIdx.toNat ≤ (visibleRunes B1).length := by
    rw [hB1, List.length_drop]; omega
  obtain ⟨A2, M, B2, hres2, hA2, hB2, hM, hstep2⟩ :=
    resolveOffset_spec (alloc + 1) B1 L (toIdx.toNat - fromIdx.toNat) hk2
  have hstep1h := SplitStep_append_left alloc [s.initialHead] _ _ hstep1
  have hstep2h := SplitStep_append_left (alloc + 1) (s.initialHead :: A1) _ _ hstep2
  have hwf1 : WellFormed (s.initialHead :: (A1 ++ B1)) :=
    wellFormed_splitStep alloc _ _ hwf hstep1h (by
      intro h
      obtain ⟨n, hn, hna⟩ := List.mem_map.mp h
      have := hbound n hn
      omega)
  have hb1 : ∀ n ∈ s.initialHead :: (A1 ++ B1), n.addr < alloc + 1 := by
    intro n hn
    rcases addr_splitStep alloc _ _ hstep1h n hn with h | h
    · omega
    · obtain ⟨m, hm, hma⟩ := List.mem_map.mp h
      have := hbound m hm
      omega
  have hwf2 : WellFormed (s.initialHead :: (A1 ++ A2 ++ B2)) := by
    have := wellFormed_splitStep (alloc + 1) _ _ hwf1 hstep2h (by
      intro h
      obtain ⟨n, hn, hna⟩ := List.mem_map.mp h
      have := hb1 n hn
      omega)
    simpa [List.append_assoc] using this
  have hv1 := valid_splitStep alloc _ _ hvalid hstep1
  have hv2 : ∀ n ∈ A1 ++ A2 ++ B2, n.removedAt = none → ValidString n.value.value = true := by
    have := valid_splitStep (alloc + 1) _ _ hv1 (SplitStep_append_left (alloc + 1) A1 _ _ hstep2)
    simpa [List.append_assoc] using this
  refine ⟨A1, A2, B2, L, M,
    (fun id =>
      match (A1 ++ A2 ++ B2).find? (fun n => decide (alloc ≤ n.addr) && decide (n.id = id)) with
      | some n => some n.addr
      | none => s.treeByID id), ?_, hA1, ?_, hL, hM, hwf2, hv2⟩
  · have hg : ¬(fromIdx < 0 ∨ toIdx < fromIdx ∨ (s.visibleLength : Int) < toIdx) := by
      rw [visibleLength_eq]; omega
    simp only [RGATreeSplit.createRange, if_neg hg, hres1, hres2]
  · rw [hB2, hB1, List.drop_drop]
    congr 1
    omega

theorem splitAtID_unique {T : Type} [DecidableEq T] (pre post : List (RGATreeSplitNode T))
    (x : RGATreeSplitNode T) (h : ∀ y ∈ pre, y.id ≠ x.id) :
    splitAtID x.id (pre ++ x :: post) = some (pre, x, post) := by
  induction pre with
  | nil => simp [splitAtID]
  | cons y ys ih =>
    have hy : y.id ≠ x.id := h y (List.mem_cons_self y ys)
    simp [splitAtID, hy, ih (fun z hz => h z (List.mem_cons_of_mem y hz))]

theorem spliceAfter_unique {T : Type} (pre post : List (RGATreeSplitNode T))
    (l new : RGATreeSplitNode T) (h : ∀ x ∈ pre, x.addr ≠ l.addr) :
    spliceAfter l.addr new (pre ++ l :: post) = some (pre ++ l :: new :: post) := by
  induction pre with
  | nil => simp [spliceAfter]
  | cons x xs ih =>
    have hx : x.addr ≠ l.addr := h x (List.mem_cons_self x xs)
    simp [spliceAfter, hx, ih (fun y hy => h y (List.mem_cons_of_mem x hy))]

theorem visibleString_append {T : Type} (a b : List (RGATreeSplitNode T)) :
    visibleString (a ++ b) = visibleString a ++ visibleString b := by
  simp [visibleString]

theorem visibleString_cons_visible {T : Type} (n : RGATreeSplitNode T)
    (l : List (RGATreeSplitNode T)) (h : n.removedAt = none) :
    visibleString (n :: l) = n.value.value ++ visibleString l := by
  simp [visibleString, List.filter_cons, h, TextValue.String]

/-- With no recorded map every visited node ends up tombstoned, so the visited
nodes contribute nothing to the visible content. -/
theorem visibleString_map_tombstone {T : Type} [TicketOps T] (editedAt : T)
    (l : List (RGATreeSplitNode T)) :
    visibleString (l.map (tombstone none editedAt)) = [] := by
  induction l with
  | nil => rfl
  | cons n rest ih =>
    have : (tombstone none editedAt n).removedAt.isNone = false := by
      unfold tombstone causallyKnown
      cases hr : n.removedAt <;> simp [hr]
    simp only [visibleString, List.map_cons, List.filter_cons, this] at ih ⊢
    exact ih

theorem runeCount_eq_zero (s : List Nat) (h : RuneCountInString s = 0) : s = [] := by
  cases s with
  | nil => rfl
  | cons b bs => simp [RuneCountInString, runeCountLoop] at h

theorem nodup_middle_ne {α β : Type} (f : α → β) (pre post : List α) (x : α)
    (h : ((pre ++ x :: post).map f).Nodup) :
    (∀ y ∈ pre, f y ≠ f x) ∧ (∀ y ∈ post, f y ≠ f x) := by
  simp only [List.map_append, List.map_cons] at h
  have h2 := List.nodup_middle.mp h
  have h3 := (List.nodup_cons.mp h2).1
  constructor
  · intro y hy he
    exact h3 (List.mem_append_left _ (he ▸ List.mem_map_of_mem f hy))
  · intro y hy he
    exact h3 (List.mem_append_right _ (he ▸ List.mem_map_of_mem f hy))

/-- The edit of the local editor on resolved positions: the nodes between the
two boundaries are tombstoned and the new content is placed at the first
boundary. -/
theorem edit_spec {T : Type} [DecidableEq T] [TicketOps T] (addr : Nat) (s2 : RGATreeSplit T)
    (A1 A2 B2 : List (RGATreeSplitNode T)) (L M : RGATreeSplitNode T) (content : TextValue)
    (editedAt : T) (hchain : s2.chain = A1 ++ A2 ++ B2)
    (hL : (A1 = [] ∧ L = s2.initialHead) ∨ ∃ A, A1 = A ++ [L])
    (hM : (A2 = [] ∧ M = L) ∨ ∃ A, A2 = A ++ [M])
    (hwf : WellFormed (s2.initialHead :: (A1 ++ A2 ++ B2))) :
    ∃ s3 r, s2.edit addr L.endPos M.endPos none content editedAt = (s3, some r) ∧
      visibleString s3.chain = visibleString A1 ++ content.value ++ visibleString B2 := by
  obtain ⟨hA, hI, _⟩ := hwf
  obtain ⟨pre, hpre⟩ : ∃ pre, s2.initialHead :: A1 = pre ++ [L] := by
    rcases hL with ⟨h1, h2⟩ | ⟨A, h⟩
    · exact ⟨[], by rw [h1, h2]; rfl⟩
    · exact ⟨s2.initialHead :: A, by rw [h]; rfl⟩
  have hall : s2.initialHead :: (A1 ++ A2 ++ B2) = pre ++ L :: (A2 ++ B2) := by
    have : s2.initialHead :: (A1 ++ A2 ++ B2) = (s2.initialHead :: A1) ++ (A2 ++ B2) := by simp
    rw [this, hpre]; simp
  rw [hall] at hA hI
  have hidL := nodup_middle_ne (fun n : RGATreeSplitNode T => n.id) pre (A2 ++ B2) L hI
  have haddrL := nodup_middle_ne (fun n : RGATreeSplitNode T => n.addr) pre (A2 ++ B2) L hA
  have hfrom : splitAtID L.endPos.id (s2.initialHead :: s2.chain) = some (pre, L, A2 ++ B2) := by
    rw [hchain, hall]
    exact splitAtID_unique pre (A2 ++ B2) L hidL.1
  -- the chain once the visited nodes went through the tombstone phase
  have htail : (pre ++ L :: (A2.map (tombstone none editedAt) ++ B2)).tail =
      A1 ++ (A2.map (tombstone none editedAt) ++ B2) := by
    have : pre ++ L :: (A2.map (tombstone none editedAt) ++ B2) =
        (pre ++ [L]) ++ (A2.map (tombstone none editedAt) ++ B2) := by simp
    rw [this, ← hpre]; rfl
  have hto : ∃ mid m rest,
      (if M.endPos.id = L.endPos.id then some ([], L, A2 ++ B2)
        else splitAtID M.endPos.id (A2 ++ B2)) = some (mid, m, rest) ∧
      (if M.endPos.id = L.endPos.id then [] else mid ++ [m]) = A2 ∧ rest = B2 := by
    rcases hM with ⟨h1, h2⟩ | ⟨A, h⟩
    · subst h1 h2
      exact ⟨[], M, B2, by simp, by simp, rfl⟩
    · have hne : M.id ≠ L.id := hidL.2 M (by rw [h]; simp)
      have hidA : ∀ y ∈ A, y.id ≠ M.id := by
        have hI2 : ((pre ++ L :: A) ++ M :: B2).map (fun n : RGATreeSplitNode T => n.id) |>.Nodup := by
          have : (pre ++ L :: A) ++ M :: B2 = pre ++ L :: (A2 ++ B2) := by rw [h]; simp
          rw [this]; exact hI
        intro y hy
        exact (nodup_middle_ne (fun n : RGATreeSplitNode T => n.id) _ _ M hI2).1 y
          (by simp [hy])
      refine ⟨A, M, B2, ?_, ?_, rfl⟩
      · have e : A2 ++ B2 = A ++ M :: B2 := by rw [h]; simp
        simp only [RGATreeSplitNode.endPos, hne, if_false, e]
        exact splitAtID_unique A B2 M hidA
      · simp only [RGATreeSplitNode.endPos, hne, if_false, h]
  obtain ⟨mid, m, rest, hto1, hvis, hrest⟩ := hto
  subst hrest
  -- the insertion
  have hins : ∀ (idx : RGATreeSplitNodeID T → Option Nat) (new : RGATreeSplitNode T),
      ∃ s3, (RGATreeSplit.mk s2.initialHead
          (A1 ++ (A2.map (tombstone none editedAt) ++ rest)) idx).InsertAfter L.ref new =
          some (s3, new.ref) ∧
        s3.chain = A1 ++ new :: (A2.map (tombstone none editedAt) ++ rest) := by
    intro idx new
    rcases hL with ⟨h1, h2⟩ | ⟨A, h⟩
    · subst h1 h2
      exact ⟨{ initialHead := s2.initialHead,
               chain := new :: (A2.map (tombstone none editedAt) ++ rest),
               treeByID := fun id => if id = new.id then some new.addr else idx id },
        by simp [RGATreeSplit.InsertAfter, RGATreeSplitNode.ref], rfl⟩
    · have hp : pre = s2.initialHead :: A := by
        rw [h] at hpre
        have : s2.initialHead :: (A ++ [L]) = (s2.initialHead :: A) ++ [L] := rfl
        rw [this] at hpre
        exact (List.append_inj_left' hpre rfl).symm
      have hne : L.addr ≠ s2.initialHead.addr :=
        fun e => haddrL.1 s2.initialHead (by rw [hp]; simp) e.symm
      have hsp := spliceAfter_unique A (A2.map (tombstone none editedAt) ++ rest) L new
        (fun y hy => haddrL.1 y (by rw [hp]; simp [hy]))
      refine ⟨{ initialHead := s2.initialHead,
                chain := A ++ L :: new :: (A2.map (tombstone none editedAt) ++ rest),
                treeByID := fun id => if id = new.id then some new.addr else idx id }, ?_, ?_⟩
      · simp only [RGATreeSplit.InsertAfter, RGATreeSplitNode.ref, if_neg hne, h,
          List.append_assoc, List.singleton_append, hsp, Option.map_some']
      · simp [h]
  unfold RGATreeSplit.edit
  simp only [hfrom, hto1, hvis, htail]
  by_cases hlen : content.Len > 0
  · obtain ⟨s3, h3, hc3⟩ := hins s2.treeByID
      { addr := addr, id := { createdAt := editedAt, offset := 0 }, value := content,
        removedAt := none, insPrev := some L.ref }
    simp only [if_pos hlen, h3]
    refine ⟨_, _, rfl, ?_⟩
    rw [hc3, visibleString_append, visibleString_cons_visible _ _ rfl, visibleString_append,
      visibleString_map_tombstone, List.nil_append, List.append_assoc]
  · simp only [if_neg hlen]
    refine ⟨_, _, rfl, ?_⟩
    have hempty : content.value = [] := by
      apply runeCount_eq_zero
      simp only [TextValue.Len, gt_iff_lt, not_lt] at hlen
      omega
    show visibleString (A1 ++ (A2.map (tombstone none editedAt) ++ rest)) = _
    rw [visibleString_append, visibleString_append, visibleString_map_tombstone, List.nil_append,
      hempty, List.append_nil]

theorem visibleRunes_valid {T : Type} (l : List (RGATreeSplitNode T)) :
    ∀ r ∈ visibleRunes l, ValidRune r = true := by
  intro r hr
  simp only [visibleRunes, List.mem_flatMap] at hr
  obtain ⟨n, _, hn⟩ := hr
  exact stringToRunes_valid _ r hn

theorem visibleString_eq_encode {T : Type} (l : List (RGATreeSplitNode T))
    (hv : ∀ n ∈ l, n.removedAt = none → ValidString n.value.value = true) :
    visibleString l = runesToString (visibleRunes l) := by
  induction l with
  | nil => rfl
  | cons n rest ih =>
    have ih1 := ih (fun m hm => hv m (List.mem_cons_of_mem n hm))
    cases hr : n.removedAt with
    | none =>
      rw [visibleString_cons_visible n rest hr, visibleRunes_cons_visible n rest (by simp [hr]),
        runesToString_append, ih1,
        runesToString_stringToRunes _ (hv n (List.mem_cons_self n rest) hr)]
    | some x =>
      rw [visibleRunes_cons_removed n rest (by simp [hr]), ← ih1]
      simp [visibleString, List.filter_cons, hr]

/-! ## Claims about the local edit -/

/-- C9 (as stated, refuted): the visible content of `exBrokenRunes` is the
string `s = "\xe4\xb8\x96"`, one rune long, and `Edit(1, 1, "x")` has
`0 ≤ 1 ≤ 1 ≤ length(s)`.  The edit returns and leaves the visible content
`"\xe4x\xb8\x96"`, with the new content between the two nodes, whereas
`s[0:1] + "x" + s[1:]` is `"\xe4\xb8\x96x"`. -/
theorem local_edit_counterexample :
    exBrokenRunes.Text.rgaTreeSplit.contentString = [0xE4, 0xB8, 0x96] ∧
    RuneCountInString exBrokenRunes.Text.rgaTreeSplit.contentString = 1 ∧
    (exBrokenRunes.Edit (specCollaborators 3 exIssue exPush) 1 1 [0x78]).2 = Outcome.returned ∧
    (exBrokenRunes.Edit (specCollaborators 3 exIssue exPush) 1 1 [0x78]).1.Text.rgaTreeSplit.contentString
      = [0xE4, 0x78, 0xB8, 0x96] ∧
    runesToString ((stringToRunes exBrokenRunes.Text.rgaTreeSplit.contentString).take 1) ++ [0x78] ++
        runesToString ((stringToRunes exBrokenRunes.Text.rgaTreeSplit.contentString).drop 1)
      = [0xE4, 0xB8, 0x96, 0x78] := by
  decide

/-- C9 (amended): for every text whose sequence is well formed (distinct node
objects below the first free address, unique IDs that splitting keeps unique)
and whose visible node values are valid UTF-8, with visible content `s`, and
all offsets `0 ≤ from ≤ to ≤ length(s)` in runes, the local edit
`TextProxy.Edit(from, to, content)`, which resolves the offsets to positions
and calls `Text.Edit` without a latestCreatedAt map, returns and leaves the
visible content equal to `s[0:from] + content + s[to:]`. -/
theorem local_edit_replaces_range {T Ctx : Type} [DecidableEq T] [TicketOps T] (alloc : Nat)
    (issue : Ctx → Ctx × T) (push : Ctx → EditOperation T → Ctx) (p : TextProxy T Ctx)
    (fromIdx toIdx : Int) (content : List Nat)
    (hwf : WellFormed (p.Text.rgaTreeSplit.initialHead :: p.Text.rgaTreeSplit.chain))
    (hbound : ∀ n ∈ p.Text.rgaTreeSplit.initialHead :: p.Text.rgaTreeSplit.chain, n.addr < alloc)
    (hvalid : ∀ n ∈ p.Text.rgaTreeSplit.chain, n.removedAt = none →
      ValidString n.value.value = true)
    (h0 : 0 ≤ fromIdx) (h1 : fromIdx ≤ toIdx)
    (h2 : toIdx ≤ (RuneCountInString p.Text.rgaTreeSplit.contentString : Nat)) :
    (p.Edit (specCollaborators alloc issue push) fromIdx toIdx content).2 = Outcome.returned ∧
    (p.Edit (specCollaborators alloc issue push) fromIdx toIdx content).1.Text.rgaTreeSplit.contentString
      = runesToString ((stringToRunes p.Text.rgaTreeSplit.contentString).take fromIdx.toNat) ++
          content ++
          runesToString ((stringToRunes p.Text.rgaTreeSplit.contentString).drop toIdx.toNat) := by
  have hs : p.Text.rgaTreeSplit.contentString =
      runesToString (visibleRunes p.Text.rgaTreeSplit.chain) :=
    visibleString_eq_encode _ hvalid
  have hR : stringToRunes p.Text.rgaTreeSplit.contentString =
      visibleRunes p.Text.rgaTreeSplit.chain := by
    rw [hs]; exact stringToRunes_runesToString _ (visibleRunes_valid _)
  have h2a : toIdx ≤ ((visibleRunes p.Text.rgaTreeSplit.chain).length : Nat) := by
    rw [← hR, length_stringToRunes]; exact h2
  obtain ⟨A1, A2, B2, L, M, idx, hcr, hA1, hB2, hL, hM, hwf2, hv2⟩ :=
    createRange_spec alloc p.Text.rgaTreeSplit fromIdx toIdx hwf hbound hvalid h0 h1 h2a
  obtain ⟨s3, r, hed, hvis⟩ := edit_spec (alloc + 2)
    { p.Text.rgaTreeSplit with chain := A1 ++ A2 ++ B2, treeByID := idx } A1 A2 B2 L M
    (NewTextValue content) (issue p.context).2 rfl hL hM hwf2
  have hedit : p.Edit (specCollaborators alloc issue push) fromIdx toIdx content =
      ({ Text := { p.Text with rgaTreeSplit := s3 },
         context := push (issue p.context).1
           (NewEdit p.Text.createdAt L.endPos M.endPos r.2 content (issue p.context).2) },
        Outcome.returned) := by
    unfold TextProxy.Edit
    rw [if_neg (by omega)]
    simp only [Text.CreateRange, Text.Edit, specCollaborators, hcr, hed]
    rfl
  rw [hedit]
  refine ⟨rfl, ?_⟩
  show visibleString s3.chain = _
  rw [hvis, hR,
    visibleString_eq_encode A1 (fun n hn => hv2 n (by simp [hn])),
    visibleString_eq_encode B2 (fun n hn => hv2 n (by simp [hn])), hA1, hB2]
  rfl

/-- Witness for `local_edit_replaces_range`: "Hello World" with
`Edit(0, 5, "Hi")` becomes "Hi World"; and "Hello" with `Edit(0, 5, "")`
becomes "" with its node tombstoned by the ticket of the edit. -/
theorem local_edit_replaces_range_witness :
    ((exHelloWorld.Edit (specCollaborators 2 exIssue exPush) 0 5 [0x48, 0x69]).2 =
        Outcome.returned ∧
      (exHelloWorld.Edit (specCollaborators 2 exIssue exPush) 0 5
          [0x48, 0x69]).1.Text.rgaTreeSplit.contentString =
        runesToString ((stringToRunes exHelloWorld.Text.rgaTreeSplit.contentString).take
            (0 : Int).toNat) ++ [0x48, 0x69] ++
          runesToString ((stringToRunes exHelloWorld.Text.rgaTreeSplit.contentString).drop
            (5 : Int).toNat)) ∧
    (exHelloWorld.Edit (specCollaborators 2 exIssue exPush) 0 5
        [0x48, 0x69]).1.Text.rgaTreeSplit.contentString =
      [0x48, 0x69, 0x20, 0x57, 0x6F, 0x72, 0x6C, 0x64] ∧
    (exHello.Edit (specCollaborators 2 exIssue exPush) 0 5 []).1.Text.rgaTreeSplit.contentString =
      [] ∧
    (exHello.Edit (specCollaborators 2 exIssue exPush) 0 5 []).1.Text.Nodes.map
        (fun n => (n.id, n.removedAt)) =
      [(exID 1, some { lamport := 2, actorID := "a" })] :=
  ⟨local_edit_replaces_range 2 exIssue exPush exHelloWorld 0 5 [0x48, 0x69]
      ⟨by decide, by decide, by
        intro n hn hv j hj0 hj1
        simp only [exHelloWorld, InitialTextNode, NewRGATreeSplitNode, List.mem_cons,
          List.mem_singleton, List.not_mem_nil, or_false] at hn
        rcases hn with rfl | rfl
        · simp [RGATreeSplitNode.contentLen, RuneCountInString, runeCountLoop] at hj1
        · simp only [exHelloWorld, InitialTextNode, NewRGATreeSplitNode, exID, exInitialID,
            List.map_cons, List.map_nil, List.mem_cons, List.mem_singleton, List.not_mem_nil,
            or_false, RGATreeSplitNodeID.mk.injEq, Ticket.mk.injEq, not_or]
          constructor
          · simp
          · intro h; omega⟩
      (by decide) (by decide) (by decide) (by decide) (by decide),
    by decide, by decide, by decide⟩

/-! ## Further claims about `Text.Select`, `Text.Remove` and the life cycle -/

/-- A `Select` whose ticket is not `After` the ticket of the selection stored
for its actor changes nothing. -/
theorem select_not_after {T : Type} [TicketOps T] (t : Text T)
    (fromPos toPos : RGATreeSplitNodePos T) (updatedAt : T) (prev : Selection T)
    (hstored : t.selectionMap (TicketOps.ActorIDHex updatedAt) = some prev)
    (hstale : TicketOps.After updatedAt prev.updatedAt = false) :
    t.Select fromPos toPos updatedAt = t := by
  unfold Text.Select
  simp [hstored, hstale]

/-- The fields that `Select` does not touch. -/
theorem select_stores_frame {T : Type} [TicketOps T] (t : Text T)
    (fromPos toPos : RGATreeSplitNodePos T) (updatedAt : T) :
    (t.Select fromPos toPos updatedAt).rgaTreeSplit = t.rgaTreeSplit ∧
    (t.Select fromPos toPos updatedAt).createdAt = t.createdAt ∧
    (t.Select fromPos toPos updatedAt).removedAt = t.removedAt := by
  unfold Text.Select
  cases t.selectionMap (TicketOps.ActorIDHex updatedAt) with
  | none => exact ⟨rfl, rfl, rfl⟩
  | some prev =>
    by_cases ha : TicketOps.After updatedAt prev.updatedAt = true
    · simp [ha]
    · simp [ha]

/-- C11: for every Text that stores a selection for the actor of the ticket,
`Select(from, to, ticket)` with a ticket that is not `After` the ticket of the
stored selection (equal or earlier) returns and leaves the Text, and with it
the selection map and the actor's stored from, to and ticket, unchanged. -/
theorem select_stale_noop {T : Type} [TicketOps T] (t : Text T)
    (fromPos toPos : RGATreeSplitNodePos T) (updatedAt : T) (prev : Selection T)
    (hstored : t.selectionMap (TicketOps.ActorIDHex updatedAt) = some prev)
    (hstale : TicketOps.After updatedAt prev.updatedAt = false) :
    t.Select fromPos toPos updatedAt = t ∧
      (t.Select fromPos toPos updatedAt).selectionMap = t.selectionMap ∧
      (t.Select fromPos toPos updatedAt).selectionMap (TicketOps.ActorIDHex updatedAt) =
        some prev := by
  have h : t.Select fromPos toPos updatedAt = t := by
    unfold Text.Select
    simp [hstored, hstale]
  rw [h]
  exact ⟨rfl, rfl, hstored⟩

/-- Witness for `select_stale_noop`: actor "a" has selected with ticket 3; a
selection with the same ticket and one with ticket 2 are dropped. -/
theorem select_stale_noop_witness :
    ((NewText (NewRGATreeSplit (InitialTextNode exInitialID 0)) none).Select
        ⟨exID 1, 0⟩ ⟨exID 1, 1⟩ (⟨3, "a"⟩ : Ticket)).Select ⟨exID 1, 2⟩ ⟨exID 1, 3⟩ ⟨2, "a"⟩ =
      (NewText (NewRGATreeSplit (InitialTextNode exInitialID 0)) none).Select
        ⟨exID 1, 0⟩ ⟨exID 1, 1⟩ (⟨3, "a"⟩ : Ticket) ∧
    (((NewText (NewRGATreeSplit (InitialTextNode exInitialID 0)) none).Select
        ⟨exID 1, 0⟩ ⟨exID 1, 1⟩ (⟨3, "a"⟩ : Ticket)).Select ⟨exID 1, 2⟩ ⟨exID 1, 3⟩
          ⟨2, "a"⟩).selectionMap =
      ((NewText (NewRGATreeSplit (InitialTextNode exInitialID 0)) none).Select
        ⟨exID 1, 0⟩ ⟨exID 1, 1⟩ (⟨3, "a"⟩ : Ticket)).selectionMap ∧
    (((NewText (NewRGATreeSplit (InitialTextNode exInitialID 0)) none).Select
        ⟨exID 1, 0⟩ ⟨exID 1, 1⟩ (⟨3, "a"⟩ : Ticket)).Select ⟨exID 1, 2⟩ ⟨exID 1, 3⟩
          ⟨2, "a"⟩).selectionMap (TicketOps.ActorIDHex (⟨2, "a"⟩ : Ticket)) =
      some (newSelection ⟨exID 1, 0⟩ ⟨exID 1, 1⟩ ⟨3, "a"⟩) :=
  select_stale_noop
    ((NewText (NewRGATreeSplit (InitialTextNode exInitialID 0)) none).Select
      ⟨exID 1, 0⟩ ⟨exID 1, 1⟩ (⟨3, "a"⟩ : Ticket))
    ⟨exID 1, 2⟩ ⟨exID 1, 3⟩ ⟨2, "a"⟩ (newSelection ⟨exID 1, 0⟩ ⟨exID 1, 1⟩ ⟨3, "a"⟩)
    (by decide) (by decide)

/-- C14: for every Text and every `Select(from, to, ticket)` call, the sequence
(its nodes, its visible content and so whatever `Marshal` returns), `createdAt`,
`updatedAt`, `removedAt` and the selection stored for every actor other than
the one of the ticket are the same after the call as before. -/
theorem select_frame {T : Type} [TicketOps T] (t : Text T)
    (fromPos toPos : RGATreeSplitNodePos T) (updatedAt : T) :
    (t.Select fromPos toPos updatedAt).rgaTreeSplit = t.rgaTreeSplit ∧
    (t.Select fromPos toPos updatedAt).Nodes = t.Nodes ∧
    (t.Select fromPos toPos updatedAt).rgaTreeSplit.contentString =
      t.rgaTreeSplit.contentString ∧
    (∀ marshal : RGATreeSplit T → List Nat,
      (t.Select fromPos toPos updatedAt).Marshal marshal = t.Marshal marshal) ∧
    (t.Select fromPos toPos updatedAt).createdAt = t.createdAt ∧
    (t.Select fromPos toPos updatedAt).updatedAt = t.updatedAt ∧
    (t.Select fromPos toPos updatedAt).removedAt = t.removedAt ∧
    ∀ actor : String, actor ≠ TicketOps.ActorIDHex updatedAt →
      (t.Select fromPos toPos updatedAt).selectionMap actor = t.selectionMap actor := by
  have h : ∀ u : Text T, u = t ∨
      u = { t with selectionMap := fun k =>
        if k = TicketOps.ActorIDHex updatedAt then some (newSelection fromPos toPos updatedAt)
        else t.selectionMap k } →
      u.rgaTreeSplit = t.rgaTreeSplit ∧ u.Nodes = t.Nodes ∧
      u.rgaTreeSplit.contentString = t.rgaTreeSplit.contentString ∧
      (∀ marshal : RGATreeSplit T → List Nat, u.Marshal marshal = t.Marshal marshal) ∧
      u.createdAt = t.createdAt ∧ u.updatedAt = t.updatedAt ∧ u.removedAt = t.removedAt ∧
      ∀ actor : String, actor ≠ TicketOps.ActorIDHex updatedAt →
        u.selectionMap actor = t.selectionMap actor := by
    rintro u (rfl | rfl)
    · exact ⟨rfl, rfl, rfl, fun _ => rfl, rfl, rfl, rfl, fun _ _ => rfl⟩
    · exact ⟨rfl, rfl, rfl, fun _ => rfl, rfl, rfl, rfl, fun actor ha => by simp [ha]⟩
  apply h
  unfold Text.Select
  cases hm : t.selectionMap (TicketOps.ActorIDHex updatedAt) with
  | none => exact Or.inr rfl
  | some prev =>
    by_cases ha : TicketOps.After updatedAt prev.updatedAt = true
    · exact Or.inr (if_pos ha)
    · exact Or.inl (if_neg ha)

/-- C19: for every Text `t`, `t.DeepCopy()` returns a copy with an empty
selection map, an unset `updatedAt` and an unset `removedAt`, whatever `t`
held; so `Remove(k)` on the copy returns true, and sets `removedAt` to `k`, for
every ticket `k`, also when `t` was removed. -/
theorem deepCopy_resets_state {T : Type} [DecidableEq T] [TicketOps T]
    (initialNodeID : RGATreeSplitNodeID T) (alloc : Nat) (t : Text T) :
    ∃ c warnings, t.DeepCopy initialNodeID alloc = some (c, warnings) ∧
      c.selectionMap = (fun _ => none) ∧ c.UpdatedAt = none ∧ c.RemovedAt = none ∧
      c.CreatedAt = t.CreatedAt ∧
      ∀ k : T, (c.Remove k).2 = true ∧ (c.Remove k).1.RemovedAt = some k := by
  obtain ⟨c, h, _, _, _, hs, hc, hu, hr⟩ := deepCopy_closed initialNodeID alloc t
  refine ⟨c, _, h, hs, hu, hr, hc, fun k => ?_⟩
  simp [Text.Remove, Text.RemovedAt, hr]

/-! ## The life cycle of a `Text` -/

/-- No call changes `createdAt`. -/
theorem call_createdAt {T Ctx : Type} [TicketOps T] (env : Collaborators T Ctx) (t : Text T)
    (c : TextCall T) : (t.call env c).createdAt = t.createdAt := by
  cases c with
  | Remove k =>
    simp only [Text.call, Text.Remove]
    cases t.removedAt with
    | none => rfl
    | some prev => by_cases h : TicketOps.After k prev = true <;> simp [h]
  | Select f g k => exact (select_stores_frame t f g k).2.1
  | SetUpdatedAt u => rfl
  | Edit f g l content k => rfl

/-- A call leaves a set `removedAt` as it is or replaces it by a ticket that is
`After` it. -/
theorem call_removedAt {T Ctx : Type} [TicketOps T] (env : Collaborators T Ctx) (t : Text T)
    (c : TextCall T) (p : T) (hp : t.removedAt = some p) :
    (t.call env c).removedAt = some p ∨
      ∃ q, (t.call env c).removedAt = some q ∧ TicketOps.After q p = true := by
  cases c with
  | Remove k =>
    simp only [Text.call, Text.Remove, hp]
    by_cases h : TicketOps.After k p = true
    · exact Or.inr ⟨k, by simp [h], h⟩
    · exact Or.inl (by simp [h, hp])
  | Select f g k => exact Or.inl ((select_stores_frame t f g k).2.2.trans hp)
  | SetUpdatedAt u => exact Or.inl hp
  | Edit f g l content k => exact Or.inl hp

theorem calls_append {T Ctx : Type} [TicketOps T] (env : Collaborators T Ctx) (t : Text T)
    (xs ys : List (TextCall T)) : t.calls env (xs ++ ys) = (t.calls env xs).calls env ys := by
  simp [Text.calls, List.foldl_append]

/-- Over a sequence of calls a set `removedAt` stays set, and the ticket it
holds at the end is reached from the one it held by steps to a ticket that is
`After` the one before. -/
theorem calls_removedAt {T Ctx : Type} [TicketOps T] (env : Collaborators T Ctx)
    (cs : List (TextCall T)) (t : Text T) (p : T) (hp : t.removedAt = some p) :
    ∃ q, (t.calls env cs).removedAt = some q ∧
      Relation.ReflTransGen (fun x y : T => TicketOps.After y x = true) p q := by
  induction cs generalizing t p with
  | nil => exact ⟨p, hp, Relation.ReflTransGen.refl⟩
  | cons c rest ih =>
    rcases call_removedAt env t c p hp with h | ⟨q, h, hq⟩
    · exact ih (t.call env c) p h
    · obtain ⟨r, hr, hqr⟩ := ih (t.call env c) q h
      exact ⟨r, hr, Relation.ReflTransGen.head hq hqr⟩

/-- C12: over every finite sequence of `Remove`, `Select`, `SetUpdatedAt` and
`Edit` calls on `NewText(seq, c)`, `createdAt` stays `c`; and from any point of
the sequence where `removedAt` holds a ticket `p`, the next call leaves it at
`p` or replaces it by a ticket that is `After` `p`, and after any further calls
it is set to a ticket reached from `p` by such replacements. -/
theorem lifecycle_invariant {T Ctx : Type} [TicketOps T] (env : Collaborators T Ctx)
    (seq : RGATreeSplit T) (c : Option T) (cs : List (TextCall T)) :
    ((NewText seq c).calls env cs).createdAt = c ∧
    (∀ (call : TextCall T) (p : T), ((NewText seq c).calls env cs).removedAt = some p →
      (((NewText seq c).calls env cs).call env call).removedAt = some p ∨
      ∃ q, (((NewText seq c).calls env cs).call env call).removedAt = some q ∧
        TicketOps.After q p = true) ∧
    (∀ (more : List (TextCall T)) (p : T), ((NewText seq c).calls env cs).removedAt = some p →
      ∃ q, ((NewText seq c).calls env (cs ++ more)).removedAt = some q ∧
        Relation.ReflTransGen (fun x y : T => TicketOps.After y x = true) p q) := by
  refine ⟨?_, fun call p hp => call_removedAt env _ call p hp, fun more p hp => ?_⟩
  · have h : ∀ (l : List (TextCall T)) (t : Text T), (t.calls env l).createdAt = t.createdAt := by
      intro l
      induction l with
      | nil => intro t; rfl
      | cons x xs ih =>
        intro t
        exact (ih (t.call env x)).trans (call_createdAt env t x)
    exact h cs (NewText seq c)
  · rw [calls_append]
    exact calls_removedAt env more _ p hp

/-! ## The order of the concrete tickets -/

theorem ticket_after_iff (a b : Ticket) :
    TicketOps.After a b = true ↔
      b.lamport < a.lamport ∨ (a.lamport = b.lamport ∧ b.actorID < a.actorID) := by
  simp [TicketOps.After]

theorem ticket_after_irrefl (a : Ticket) : TicketOps.After a a = false := by
  rw [← Bool.not_eq_true, ticket_after_iff]
  rintro (h | ⟨_, h⟩)
  · exact Nat.lt_irrefl _ h
  · exact lt_irrefl _ h

theorem ticket_after_trans (a b c : Ticket) (hab : TicketOps.After a b = true)
    (hbc : TicketOps.After b c = true) : TicketOps.After a c = true := by
  rw [ticket_after_iff] at *
  rcases hab with h1 | ⟨h1, h1'⟩ <;> rcases hbc with h2 | ⟨h2, h2'⟩
  · exact Or.inl (by omega)
  · exact Or.inl (by omega)
  · exact Or.inl (by omega)
  · exact Or.inr ⟨by omega, lt_trans h2' h1'⟩

theorem ticket_after_total (a b : Ticket) (h : a ≠ b) :
    TicketOps.After a b = true ∨ TicketOps.After b a = true := by
  rw [ticket_after_iff, ticket_after_iff]
  rcases Nat.lt_trichotomy a.lamport b.lamport with hl | hl | hl
  · exact Or.inr (Or.inl hl)
  · rcases lt_trichotomy a.actorID b.actorID with ha | ha | ha
    · exact Or.inr (Or.inr ⟨hl.symm, ha⟩)
    · exact absurd (by cases a; cases b; simp_all) h
    · exact Or.inl (Or.inr ⟨hl, ha⟩)
  · exact Or.inl (Or.inl hl)

/-! ## Convergence of `Remove` -/

/-- C16: when `After` is a strict total order of the tickets, for every Text
and all tickets `a` and `b`, `Remove(a)` then `Remove(b)` leaves the same Text
as `Remove(b)` then `Remove(a)`; its `removedAt` is the latest of the previous
`removedAt` (if set), `a` and `b`; and a second `Remove(a)` right after the
first returns false and leaves the Text as the first left it. -/
theorem remove_converges {T : Type} [TicketOps T] (t : Text T) (a b : T)
    (hirrefl : ∀ x : T, TicketOps.After x x = false)
    (htrans : ∀ x y z : T, TicketOps.After x y = true → TicketOps.After y z = true →
      TicketOps.After x z = true)
    (htotal : ∀ x y : T, x ≠ y → TicketOps.After x y = true ∨ TicketOps.After y x = true) :
    ((t.Remove a).1.Remove b).1 = ((t.Remove b).1.Remove a).1 ∧
    (∃ m, ((t.Remove a).1.Remove b).1.removedAt = some m ∧
      m ∈ t.removedAt.toList ++ [a, b] ∧
      ∀ x ∈ t.removedAt.toList ++ [a, b], x = m ∨ TicketOps.After m x = true) ∧
    (t.Remove a).1.Remove a = ((t.Remove a).1, false) := by
  have hasym : ∀ x y : T, TicketOps.After x y = true → TicketOps.After y x = false := by
    intro x y hxy
    by_contra hyx
    rw [Bool.not_eq_false] at hyx
    have := htrans x y x hxy hyx
    rw [hirrefl x] at this
    exact Bool.false_ne_true this
  have hcases : ∀ x y : T, x = y ∨ (TicketOps.After x y = true ∧ TicketOps.After y x = false) ∨
      (TicketOps.After y x = true ∧ TicketOps.After x y = false) := by
    intro x y
    by_cases hxy : x = y
    · exact Or.inl hxy
    · rcases htotal x y hxy with h | h
      · exact Or.inr (Or.inl ⟨h, hasym x y h⟩)
      · exact Or.inr (Or.inr ⟨h, hasym y x h⟩)
  unfold Text.Remove
  cases hr : t.removedAt with
  | none =>
    rcases hcases a b with rfl | ⟨h1, h2⟩ | ⟨h1, h2⟩
    · simp [hirrefl]
    · simp [h1, h2, hirrefl]
    · simp [h1, h2, hirrefl]
  | some p =>
    rcases hcases a b with rfl | ⟨h1, h2⟩ | ⟨h1, h2⟩
    · rcases hcases a p with rfl | ⟨h3, h4⟩ | ⟨h3, h4⟩
      · simp [hirrefl, hr]
      · simp [hirrefl, hr, h3, h4]
      · simp [hirrefl, hr, h3, h4]
    · rcases hcases a p with rfl | ⟨h3, h4⟩ | ⟨h3, h4⟩
      · simp [hirrefl, hr, h1, h2]
      · rcases hcases b p with rfl | ⟨h5, h6⟩ | ⟨h5, h6⟩
        · simp [hirrefl, hr, h1, h2, h3, h4]
        · simp [hirrefl, hr, h1, h2, h3, h4, h5, h6]
        · simp [hirrefl, hr, h1, h2, h3, h4, h5, h6]
      · have h5 : TicketOps.After p b = true := htrans p a b h3 h1
        have h6 := hasym p b h5
        simp [hirrefl, hr, h1, h2, h3, h4, h5, h6]
    · rcases hcases b p with rfl | ⟨h3, h4⟩ | ⟨h3, h4⟩
      · simp [hirrefl, hr, h1, h2]
      · rcases hcases a p with rfl | ⟨h5, h6⟩ | ⟨h5, h6⟩
        · simp [hirrefl, hr, h1, h2, h3, h4]
        · simp [hirrefl, hr, h1, h2, h3, h4, h5, h6]
        · simp [hirrefl, hr, h1, h2, h3, h4, h5, h6]
      · have h5 : TicketOps.After p a = true := htrans p b a h3 h1
        have h6 := hasym p a h5
        simp [hirrefl, hr, h1, h2, h3, h4, h5, h6]

/-- Witness for `remove_converges`: `exSelectedText`, removed with ticket 2 of
actor "a", and the tickets 5 of actor "b" and 3 of actor "a". -/
theorem remove_converges_witness :
    ((exSelectedText.Remove ⟨5, "b"⟩).1.Remove ⟨3, "a"⟩).1 =
      ((exSelectedText.Remove ⟨3, "a"⟩).1.Remove ⟨5, "b"⟩).1 ∧
    (∃ m, ((exSelectedText.Remove ⟨5, "b"⟩).1.Remove ⟨3, "a"⟩).1.removedAt = some m ∧
      m ∈ exSelectedText.removedAt.toList ++ [⟨5, "b"⟩, ⟨3, "a"⟩] ∧
      ∀ x ∈ exSelectedText.removedAt.toList ++ [⟨5, "b"⟩, ⟨3, "a"⟩],
        x = m ∨ TicketOps.After m x = true) ∧
    (exSelectedText.Remove ⟨5, "b"⟩).1.Remove ⟨5, "b"⟩ =
      ((exSelectedText.Remove ⟨5, "b"⟩).1, false) :=
  remove_converges exSelectedText ⟨5, "b"⟩ ⟨3, "a"⟩ ticket_after_irrefl ticket_after_trans
    ticket_after_total

/-! ## The operation that `TextProxy.Edit` logs -/

/-- C15: for every `TextProxy.Edit(from, to, content)` with `from <= to` that
returns, the change context after the call is the context left by the single
`IssueTimeTicket` call with exactly one operation pushed to it, the `Edit`
operation whose fields are the text's `createdAt`, the positions `fromPos`
and `toPos` that `FindBoundary` returned and that were passed to `Text.Edit`,
the map `M` that `Text.Edit` returned, the content, and the ticket `k` issued
and passed to `Text.Edit`. -/
theorem logged_operation_is_applied_edit {T Ctx : Type} (env : Collaborators T Ctx)
    (p : TextProxy T Ctx) (fromIdx toIdx : Int) (content : List Nat) (hle : fromIdx ≤ toIdx)
    (hret : (p.Edit env fromIdx toIdx content).2 = Outcome.returned) :
    ∃ fromPos toPos cursor M,
      (p.Text.CreateRange env fromIdx toIdx).2 = some (fromPos, toPos) ∧
      ((p.Text.CreateRange env fromIdx toIdx).1.Edit env fromPos toPos none content
          (env.IssueTimeTicket p.context).2).2 = some (cursor, M) ∧
      (p.Edit env fromIdx toIdx content).1.Text =
        ((p.Text.CreateRange env fromIdx toIdx).1.Edit env fromPos toPos none content
          (env.IssueTimeTicket p.context).2).1 ∧
      (p.Edit env fromIdx toIdx content).1.context =
        env.Push (env.IssueTimeTicket p.context).1
          (NewEdit p.Text.CreatedAt fromPos toPos M content (env.IssueTimeTicket p.context).2) ∧
      (p.Edit env fromIdx toIdx content).1.Text.CreatedAt = p.Text.CreatedAt := by
  have hnot : ¬ fromIdx > toIdx := not_lt.mpr hle
  unfold TextProxy.Edit at hret ⊢
  rw [if_neg hnot] at hret ⊢
  rcases hc : p.Text.CreateRange env fromIdx toIdx with ⟨text1, _ | ⟨fromPos, toPos⟩⟩
  · rw [hc] at hret
    simp at hret
  · rw [hc] at hret
    simp only at hret ⊢
    rcases he : text1.Edit env fromPos toPos none content (env.IssueTimeTicket p.context).2 with
      ⟨text2, _ | ⟨cursor, M⟩⟩
    · rw [he] at hret
      simp at hret
    · have h1 : text1.createdAt = p.Text.createdAt := by
        have := congrArg Prod.fst hc
        simp only [Text.CreateRange] at this
        rw [← this]
      have h2 : text2.createdAt = text1.createdAt := by
        have := congrArg Prod.fst he
        simp only [Text.Edit] at this
        rw [← this]
      refine ⟨fromPos, toPos, cursor, M, rfl, ?_, ?_, ?_, ?_⟩
      · rw [he]
      · rw [he]
      · simp only [Text.CreatedAt, h2, h1]
      · simp only [Text.CreatedAt, h2, h1]

/-- Witness for `logged_operation_is_applied_edit`: `Edit(0, 2, "H")` on
`exProxy`, whose context has issued four tickets and holds no operation. -/
theorem logged_operation_is_applied_edit_witness :
    ∃ fromPos toPos cursor M,
      (exProxy.Text.CreateRange exCollaborators 0 2).2 = some (fromPos, toPos) ∧
      ((exProxy.Text.CreateRange exCollaborators 0 2).1.Edit exCollaborators fromPos toPos none
          [0x48] (exCollaborators.IssueTimeTicket exProxy.context).2).2 = some (cursor, M) ∧
      (exProxy.Edit exCollaborators 0 2 [0x48]).1.Text =
        ((exProxy.Text.CreateRange exCollaborators 0 2).1.Edit exCollaborators fromPos toPos none
          [0x48] (exCollaborators.IssueTimeTicket exProxy.context).2).1 ∧
      (exProxy.Edit exCollaborators 0 2 [0x48]).1.context =
        exCollaborators.Push (exCollaborators.IssueTimeTicket exProxy.context).1
          (NewEdit exProxy.Text.CreatedAt fromPos toPos M [0x48]
            (exCollaborators.IssueTimeTicket exProxy.context).2) ∧
      (exProxy.Edit exCollaborators 0 2 [0x48]).1.Text.CreatedAt = exProxy.Text.CreatedAt :=
  logged_operation_is_applied_edit exCollaborators exProxy 0 2 [0x48] (by decide) (by decide)

/-! ## Convergence of `Select` -/

theorem select_eq_selectMap {T : Type} [TicketOps T] (t : Text T)
    (fromPos toPos : RGATreeSplitNodePos T) (updatedAt : T) :
    t.Select fromPos toPos updatedAt =
      { t with selectionMap := selectMap t.selectionMap fromPos toPos updatedAt } := by
  have hm : selectMap t.selectionMap fromPos toPos updatedAt =
      (t.Select fromPos toPos updatedAt).selectionMap := by
    funext a
    unfold Text.Select selectMap
    cases t.selectionMap (TicketOps.ActorIDHex updatedAt) with
    | none => rfl
    | some prev =>
      by_cases ha : TicketOps.After updatedAt prev.updatedAt = true
      · simp [ha]
      · simp [ha]
  rw [hm]
  unfold Text.Select
  cases t.selectionMap (TicketOps.ActorIDHex updatedAt) with
  | none => rfl
  | some prev =>
    by_cases ha : TicketOps.After updatedAt prev.updatedAt = true
    · simp [ha]
    · simp [ha]

theorem selectMap_apply {T : Type} [TicketOps T] (m : String → Option (Selection T))
    (f g : RGATreeSplitNodePos T) (k : T) (a : String) :
    selectMap m f g k a =
      match m (TicketOps.ActorIDHex k) with
      | none => if a = TicketOps.ActorIDHex k then some (newSelection f g k) else m a
      | some prev =>
        if TicketOps.After k prev.updatedAt = true then
          if a = TicketOps.ActorIDHex k then some (newSelection f g k) else m a
        else m a := rfl

/-- A selection leaves the entries of the other actors as they are. -/
theorem selectMap_other {T : Type} [TicketOps T] (m : String → Option (Selection T))
    (f g : RGATreeSplitNodePos T) (k : T) (a : String) (h : a ≠ TicketOps.ActorIDHex k) :
    selectMap m f g k a = m a := by
  rw [selectMap_apply]
  cases m (TicketOps.ActorIDHex k) with
  | none => simp [h]
  | some prev => simp [h]

/-- Two selections of different actors commute. -/
theorem selectMap_comm_other {T : Type} [TicketOps T] (m : String → Option (Selection T))
    (f1 g1 f2 g2 : RGATreeSplitNodePos T) (k1 k2 : T)
    (hact : TicketOps.ActorIDHex k1 ≠ TicketOps.ActorIDHex k2) :
    selectMap (selectMap m f1 g1 k1) f2 g2 k2 = selectMap (selectMap m f2 g2 k2) f1 g1 k1 := by
  funext a
  rw [selectMap_apply (selectMap m f1 g1 k1), selectMap_apply (selectMap m f2 g2 k2),
    selectMap_other m f1 g1 k1 _ (Ne.symm hact), selectMap_other m f2 g2 k2 _ hact]
  by_cases ha1 : a = TicketOps.ActorIDHex k1
  · have ha2 : a ≠ TicketOps.ActorIDHex k2 := fun h => hact (ha1.symm.trans h)
    rw [selectMap_other m f2 g2 k2 a ha2, selectMap_apply m f1 g1 k1 a]
    cases m (TicketOps.ActorIDHex k2) with
    | none => simp [ha2]
    | some prev => simp [ha2]
  · rw [selectMap_other m f1 g1 k1 a ha1, selectMap_apply m f2 g2 k2 a]
    cases m (TicketOps.ActorIDHex k1) with
    | none => simp [ha1]
    | some prev => simp [ha1]

/-- Two selections of one actor commute: the one with the later ticket wins
against the other. -/
theorem selectMap_comm_same {T : Type} [TicketOps T] (m : String → Option (Selection T))
    (f1 g1 f2 g2 : RGATreeSplitNodePos T) (k1 k2 : T)
    (hact : TicketOps.ActorIDHex k1 = TicketOps.ActorIDHex k2)
    (h21 : TicketOps.After k2 k1 = true) (h12 : TicketOps.After k1 k2 = false)
    (htrans : ∀ x y z : T, TicketOps.After x y = true → TicketOps.After y z = true →
      TicketOps.After x z = true) :
    selectMap (selectMap m f1 g1 k1) f2 g2 k2 = selectMap (selectMap m f2 g2 k2) f1 g1 k1 := by
  funext a
  simp only [selectMap_apply, hact]
  by_cases hA : a = TicketOps.ActorIDHex k2
  · cases hm : m (TicketOps.ActorIDHex k2) with
    | none => simp [newSelection, h21, h12, hA]
    | some p =>
      by_cases h2p : TicketOps.After k2 p.updatedAt = true
      · by_cases h1p : TicketOps.After k1 p.updatedAt = true
        · simp [newSelection, h21, h12, h2p, h1p, hm, hA]
        · simp [newSelection, h21, h12, h2p, h1p, hm, hA]
      · have h1p : ¬ TicketOps.After k1 p.updatedAt = true := fun h => h2p (htrans _ _ _ h21 h)
        simp [newSelection, h21, h12, h2p, h1p, hm, hA]
  · cases hm : m (TicketOps.ActorIDHex k2) with
    | none => simp [newSelection, h21, h12, hA]
    | some p =>
      by_cases h2p : TicketOps.After k2 p.updatedAt = true
      · by_cases h1p : TicketOps.After k1 p.updatedAt = true
        · simp [newSelection, h21, h12, h2p, h1p, hm, hA]
        · simp [newSelection, h21, h12, h2p, h1p, hm, hA]
      · have h1p : ¬ TicketOps.After k1 p.updatedAt = true := fun h => h2p (htrans _ _ _ h21 h)
        simp [newSelection, h21, h12, h2p, h1p, hm, hA]

/-- C17 (as stated, refuted): on `exSelectedText` actor "a" has the selection
`(exID 1 : 0, exID 1 : 1)` stored with ticket 5.  The calls
`Select(f1, t1, k1)` with ticket 3 and `Select(f2, t2, k2)` with ticket 5 of
the same actor have distinct tickets, `k2` is the later one, and the stored
selection is not later than both (its ticket is not `After` `k2`); yet after
the two calls, in either order, the selection stored is neither that of the
call with the later ticket nor that of the other call, but the one stored
before. -/
theorem select_converges_counterexample :
    (⟨3, "a"⟩ : Ticket) ≠ ⟨5, "a"⟩ ∧
    TicketOps.ActorIDHex (⟨3, "a"⟩ : Ticket) = TicketOps.ActorIDHex (⟨5, "a"⟩ : Ticket) ∧
    TicketOps.After (⟨5, "a"⟩ : Ticket) ⟨3, "a"⟩ = true ∧
    exSelectedText.selectionMap "a" = some (newSelection ⟨exID 1, 0⟩ ⟨exID 1, 1⟩ ⟨5, "a"⟩) ∧
    TicketOps.After (newSelection ⟨exID 1, 0⟩ ⟨exID 1, 1⟩ (⟨5, "a"⟩ : Ticket)).updatedAt
      ⟨5, "a"⟩ = false ∧
    ((exSelectedText.Select ⟨exID 1, 2⟩ ⟨exID 1, 3⟩ ⟨3, "a"⟩).Select
        ⟨exID 1, 4⟩ ⟨exID 1, 5⟩ ⟨5, "a"⟩).selectionMap "a" =
      some (newSelection ⟨exID 1, 0⟩ ⟨exID 1, 1⟩ ⟨5, "a"⟩) ∧
    ((exSelectedText.Select ⟨exID 1, 4⟩ ⟨exID 1, 5⟩ ⟨5, "a"⟩).Select
        ⟨exID 1, 2⟩ ⟨exID 1, 3⟩ ⟨3, "a"⟩).selectionMap "a" =
      some (newSelection ⟨exID 1, 0⟩ ⟨exID 1, 1⟩ ⟨5, "a"⟩) ∧
    ((exSelectedText.Select ⟨exID 1, 2⟩ ⟨exID 1, 3⟩ ⟨3, "a"⟩).Select
        ⟨exID 1, 4⟩ ⟨exID 1, 5⟩ ⟨5, "a"⟩).selectionMap "a" ≠
      some (newSelection ⟨exID 1, 4⟩ ⟨exID 1, 5⟩ ⟨5, "a"⟩) ∧
    ((exSelectedText.Select ⟨exID 1, 2⟩ ⟨exID 1, 3⟩ ⟨3, "a"⟩).Select
        ⟨exID 1, 4⟩ ⟨exID 1, 5⟩ ⟨5, "a"⟩).selectionMap "a" ≠
      some (newSelection ⟨exID 1, 2⟩ ⟨exID 1, 3⟩ ⟨3, "a"⟩) := by
  have hs : exSelectedText.selectionMap "a" =
      some (newSelection ⟨exID 1, 0⟩ ⟨exID 1, 1⟩ ⟨5, "a"⟩) := by decide
  have e1 : exSelectedText.Select ⟨exID 1, 2⟩ ⟨exID 1, 3⟩ ⟨3, "a"⟩ = exSelectedText :=
    select_not_after _ _ _ _ _ hs (by decide)
  have e2 : exSelectedText.Select ⟨exID 1, 4⟩ ⟨exID 1, 5⟩ ⟨5, "a"⟩ = exSelectedText :=
    select_not_after _ _ _ _ _ hs (ticket_after_irrefl _)
  rw [e1, e2, e1, hs]
  exact ⟨by decide, rfl, by decide, rfl, ticket_after_irrefl _, rfl, rfl, by decide, by decide⟩

/-- C17 (amended): when `After` is a strict total order of the tickets, for
every Text and any two calls `Select(f1, t1, k1)` and `Select(f2, t2, k2)` with
`k1 ≠ k2`, of the same actor or of different actors, the two orders of
applying them leave the same Text and so the same selection map.  When both
tickets belong to one actor and `k2` is the later one, the selection stored
for the actor afterwards is `(f2, t2, k2)` if no selection was stored before
or `k2` is `After` the ticket of the stored one, and the selection stored
before in every other case (its ticket is `k2` itself or later than both). -/
theorem select_converges {T : Type} [TicketOps T] (t : Text T)
    (f1 g1 f2 g2 : RGATreeSplitNodePos T) (k1 k2 : T) (hne : k1 ≠ k2)
    (hirrefl : ∀ x : T, TicketOps.After x x = false)
    (htrans : ∀ x y z : T, TicketOps.After x y = true → TicketOps.After y z = true →
      TicketOps.After x z = true)
    (htotal : ∀ x y : T, x ≠ y → TicketOps.After x y = true ∨ TicketOps.After y x = true) :
    (t.Select f1 g1 k1).Select f2 g2 k2 = (t.Select f2 g2 k2).Select f1 g1 k1 ∧
    ((t.Select f1 g1 k1).Select f2 g2 k2).selectionMap =
      ((t.Select f2 g2 k2).Select f1 g1 k1).selectionMap ∧
    (TicketOps.ActorIDHex k1 = TicketOps.ActorIDHex k2 → TicketOps.After k2 k1 = true →
      ((t.selectionMap (TicketOps.ActorIDHex k2) = none ∨
          ∃ prev, t.selectionMap (TicketOps.ActorIDHex k2) = some prev ∧
            TicketOps.After k2 prev.updatedAt = true) →
        ((t.Select f1 g1 k1).Select f2 g2 k2).selectionMap (TicketOps.ActorIDHex k2) =
          some (newSelection f2 g2 k2)) ∧
      (∀ prev, t.selectionMap (TicketOps.ActorIDHex k2) = some prev →
        TicketOps.After k2 prev.updatedAt = false →
        (prev.updatedAt = k2 ∨ (TicketOps.After prev.updatedAt k2 = true ∧
          TicketOps.After prev.updatedAt k1 = true)) ∧
        ((t.Select f1 g1 k1).Select f2 g2 k2).selectionMap (TicketOps.ActorIDHex k2) =
          some prev)) := by
  have hasym : ∀ x y : T, TicketOps.After x y = true → TicketOps.After y x = false := by
    intro x y hxy
    by_contra hyx
    rw [Bool.not_eq_false] at hyx
    have := htrans x y x hxy hyx
    rw [hirrefl x] at this
    exact Bool.false_ne_true this
  have hconv : (t.Select f1 g1 k1).Select f2 g2 k2 = (t.Select f2 g2 k2).Select f1 g1 k1 := by
    rw [select_eq_selectMap t f1 g1 k1, select_eq_selectMap t f2 g2 k2, select_eq_selectMap,
      select_eq_selectMap]
    simp only
    congr 1
    by_cases hact : TicketOps.ActorIDHex k1 = TicketOps.ActorIDHex k2
    · rcases htotal k1 k2 hne with h | h
      · exact (selectMap_comm_same t.selectionMap f2 g2 f1 g1 k2 k1 hact.symm h (hasym _ _ h)
          htrans).symm
      · exact selectMap_comm_same t.selectionMap f1 g1 f2 g2 k1 k2 hact h (hasym _ _ h) htrans
    · exact selectMap_comm_other t.selectionMap f1 g1 f2 g2 k1 k2 hact
  refine ⟨hconv, by rw [hconv], fun hact hlater => ⟨?_, fun prev hprev hstale => ⟨?_, ?_⟩⟩⟩
  · intro hfresh
    have h1 : ∀ sel, (t.Select f1 g1 k1).selectionMap (TicketOps.ActorIDHex k2) = some sel →
        TicketOps.After k2 sel.updatedAt = true := by
      intro sel hsel
      rw [select_eq_selectMap] at hsel
      simp only [selectMap_apply, hact] at hsel
      rcases hfresh with hn | ⟨prev, hp, ha⟩
      · rw [hn] at hsel
        simp only [if_true, Option.some.injEq] at hsel
        rw [← hsel]
        exact hlater
      · rw [hp] at hsel
        by_cases h1p : TicketOps.After k1 prev.updatedAt = true
        · simp only [h1p, if_true, Option.some.injEq] at hsel
          rw [← hsel]
          exact hlater
        · simp [h1p] at hsel
          rw [← hsel]
          exact ha
    exact select_stores (t.Select f1 g1 k1) f2 g2 k2 h1
  · by_cases he : prev.updatedAt = k2
    · exact Or.inl he
    · rcases htotal prev.updatedAt k2 he with h | h
      · exact Or.inr ⟨h, htrans _ _ _ h hlater⟩
      · rw [hstale] at h
        exact absurd h Bool.false_ne_true
  · have hk1 : TicketOps.After k1 prev.updatedAt = false := by
      by_contra h
      rw [Bool.not_eq_false] at h
      have := htrans _ _ _ hlater h
      rw [hstale] at this
      exact Bool.false_ne_true this
    have e1 : t.Select f1 g1 k1 = t :=
      select_not_after t f1 g1 k1 prev (by rw [hact]; exact hprev) hk1
    rw [e1, select_not_after t f2 g2 k2 prev hprev hstale]
    exact hprev

/-- Witness for `select_converges`: on `exSelectedText`, where actor "a" has a
selection stored with ticket 5, the calls with tickets 7 and 6 of actor "a". -/
theorem select_converges_witness :
    (exSelectedText.Select ⟨exID 1, 2⟩ ⟨exID 1, 3⟩ ⟨6, "a"⟩).Select
        ⟨exID 1, 4⟩ ⟨exID 1, 5⟩ ⟨7, "a"⟩ =
      (exSelectedText.Select ⟨exID 1, 4⟩ ⟨exID 1, 5⟩ ⟨7, "a"⟩).Select
        ⟨exID 1, 2⟩ ⟨exID 1, 3⟩ ⟨6, "a"⟩ ∧
    ((exSelectedText.Select ⟨exID 1, 2⟩ ⟨exID 1, 3⟩ ⟨6, "a"⟩).Select
        ⟨exID 1, 4⟩ ⟨exID 1, 5⟩ ⟨7, "a"⟩).selectionMap =
      ((exSelectedText.Select ⟨exID 1, 4⟩ ⟨exID 1, 5⟩ ⟨7, "a"⟩).Select
        ⟨exID 1, 2⟩ ⟨exID 1, 3⟩ ⟨6, "a"⟩).selectionMap ∧
    ((exSelectedText.Select ⟨exID 1, 2⟩ ⟨exID 1, 3⟩ ⟨6, "a"⟩).Select
        ⟨exID 1, 4⟩ ⟨exID 1, 5⟩ ⟨7, "a"⟩).selectionMap "a" =
      some (newSelection ⟨exID 1, 4⟩ ⟨exID 1, 5⟩ ⟨7, "a"⟩) :=
  ⟨(select_converges exSelectedText ⟨exID 1, 2⟩ ⟨exID 1, 3⟩ ⟨exID 1, 4⟩ ⟨exID 1, 5⟩
      ⟨6, "a"⟩ ⟨7, "a"⟩ (by decide) ticket_after_irrefl ticket_after_trans
      ticket_after_total).1,
    (select_converges exSelectedText ⟨exID 1, 2⟩ ⟨exID 1, 3⟩ ⟨exID 1, 4⟩ ⟨exID 1, 5⟩
      ⟨6, "a"⟩ ⟨7, "a"⟩ (by decide) ticket_after_irrefl ticket_after_trans
      ticket_after_total).2.1,
    ((select_converges exSelectedText ⟨exID 1, 2⟩ ⟨exID 1, 3⟩ ⟨exID 1, 4⟩ ⟨exID 1, 5⟩
      ⟨6, "a"⟩ ⟨7, "a"⟩ (by decide) ticket_after_irrefl ticket_after_trans
      ticket_after_total).2.2 rfl (by decide)).1
      (Or.inr ⟨newSelection ⟨exID 1, 0⟩ ⟨exID 1, 1⟩ ⟨5, "a"⟩, by decide, by decide⟩)⟩

/-! ## The domain of `TextValue.Split` -/

/-- C13 (as stated, refuted): the value "a" has `Len()` 1; when the rune slice
`[]rune("a")` has room for one more rune, `Split(2)` panics, since 2 is beyond
the length, but only at the second slice expression: the first one has by then
stored the runes `a`, U+0000 in the receiver, whose content is no longer "a". -/
theorem split_domain_counterexample :
    (TextValue.mk [0x61]).Len < 2 ∧
    (TextValue.mk [0x61]).Split 1 2 = (TextValue.mk [0x61, 0x00], none) ∧
    ((TextValue.mk [0x61]).Split 1 2).1.String ≠ (TextValue.mk [0x61]).String := by
  decide

/-- C13 (amended): for every TextValue `v` and every offset: with
`0 ≤ offset ≤ v.Len()`, `v.Split(offset)` returns; with `offset < 0` or
`offset > v.Len()` it panics instead of clamping.  When it panics, the content
of `v` is unchanged if `offset < 0` or `offset` exceeds the capacity of the
rune slice (`Len()` plus the surplus `slack`); if `offset` lies beyond `Len()`
but within the capacity, `v` holds by then its runes followed by
`offset - Len()` runes U+0000, its `Len()` is `offset`, and it is not the value
it was. -/
theorem split_domain (slack : Nat) (v : TextValue) (offset : Int) :
    (0 ≤ offset → offset ≤ v.Len → ∃ r, (v.Split slack offset).2 = some r) ∧
    (offset < 0 ∨ v.Len < offset → (v.Split slack offset).2 = none) ∧
    (offset < 0 ∨ v.Len + slack < offset → (v.Split slack offset).1 = v) ∧
    (v.Len < offset → offset ≤ v.Len + slack →
      (v.Split slack offset).1.value =
        runesToString (stringToRunes v.value ++ List.replicate (offset - v.Len).toNat 0) ∧
      (v.Split slack offset).1.Len = offset ∧ (v.Split slack offset).1 ≠ v) := by
  have hl : ((stringToRunes v.value).length : Int) = v.Len := by
    simp [TextValue.Len, length_stringToRunes]
  refine ⟨fun h0 h1 => ?_, fun h => ?_, fun h => ?_, fun h1 h2 => ?_⟩
  · exact ⟨_, by rw [split_in_range slack v offset h0 h1]⟩
  · simp only [TextValue.Split]
    by_cases hc : offset < 0 ∨ ((stringToRunes v.value).length + slack : Nat) < offset
    · rw [if_pos hc]
    · rw [if_neg hc, if_pos (by omega)]
  · simp only [TextValue.Split]
    rw [if_pos (by push_cast; omega)]
  · have hv : (v.Split slack offset).1.value =
        runesToString (stringToRunes v.value ++ List.replicate (offset - v.Len).toNat 0) := by
      simp only [TextValue.Split]
      rw [if_neg (by push_cast; omega), if_pos (by omega)]
      simp only
      rw [List.take_append_eq_append_take, List.take_of_length_le (by omega), List.take_replicate]
      congr 3
      omega
    have hlen : (v.Split slack offset).1.Len = offset := by
      rw [TextValue.Len, hv, runeCount_runesToString]
      · simp only [List.length_append, List.length_replicate]
        omega
      · intro r hr
        rw [List.mem_append] at hr
        rcases hr with hr | hr
        · exact stringToRunes_valid v.value r hr
        · rw [List.eq_of_mem_replicate hr]
          decide
    refine ⟨hv, hlen, fun he => ?_⟩
    rw [he] at hlen
    omega

/-- Witness for `split_domain`: the value "a" with room for one more rune in
its rune slice, at the offsets 1, 2, 3 and -1. -/
theorem split_domain_witness :
    (∃ r, ((TextValue.mk [0x61]).Split 1 1).2 = some r) ∧
    ((TextValue.mk [0x61]).Split 1 2).2 = none ∧
    ((TextValue.mk [0x61]).Split 1 3).1 = TextValue.mk [0x61] ∧
    ((TextValue.mk [0x61]).Split 1 (-1)).1 = TextValue.mk [0x61] ∧
    ((TextValue.mk [0x61]).Split 1 2).1.Len = 2 :=
  ⟨(split_domain 1 (TextValue.mk [0x61]) 1).1 (by decide) (by decide),
    (split_domain 1 (TextValue.mk [0x61]) 2).2.1 (Or.inr (by decide)),
    (split_domain 1 (TextValue.mk [0x61]) 3).2.2.1 (Or.inr (by decide)),
    (split_domain 1 (TextValue.mk [0x61]) (-1)).2.2.1 (Or.inl (by decide)),
    ((split_domain 1 (TextValue.mk [0x61]) 2).2.2.2 (by decide) (by decide)).2.1⟩

/-! ## The two passes in closed form -/

/-- An insertion after the last node of the chain appends the new node,
registers it, and keeps the invariant of the loop. -/
theorem insertAfter_inv {T : Type} [DecidableEq T] (s : RGATreeSplit T) (cur : NodeRef T)
    (a : Nat) (new : RGATreeSplitNode T) (hinv : CopyInv s cur.addr a) (hnew : new.addr = a) :
    s.InsertAfter cur new =
        some (RGATreeSplit.mk s.initialHead (s.chain ++ [new])
          (fun id => if id = new.id then some a else s.treeByID id), new.ref) ∧
      CopyInv (RGATreeSplit.mk s.initialHead (s.chain ++ [new])
        (fun id => if id = new.id then some a else s.treeByID id)) new.ref.addr (a + 1) := by
  obtain ⟨hh, hc, hlast⟩ := hinv
  have hha : s.initialHead.addr ≠ a := Nat.ne_of_lt hh
  constructor
  · rcases hlast with ⟨hnil, hcur⟩ | ⟨pre, l, hch, hcur, hne, hpre⟩
    · simp [RGATreeSplit.InsertAfter, hcur, hnil, hnew]
    · simp [RGATreeSplit.InsertAfter, hcur, hne, hch, spliceAfter_last pre l _ hpre, hnew]
  · refine ⟨Nat.lt_succ_of_lt hh, ?_, Or.inr ⟨s.chain, new, rfl, rfl, ?_, ?_⟩⟩
    · intro n hn
      simp only [List.mem_append, List.mem_singleton] at hn
      rcases hn with hn | rfl
      · exact Nat.lt_succ_of_lt (hc n hn)
      · omega
    · simpa [hnew] using hha.symm
    · intro x hx
      simpa [hnew] using Nat.ne_of_lt (hc x hx)

/-- The first pass appends the plain copies of all the nodes and registers
them. -/
theorem copyAllNodes_spec {T : Type} [DecidableEq T] (ns : List (RGATreeSplitNode T))
    (s : RGATreeSplit T) (cur : NodeRef T) (a : Nat) (hinv : CopyInv s cur.addr a) :
    copyAllNodes s cur a ns =
      some (RGATreeSplit.mk s.initialHead (s.chain ++ plainCopies a ns)
        (registerAll s.treeByID a ns), copyRefs a ns) := by
  induction ns generalizing s cur a with
  | nil => simp [copyAllNodes, plainCopies, registerAll, copyRefs]
  | cons n rest ih =>
    obtain ⟨h1, hinv1⟩ := insertAfter_inv s cur a (n.DeepCopy a) hinv rfl
    simp only [copyAllNodes, h1]
    rw [ih _ _ _ hinv1]
    simp [plainCopies, copyRefs, registerAll, RGATreeSplitNode.DeepCopy]

theorem map_setInsPrev_of_ne {T : Type} (l : List (RGATreeSplitNode T)) (a : Nat)
    (v : Option (NodeRef T)) (h : ∀ n ∈ l, n.addr ≠ a) :
    l.map (fun n => if n.addr = a then { n with insPrev := v } else n) = l := by
  induction l with
  | nil => rfl
  | cons x xs ih =>
    have hx : x.addr ≠ a := h x (List.mem_cons_self x xs)
    simp [hx, ih (fun y hy => h y (List.mem_cons_of_mem x hy))]

theorem plainCopies_addr {T : Type} (a : Nat) (ns : List (RGATreeSplitNode T)) :
    ∀ x ∈ plainCopies a ns, a ≤ x.addr := by
  induction ns generalizing a with
  | nil => intro x hx; simp [plainCopies] at hx
  | cons n rest ih =>
    intro x hx
    simp only [plainCopies, List.mem_cons] at hx
    rcases hx with rfl | hx
    · exact Nat.le_refl _
    · exact Nat.le_of_succ_le (ih (a + 1) x hx)

/-- The second pass sets, copy by copy, the insertion predecessor that the
index returns, when every predecessor ID resolves. -/
theorem resolveInsPrevs_spec {T : Type} (ns : List (RGATreeSplitNode T))
    (h : RGATreeSplitNode T) (done : List (RGATreeSplitNode T))
    (F : RGATreeSplitNodeID T → Option Nat) (a : Nat) (hh : h.addr < a)
    (hd : ∀ x ∈ done, x.addr < a)
    (hres : ∀ n ∈ ns, ∀ p, n.InsPrevID = some p → ∃ x, F p = some x) :
    resolveInsPrevs (RGATreeSplit.mk h (done ++ plainCopies a ns) F) (ns.zip (copyRefs a ns)) =
      some (RGATreeSplit.mk h (done ++ resolvedCopies F a ns) F) := by
  induction ns generalizing done a with
  | nil => simp [resolveInsPrevs, plainCopies, resolvedCopies, copyRefs]
  | cons n rest ih =>
    have hrest : ∀ m ∈ rest, ∀ p, m.InsPrevID = some p → ∃ x, F p = some x :=
      fun m hm => hres m (List.mem_cons_of_mem n hm)
    have hd1 : ∀ (c : RGATreeSplitNode T), c.addr = a → ∀ x ∈ done ++ [c], x.addr < a + 1 := by
      intro c hc x hx
      simp only [List.mem_append, List.mem_singleton] at hx
      rcases hx with hx | rfl
      · exact Nat.lt_succ_of_lt (hd x hx)
      · omega
    simp only [copyRefs, List.zip_cons_cons, resolveInsPrevs]
    cases hp : n.InsPrevID with
    | none =>
      have := ih (done ++ [n.DeepCopy a]) (a + 1) (Nat.lt_succ_of_lt hh) (hd1 _ rfl) hrest
      simp only [List.append_assoc, List.singleton_append] at this
      simp only [plainCopies, resolvedCopies, hp, Option.bind_none]
      exact this
    | some p =>
      obtain ⟨x, hx⟩ := hres n (List.mem_cons_self n rest) p hp
      have hset : (RGATreeSplit.mk h (done ++ plainCopies a (n :: rest)) F).SetInsPrev
          (n.DeepCopy a).ref (some { addr := x, id := p }) =
          RGATreeSplit.mk h ((done ++ [{ n.DeepCopy a with
            insPrev := some { addr := x, id := p } }]) ++ plainCopies (a + 1) rest) F := by
        have h1 : h.addr ≠ a := Nat.ne_of_lt hh
        have h2 := map_setInsPrev_of_ne done a (some ({ addr := x, id := p } : NodeRef T))
          (fun y hy => Nat.ne_of_lt (hd y hy))
        have h3 := map_setInsPrev_of_ne (plainCopies (a + 1) rest) a
          (some ({ addr := x, id := p } : NodeRef T))
          (fun y hy => by have := plainCopies_addr (a + 1) rest y hy; omega)
        simp only [RGATreeSplit.SetInsPrev, RGATreeSplitNode.ref, RGATreeSplitNode.DeepCopy,
          plainCopies, List.map_append, List.map_cons, h2, h3, if_neg h1]
        simp
      have hih := ih (done ++ [{ n.DeepCopy a with insPrev := some { addr := x, id := p } }])
        (a + 1) (Nat.lt_succ_of_lt hh) (hd1 _ rfl) hrest
      simp only [RGATreeSplit.FindNode, hx, Option.map_some']
      rw [hset]
      refine hih.trans ?_
      simp [resolvedCopies, hp, hx, RGATreeSplitNode.DeepCopy]

/-- On a list of nodes with unique IDs in which every predecessor ID is known
beforehand or belongs to an earlier node, the loop of `Text.DeepCopy` finds
every predecessor, and finds what the complete index returns. -/
theorem copy_well_ordered {T : Type} [DecidableEq T] (ns : List (RGATreeSplitNode T))
    (index : RGATreeSplitNodeID T → Option Nat) (a : Nat) (K : RGATreeSplitNodeID T → Prop)
    (hK : ∀ p, K p → ∃ x, index p = some x)
    (hKd : ∀ p, K p → p ∉ ns.map (fun n => n.id))
    (hnd : (ns.map (fun n => n.id)).Nodup)
    (hord : ∀ pre n post p, ns = pre ++ n :: post → n.InsPrevID = some p →
      K p ∨ p ∈ pre.map (fun m => m.id)) :
    copyNodes index a ns = resolvedCopies (registerAll index a ns) a ns ∧
    copyWarnings index a ns = 0 ∧
    ∀ n ∈ ns, ∀ p, n.InsPrevID = some p → ∃ x, registerAll index a ns p = some x := by
  induction ns generalizing index a K with
  | nil => exact ⟨rfl, rfl, fun n hn => absurd hn (List.not_mem_nil n)⟩
  | cons n rest ih =>
    simp only [List.map_cons, List.nodup_cons] at hnd
    have hfirst : ∀ p, n.InsPrevID = some p →
        p ≠ n.id ∧ p ∉ rest.map (fun m => m.id) ∧ ∃ x, index p = some x := by
      intro p hp
      rcases hord [] n rest p rfl hp with hk | hm
      · have := hKd p hk
        simp only [List.map_cons, List.mem_cons, not_or] at this
        exact ⟨this.1, this.2, hK p hk⟩
      · simp at hm
    obtain ⟨ih1, ih2, ih3⟩ := ih (fun id => if id = n.id then some a else index id) (a + 1)
      (fun p => K p ∨ p = n.id)
      (by
        intro p hp
        by_cases e : p = n.id
        · exact ⟨a, by simp [e]⟩
        · rcases hp with hp | hp
          · simpa [e] using hK p hp
          · exact absurd hp e)
      (by
        intro p hp
        rcases hp with hp | hp
        · have := hKd p hp
          simp only [List.map_cons, List.mem_cons, not_or] at this
          exact this.2
        · rw [hp]
          exact hnd.1)
      hnd.2
      (by
        intro pre m post p hsplit hp
        rcases hord (n :: pre) m post p (by rw [hsplit]; rfl) hp with hk | hm
        · exact Or.inl (Or.inl hk)
        · simp only [List.map_cons, List.mem_cons] at hm
          rcases hm with hm | hm
          · exact Or.inl (Or.inr hm)
          · exact Or.inr hm)
    refine ⟨?_, ?_, ?_⟩
    · simp only [copyNodes, resolvedCopies, registerAll, ih1]
      congr 2
      cases hp : n.InsPrevID with
      | none => rfl
      | some p =>
        obtain ⟨h1, h2, x, hx⟩ := hfirst p hp
        show Option.map _ (if p = n.id then some a else index p) =
          Option.map _ (registerAll (fun id => if id = n.id then some a else index id) (a + 1)
            rest p)
        rw [registerAll_not_mem _ _ _ _ h2]
    · simp only [copyWarnings, ih2, Nat.add_zero]
      cases hp : n.InsPrevID with
      | none => rfl
      | some p =>
        obtain ⟨h1, h2, x, hx⟩ := hfirst p hp
        simp [h1, hx]
    · intro m hm p hp
      simp only [List.mem_cons] at hm
      rcases hm with rfl | hm
      · obtain ⟨h1, h2, x, hx⟩ := hfirst p hp
        exact ⟨x, by rw [registerAll, registerAll_not_mem _ _ _ _ h2, if_neg h1, hx]⟩
      · exact ih3 m hm p hp

/-! ## Single-pass copy and two-pass copy -/

/-- C18: for every Text whose node IDs, that of the head sentinel included, are
unique and in which the insertion predecessor of each node carries the ID of
the head sentinel or of a node earlier in chain order, the interleaved loop of
`Text.DeepCopy` logs no warning and returns the very Text that the two-pass
procedure returns (first copy all nodes, then resolve every predecessor against
the complete index): the same chain, the same insertion predecessors, the same
index; in both, every predecessor lookup finds a node, and the insertion
predecessor of each copy is the node the complete index holds for the ID.  The
same loop in `ProxyText` wraps that Text in the proxy. -/
theorem single_pass_eq_two_pass {T : Type} [DecidableEq T]
    (initialNodeID : RGATreeSplitNodeID T) (alloc : Nat) (t : Text T)
    (hunique : (initialNodeID :: t.Nodes.map (fun n => n.id)).Nodup)
    (hordered : ∀ pre n post p, t.Nodes = pre ++ n :: post → n.InsPrevID = some p →
      p = initialNodeID ∨ p ∈ pre.map (fun m => m.id)) :
    ∃ c, t.DeepCopy initialNodeID alloc = some (c, 0) ∧
      t.twoPassCopy initialNodeID alloc = some c ∧
      c.Nodes = resolvedCopies c.rgaTreeSplit.treeByID (alloc + 1) t.Nodes ∧
      (∀ n ∈ t.Nodes, ∀ p, n.InsPrevID = some p → ∃ r, c.rgaTreeSplit.FindNode p = some r) ∧
      ∀ (Ctx : Type) (ctx : Ctx),
        ProxyText initialNodeID alloc ctx t = some ({ Text := c, context := ctx }, 0) := by
  obtain ⟨c, hc, hhead, hchain, hidx, hsel, hcr, hu, hr⟩ := deepCopy_closed initialNodeID alloc t
  rw [List.nodup_cons] at hunique
  obtain ⟨h1, h2, h3⟩ := copy_well_ordered t.Nodes
    (fun id => if id = initialNodeID then some alloc else none) (alloc + 1)
    (fun p => p = initialNodeID)
    (by intro p hp; exact ⟨alloc, by simp [hp]⟩)
    (by intro p hp; rw [hp]; exact hunique.1)
    hunique.2 hordered
  rw [h2] at hc
  rw [h1, ← hidx] at hchain
  refine ⟨c, hc, ?_, hchain, ?_, fun Ctx ctx => by rw [proxyText_eq_deepCopy, hc]; rfl⟩
  · have hpass1 := copyAllNodes_spec t.Nodes
      (NewRGATreeSplit (InitialTextNode initialNodeID alloc))
      (NewRGATreeSplit (InitialTextNode initialNodeID alloc)).InitialHead (alloc + 1)
      ⟨by simp [NewRGATreeSplit, InitialTextNode, NewRGATreeSplitNode],
       by simp [NewRGATreeSplit],
       Or.inl ⟨rfl, rfl⟩⟩
    have hpass2 := resolveInsPrevs_spec t.Nodes (InitialTextNode initialNodeID alloc) []
      (registerAll (fun id => if id = initialNodeID then some alloc else none) (alloc + 1)
        t.Nodes) (alloc + 1)
      (by simp [InitialTextNode, NewRGATreeSplitNode])
      (by simp) h3
    simp only [List.nil_append] at hpass2
    simp only [NewRGATreeSplit, InitialTextNode, NewRGATreeSplitNode, List.nil_append] at hpass1
    simp only [InitialTextNode, NewRGATreeSplitNode] at hpass2
    simp only [Text.twoPassCopy, NewRGATreeSplit, InitialTextNode, NewRGATreeSplitNode, hpass1,
      hpass2, Option.map_some', Option.some.injEq]
    obtain ⟨⟨h, ch, idx⟩, sm, ca, ua, ra⟩ := c
    simp only [InitialTextNode, NewRGATreeSplitNode] at hhead
    simp only at hchain hidx hsel hcr hu hr
    subst hhead hidx hsel hcr hu hr
    rw [hchain]
    rfl
  · intro n hn p hp
    obtain ⟨x, hx⟩ := h3 n hn p hp
    exact ⟨{ addr := x, id := p }, by simp [RGATreeSplit.FindNode, hidx, hx]⟩

/-- Witness for `single_pass_eq_two_pass`: `exOrderedText`, whose chain is
`A, B` with the head as insertion predecessor of `A` and `A` as that of `B`. -/
theorem single_pass_eq_two_pass_witness :
    ∃ c, exOrderedText.DeepCopy exInitialID 3 = some (c, 0) ∧
      exOrderedText.twoPassCopy exInitialID 3 = some c ∧
      c.Nodes = resolvedCopies c.rgaTreeSplit.treeByID (3 + 1) exOrderedText.Nodes ∧
      (∀ n ∈ exOrderedText.Nodes, ∀ p, n.InsPrevID = some p →
        ∃ r, c.rgaTreeSplit.FindNode p = some r) ∧
      ∀ (Ctx : Type) (ctx : Ctx),
        ProxyText exInitialID 3 ctx exOrderedText = some ({ Text := c, context := ctx }, 0) :=
  single_pass_eq_two_pass exInitialID 3 exOrderedText (by decide)
    (by
      intro pre n post p hsplit hp
      have hnodes : exOrderedText.Nodes = [exOrderedA, exOrderedB] := rfl
      rw [hnodes] at hsplit
      rcases pre with _ | ⟨x, _ | ⟨y, pre⟩⟩
      · simp only [List.nil_append, List.cons.injEq] at hsplit
        rw [← hsplit.1] at hp
        simp only [RGATreeSplitNode.InsPrevID, exOrderedA, Option.map_some',
          Option.some.injEq] at hp
        exact Or.inl hp.symm
      · simp only [List.cons_append, List.nil_append, List.cons.injEq] at hsplit
        rw [← hsplit.2.1] at hp
        simp only [RGATreeSplitNode.InsPrevID, exOrderedB, Option.map_some',
          Option.some.injEq] at hp
        refine Or.inr ?_
        rw [← hsplit.1, ← hp]
        simp [exOrderedA]
      · simp at hsplit)

end Yorkie
